import Mathlib

/-! The scpdrop command validator and SCP stream interceptor.

A shallow embedding of `validateCommand` / `handleExec` (scpServer.go), of
`scpReader.Read` and `scpWriter.Write` (utils.go), of `validatePass` and
`validateUser` (validateLogin.go) and of the passwd line writers (user.go),
followed by the properties established about them.

Conventions of the embedding:
* a Go `string` or `[]byte` is a `Str`, a list with one `Char` per byte;
* a Go `uint64` is a `Nat` reduced modulo `2 ^ 64` wherever it is written;
* a Go `int` holding an index is an `Int` (`-1` is "not found");
* a run-time panic (slice bounds out of range) is the `none` result.
-/

namespace ScpDrop

deriving instance DecidableEq for Except

/-- Byte strings: one `Char` per byte of the Go value. -/
abbrev Str := List Char

/-! ## Go standard library functions used by the code -/

/-- Go `strings.Split(s, sep)` for a one-byte separator: the result always has
at least one element, and `n` separators give `n + 1` pieces. -/
def split : Str → Char → List Str
  | [], _ => [[]]
  | c :: cs, sep =>
    if c = sep then [] :: split cs sep
    else
      match split cs sep with
      | [] => [[c]]
      | h :: t => (c :: h) :: t

/-- Go `strings.HasPrefix(s, prefix)`. -/
def hasPrefix (s pre : Str) : Bool := pre.isPrefixOf s

/-- Go `strings.Index(s, substr)` / `bytes.Index`: index of the first
occurrence of `substr` in `s`, or `-1`. -/
def index : Str → Str → Int
  | [], sub => if sub = [] then 0 else -1
  | c :: cs, sub =>
    if hasPrefix (c :: cs) sub then 0
    else
      let i := index cs sub
      if i = -1 then -1 else i + 1

/-- Go `strings.IndexAny(s, chars)`: index of the first byte of `s` that
occurs in `chars`, or `-1`. -/
def indexAny : Str → Str → Int
  | [], _ => -1
  | c :: cs, chars =>
    if c ∈ chars then 0
    else
      let i := indexAny cs chars
      if i = -1 then -1 else i + 1

/-- Go `strings.Contains(s, substr)`. -/
def contains (s sub : Str) : Bool := decide (0 ≤ index s sub)

/-! ## scpServer.go -/

/-- Characters disallowed in scp commands (the constant disallowedChars); the
last one, byte 96, is the backquote. -/
def disallowedChars : Str := [';', '&', '|', '>', '<', '~', Char.ofNat 96]

/-- The path separator (`filepath.Separator` on the server's platform). -/
def Separator : Char := '/'

/-- The errors returned by the scp server to clients. -/
inductive ScpError where
  | errOnlySCP
  | errFewArgs
  | errDisallowedChars
  | errAbsolutePath
  | errPathTraversal
  | errUploadPrivs
  | errDownloadPrivs
  | errUnsupportedScpFlag
  | errRecursiveDownload
  | errRecursiveUpload
  deriving DecidableEq, Repr

/-- The text of each error (`err.Error()`), as sent to the client. -/
def ScpError.Error : ScpError → String
  | .errOnlySCP => "Only scp allowed"
  | .errFewArgs => "Too few arguments to scp"
  | .errDisallowedChars => "Disallowed characters in command"
  | .errAbsolutePath => "Only relative paths allowed"
  | .errPathTraversal => "Path traversal not allowed"
  | .errUploadPrivs => "This user do not have upload privileges"
  | .errDownloadPrivs => "This user do not have download privileges"
  | .errUnsupportedScpFlag => "Unsupported scp flag in command"
  | .errRecursiveDownload => "No recursive downloads allowed"
  | .errRecursiveUpload => "No recursive uploads allowed"

/-- The `ssh.Permissions` record: `CriticalOptions` is a string-to-string map,
kept as an association list; a missing key reads as the empty string. -/
structure Permissions where
  CriticalOptions : List (Str × Str)
  deriving DecidableEq, Repr

/-- Map read `perm.CriticalOptions[key]`. -/
def Permissions.opt (perm : Permissions) (key : String) : Str :=
  (perm.CriticalOptions.lookup key.toList).getD []

/-- The local variables of the flag loop of `validateCommand`. -/
structure FlagState where
  cmd : Str
  recurse : Bool
  download : Bool
  deriving DecidableEq, Repr

/-- The loop `for _, flag := range c[1 : len(c)-1]` of `validateCommand`. -/
def flagLoop (perm : Permissions) : List Str → FlagState → Except ScpError FlagState
  | [], st => .ok st
  | flag :: rest, st =>
    if flag = ['-', 'r'] then flagLoop perm rest { st with recurse := true }
    else if flag = ['-', 'd'] then flagLoop perm rest st
    else if flag = ['-', '-'] then flagLoop perm rest st
    else if flag = ['-', 't'] then
      if !contains (perm.opt "privs") ['w'] then .error .errUploadPrivs
      else flagLoop perm rest { st with cmd := ['-', 't'] }
    else if flag = ['-', 'f'] then
      if !contains (perm.opt "privs") ['r'] then .error .errDownloadPrivs
      else flagLoop perm rest { st with cmd := ['-', 'f'], download := true }
    else .error .errUnsupportedScpFlag

/-- The function `validateCommand`: the transfer mode on success, the error
otherwise (every error path of the source returns the empty mode). -/
def validateCommand (command : Str) (perm : Permissions) (recPerms : Str) :
    Except ScpError Str :=
  let c := split command ' '
  if c.headD [] ≠ ['s', 'c', 'p'] then .error .errOnlySCP
  else if c.length = 1 then .error .errFewArgs
  else if indexAny command disallowedChars ≠ -1 then .error .errDisallowedChars
  else if hasPrefix (c.getLastD []) [Separator] then .error .errAbsolutePath
  else if index command ['.', '.'] ≠ -1 then .error .errPathTraversal
  else
    match flagLoop perm ((c.take (c.length - 1)).drop 1) ⟨[], false, false⟩ with
    | .error e => .error e
    | .ok st =>
      if st.recurse && st.download && !contains recPerms ['r'] then
        .error .errRecursiveDownload
      else if st.recurse && !st.download && !contains recPerms ['w'] then
        .error .errRecursiveUpload
      else .ok st.cmd

/-- The part of the configuration read by `handleExec`. -/
structure Config where
  SharedDir : Str
  ScpPath : Str
  deriving DecidableEq, Repr

/-- The argument vector `args[1:]` that `handleExec` passes to
`exec.Command(config.ScpPath, ...)`, or the validation error written back to
the client. -/
def handleExecArgs (command : Str) (perm : Permissions) (config : Config) :
    Except ScpError (List Str) :=
  match validateCommand command perm (perm.opt "recurse") with
  | .error e => .error e
  | .ok _ =>
    let args := split command ' '
    let dir := perm.opt "dir"
    let dir := if dir = [] then config.SharedDir else dir
    let args := args.set (args.length - 1) (dir ++ args.getLastD [])
    .ok (args.drop 1)

/-- A Permission with the given privileges and recursive set. -/
def mkPerm (privs recurse : String) : Permissions :=
  ⟨[("privs".toList, privs.toList), ("recurse".toList, recurse.toList)]⟩


/-! ## Further library functions used by utils.go -/

/-- Go slice expression `p[lo:hi]` on a slice whose capacity is its length;
`none` is the "slice bounds out of range" panic. -/
def slice (p : Str) (lo hi : Int) : Option Str :=
  if 0 ≤ lo ∧ lo ≤ hi ∧ hi ≤ p.length then some ((p.take hi.toNat).drop lo.toNat) else none

/-- Go builtin `copy(dst, src)`: the contents of `dst` afterwards. -/
def copy (dst src : Str) : Str := src.take dst.length ++ dst.drop src.length

/-- The largest `uint64`. -/
def maxUint64 : Nat := 2 ^ 64 - 1

/-- The digit loop of `strconv.ParseUint(s, 10, 64)`: the value returned and
whether an error is returned with it. A byte that is not a decimal digit is a
syntax error (value 0); an overflow is a range error (value `maxUint64`), and
it is reported as soon as it occurs, before later bytes are looked at. -/
def parseUintLoop : Str → Nat → Nat × Bool
  | [], n => (n, false)
  | d :: ds, n =>
    if 48 ≤ d.toNat ∧ d.toNat ≤ 57 then
      if n ≥ maxUint64 / 10 + 1 then (maxUint64, true)
      else
        let n10 := (n * 10) % 2 ^ 64
        let n1 := (n10 + (d.toNat - 48)) % 2 ^ 64
        if n1 < n10 ∨ n1 > maxUint64 then (maxUint64, true)
        else parseUintLoop ds n1
    else (0, true)

/-- Go `strconv.ParseUint(s, 10, 64)`: value and error flag; the empty string
is a syntax error. -/
def ParseUint (s : Str) : Nat × Bool :=
  if s = [] then (0, true) else parseUintLoop s 0

/-- The backtracking of `path.Clean` on a ".." element: starting from the
decremented write index `w`, step back while `w > dotdot` and the byte at `w`
is not a slash; the result is the new write index. -/
def backtrack (out : Str) (dotdot : Nat) : Nat → Nat
  | 0 => 0
  | w + 1 =>
    if w + 1 > dotdot ∧ out.getD (w + 1) '/' ≠ '/' then backtrack out dotdot w else w + 1

/-- The main loop of `path.Clean`: `rest` is the unread input `path[r:]`,
`out` the bytes written so far (`out.w` is its length); every iteration
consumes at least one byte, so the input length is enough fuel. -/
def cleanLoop (rooted : Bool) : Nat → Str → Str → Nat → Str
  | 0, _, out, _ => out
  | fuel + 1, rest, out, dotdot =>
    match rest with
    | [] => out
    | c :: t =>
      if c = '/' then cleanLoop rooted fuel t out dotdot
      else if c = '.' ∧ (t = [] ∨ t.head? = some '/') then cleanLoop rooted fuel t out dotdot
      else if c = '.' ∧ t.head? = some '.' ∧ (t.tail = [] ∨ t.tail.head? = some '/') then
        if out.length > dotdot then
          cleanLoop rooted fuel t.tail (out.take (backtrack out dotdot (out.length - 1))) dotdot
        else if !rooted then
          let out2 := (if out.length > 0 then out ++ ['/'] else out) ++ ['.', '.']
          cleanLoop rooted fuel t.tail out2 out2.length
        else cleanLoop rooted fuel t.tail out dotdot
      else
        let out2 :=
          if (rooted ∧ out.length ≠ 1) ∨ (!rooted ∧ out.length ≠ 0) then out ++ ['/'] else out
        cleanLoop rooted fuel (rest.dropWhile (fun x => x ≠ '/'))
          (out2 ++ rest.takeWhile (fun x => x ≠ '/')) dotdot

/-- Go `path.Clean`. -/
def Clean (path : Str) : Str :=
  if path = [] then ['.']
  else
    let rooted : Bool := path.head? = some '/'
    let out :=
      if rooted then cleanLoop rooted path.length path.tail ['/'] 1
      else cleanLoop rooted path.length path [] 0
    if out = [] then ['.'] else out

/-- Go `path.Dir`: `Clean` of everything up to and including the last slash. -/
def Dir (path : Str) : Str :=
  Clean ((path.reverse.dropWhile (fun x => x ≠ '/')).reverse)

/-- Go `path.Join(a, b)`: the non-empty leading elements joined by a slash,
then cleaned; the empty string when both are empty. -/
def Join (a b : Str) : Str :=
  if a = [] then (if b = [] then [] else Clean b) else Clean (a ++ '/' :: b)

/-! ## utils.go: the upload interceptor -/

/-- The state shared through the pointer fields of `scpReader`: `phase` (0
Idle, 1 InData, 2 Suppressing), `dirname`, `filename`, `filesize` (the
expected size) and `currsize` (the bytes seen). -/
structure Frame where
  phase : Nat
  dirname : Str
  filename : Str
  filesize : Nat
  currsize : Nat
  deriving DecidableEq, Repr

/-- What one call of `scpReader.Read` leaves behind: the frame, the buffer
`p`, the count `n` it returns (the caller forwards `p[:n]` to the transfer
subprocess) and the paths it sent on `filechan`. -/
structure ReadResult where
  frame : Frame
  p : Str
  n : Nat
  files : List Str
  deriving DecidableEq, Repr

/-- The method `scpReader.Read`, after the underlying `r.reader.Read(p)` has
filled the buffer `p` and returned the count `n`; `maxSize` is the field
`r.maxSize`. The result `none` is a run-time panic (slice bounds out of
range) or the fatal exit on an unknown phase. The error value of the
underlying reader is passed through untouched and is not modelled. -/
def Read (maxSize : Nat) (fr : Frame) (p : Str) (n : Nat) : Option ReadResult :=
  if n > p.length then none
  else if n = 0 ∨ (fr.phase = 0 ∧ n = 1 ∧ p.head? = some (Char.ofNat 0)) then
    some ⟨fr, p, n, []⟩
  else if fr.phase = 0 then
    match p.head? with
    | none => none
    | some c =>
      if c = 'E' then some ⟨{ fr with dirname := Dir fr.dirname }, p, n, []⟩
      else if c = 'D' then
        (slice p 6 p.length).bind fun tail =>
        let nameStart := index tail [' '] + 7
        (slice p nameStart (n - 1)).bind fun name =>
        some ⟨{ fr with dirname := Join fr.dirname name }, p, n, []⟩
      else if c = 'C' then
        (slice p 6 p.length).bind fun tail =>
        let sizeEnd := index tail [' '] + 6
        (slice p 6 sizeEnd).bind fun sb =>
        let size := (ParseUint sb).1
        (slice p (sizeEnd + 1) (n - 1)).bind fun name =>
        let fr1 := { fr with filename := name, filesize := size }
        if maxSize ≠ 0 ∧ size > maxSize then
          (slice p 0 5).bind fun mode =>
          (slice p (sizeEnd + 1) n).bind fun rest =>
          let newBuf := mode ++ [' '] ++ ['0'] ++ [' '] ++ rest
          some ⟨{ fr1 with phase := 2 }, copy p newBuf, newBuf.length, []⟩
        else some ⟨{ fr1 with phase := 1 }, p, n, []⟩
      else (slice p 0 10).bind fun _ => some ⟨fr, p, n, []⟩
  else
    let currsize := (fr.currsize + n) % 2 ^ 64
    if currsize = (fr.filesize + 1) % 2 ^ 64 then
      if fr.phase = 1 then
        some ⟨{ fr with currsize := 0, filename := [], phase := 0 }, p, n,
          [fr.dirname ++ '/' :: fr.filename]⟩
      else if fr.phase = 2 then
        some ⟨{ fr with currsize := 0, filename := [], phase := 0 },
          p.set 0 (Char.ofNat 0), 1, []⟩
      else none
    else if fr.phase = 2 then some ⟨{ fr with currsize := currsize }, p, 0, []⟩
    else some ⟨{ fr with currsize := currsize }, p, n, []⟩

/-- What a run of `Read` calls leaves behind: the final frame, all bytes
forwarded to the subprocess and all paths sent on `filechan`, in order. -/
structure RunResult where
  frame : Frame
  forwarded : Str
  files : List Str
  deriving DecidableEq, Repr

/-- A run of successive `Read` calls on one `scpReader`: each call is given by
the buffer as filled by the underlying reader and the count it returned. -/
def runReads (maxSize : Nat) : Frame → List (Str × Nat) → Option RunResult
  | fr, [] => some ⟨fr, [], []⟩
  | fr, (p, n) :: calls =>
    (Read maxSize fr p n).bind fun r =>
    (runReads maxSize r.frame calls).bind fun rs =>
    some ⟨rs.frame, r.p.take r.n ++ rs.forwarded, r.files ++ rs.files⟩

/-- The frame of a freshly wired `scpReader` (every pointer field is `new`). -/
def newFrame : Frame := ⟨0, [], [], 0, 0⟩

/-- The results of the successive `Read` calls of a run, one per call. -/
def readTrace (maxSize : Nat) : Frame → List (Str × Nat) → Option (List ReadResult)
  | _, [] => some []
  | fr, (p, n) :: calls =>
    (Read maxSize fr p n).bind fun r =>
    (readTrace maxSize r.frame calls).bind fun rs => some (r :: rs)

/-! ## utils.go: the download interceptor -/

/-- The method `scpWriter.Write`, after the underlying `w.writer.Write(p)` has
forwarded the chunk `p` and returned the count `n`. The chunk is never
modified and the count is returned as it is; `files` are the paths sent on
`filechan`. The result `none` is a run-time panic. -/
def Write (fr : Frame) (p : Str) (n : Nat) : Option ReadResult :=
  if n > p.length then none
  else if n = 0 ∨ (n = 1 ∧ p.head? = some (Char.ofNat 0)) then some ⟨fr, p, n, []⟩
  else if fr.phase = 0 then
    match p.head? with
    | none => none
    | some c =>
      if c = 'E' then some ⟨{ fr with dirname := Dir fr.dirname }, p, n, []⟩
      else if c = 'D' then
        (slice p 6 p.length).bind fun tail =>
        let nameStart := index tail [' '] + 7
        (slice p nameStart (n - 1)).bind fun name =>
        some ⟨{ fr with dirname := Join fr.dirname name }, p, n, []⟩
      else if c = 'C' then
        (slice p 6 p.length).bind fun tail =>
        let sizeEnd := index tail [' '] + 6
        (slice p 6 sizeEnd).bind fun sb =>
        let size := (ParseUint sb).1
        (slice p (sizeEnd + 1) (n - 1)).bind fun name =>
        some ⟨{ fr with filesize := size, filename := name, phase := 1 }, p, n, []⟩
      else (slice p 0 10).bind fun _ => some ⟨fr, p, n, []⟩
  else if fr.phase = 1 then
    let currsize := (fr.currsize + n) % 2 ^ 64
    if currsize = (fr.filesize + 1) % 2 ^ 64 then
      some ⟨{ fr with phase := 0, currsize := 0, filename := [] }, p, n,
        [fr.dirname ++ '/' :: fr.filename]⟩
    else some ⟨{ fr with currsize := currsize }, p, n, []⟩
  else some ⟨fr, p, n, []⟩

/-- The results of the successive `Write` calls of a run, one per call. -/
def writeTrace : Frame → List (Str × Nat) → Option (List ReadResult)
  | _, [] => some []
  | fr, (p, n) :: calls =>
    (Write fr p n).bind fun r =>
    (writeTrace r.frame calls).bind fun rs => some (r :: rs)

/-- The post-transfer part of `handleExec`: the argument vectors of the
commands it runs, one per entry of `uploadedFiles` (everything received on
`filechan`), each `config.Cmd` followed by `dir + f`; none when no command is
configured. -/
def hookCommands (cmd : List Str) (dir : Str) (uploadedFiles : List Str) : List (List Str) :=
  if cmd.length ≠ 0 then uploadedFiles.map fun f => cmd ++ [dir ++ f] else []

/-! ## Library functions used by validateLogin.go and user.go -/

/-- Go `bytes.SplitN(s, sep, n)` / `strings.SplitN` for a one-byte separator
and `n ≥ 0`: at most `n` pieces, the last one being the unsplit remainder. -/
def splitN : Str → Char → Nat → List Str
  | _, _, 0 => []
  | s, _, 1 => [s]
  | [], _, _ + 2 => [[]]
  | c :: cs, sep, n + 2 =>
    if c = sep then [] :: splitN cs sep (n + 1)
    else
      match splitN cs sep (n + 2) with
      | [] => [[c]]
      | h :: t => (c :: h) :: t

/-- Go `strings.HasSuffix(s, suffix)`. -/
def hasSuffix (s suf : Str) : Bool := suf.reverse.isPrefixOf s.reverse

/-- The digits of `encoding/hex`. -/
def hextable : Str := "0123456789abcdef".toList

/-- Go `hex.EncodeToString`: two lowercase hex digits per byte. -/
def EncodeToString (src : Str) : Str :=
  src.flatMap fun b => [hextable.getD (b.toNat / 16 % 16) '0', hextable.getD (b.toNat % 16) '0']

/-- Go `strconv.FormatUint(u, 10)`. -/
def FormatUint (u : Nat) : Str := Nat.toDigits 10 u

/-- The function `addSepSuffix` of utils.go: adds a separator character if
none is suffixed to the string. -/
def addSepSuffix (s : Str) : Str :=
  if !hasSuffix s [Separator] then s ++ [Separator] else s

/-- Go `bufio.MaxScanTokenSize`, the size limit of the buffer of a
`bufio.Scanner`. -/
def MaxScanTokenSize : Nat := 64 * 1024

/-- The function `dropCR` of package bufio: drops one terminal carriage
return from the data. -/
def dropCR (data : Str) : Str :=
  if data.getLast? = some '\r' then data.dropLast else data

/-- The tokens that the successive `Scan` calls of a `bufio.NewScanner` (split
function `ScanLines`, default buffer) yield on a file given by its lines, the
byte strings between its newline bytes. A line and its newline have to fit in
the buffer of `MaxScanTokenSize` bytes: at the first line of that many bytes
or more `Scan` sets `ErrTooLong` and returns false, so no token is yielded for
that line nor for any later one. Each token is its line without one trailing
carriage return. -/
def scanTokens (lines : List Str) : List Str :=
  (lines.takeWhile fun l => l.length < MaxScanTokenSize).map dropCR

/-! ## validateLogin.go

SHA-512 is not interpreted: every function that hashes takes the hash
function `Sum512` (bytes to the 64 digest bytes) as its first argument. -/

/-- The function `validatePass`. The result `none` is the run-time panic of
an index out of range (`hashLine[0]`, `line[0][0]`, `line[1]`, `line[2]`). -/
def validatePass (Sum512 : Str → Str) (pass hashLine : Str) : Option Bool :=
  match hashLine with
  | [] => none
  | h0 :: tl =>
    if h0 ≠ '$' then some false
    else
      let line := splitN tl '$' 3
      match (line.headD []).head? with
      | none => none
      | some scheme =>
        let plain : Option Bool :=
          if scheme = '0' then (line.get? 1).map fun l1 => decide (pass = l1) else some false
        match plain with
        | none => none
        | some true => some true
        | some false =>
          if scheme ≠ '6' then some false
          else
            match line.get? 1 with
            | none => none
            | some salt =>
              match line.get? 2 with
              | none => none
              | some digest => some (decide (EncodeToString (Sum512 (salt ++ pass)) = digest))

/-- The outcome of one `validateUser` call: the Permission returned (`none`
is the error "Password rejected") and the lines of the passwd file after the
call (the file as it was when it is not rewritten, the lines written by
`ioutil.WriteFile` otherwise). -/
structure AuthResult where
  perm : Option Permissions
  store : List Str
  deriving DecidableEq, Repr

/-- The two guards of the scan loop of `validateUser` for one line: `some
false` when the line is skipped (comment, field count other than 7, other
user, or password not validated), `some true` when it is the matching line,
`none` when `validatePass` panics on its hash field. -/
def lineVerdict (Sum512 : Str → Str) (user pass l : Str) : Option Bool :=
  let line := splitN l ':' 7
  if hasPrefix (line.headD []) ['#'] ∨ line.length ≠ 7 then some false
  else if user ≠ line.headD [] then some false
  else validatePass Sum512 pass (line.getD 1 [])

/-- The Permission `validateUser` builds from the matching line. -/
def linePermissions (l : Str) : Permissions :=
  let line := splitN l ':' 7
  ⟨[("privs".toList, line.getD 2 []),
    ("dir".toList,
      if line.getD 3 [] ≠ [] then addSepSuffix (line.getD 3 []) else line.getD 3 []),
    ("size".toList, line.getD 4 []),
    ("recurse".toList, line.getD 5 [])]⟩

/-- The scan loop of `validateUser` over the tokens the scanner still has to
yield; `outfile` holds the tokens copied so far (each followed by a newline)
and `store` all lines of the file. On a match whose last field is not "p" the
remaining tokens are copied and the file is rewritten without the matching
one (the error of `ioutil.WriteFile` is not read; the write is taken to
succeed). -/
def validateUserLoop (Sum512 : Str → Str) (user pass : Str) (store : List Str) :
    List Str → List Str → Option AuthResult
  | [], _ => some ⟨none, store⟩
  | l :: rest, outfile =>
    match lineVerdict Sum512 user pass l with
    | none => none
    | some false => validateUserLoop Sum512 user pass store rest (outfile ++ [l])
    | some true =>
      if (splitN l ':' 7).getD 6 [] ≠ ['p'] then
        some ⟨some (linePermissions l), outfile ++ rest⟩
      else some ⟨some (linePermissions l), store⟩

/-- The method `validateUser`. The passwd file is given by its lines `store`,
the byte strings between its newline bytes; the loop runs over the tokens that
the scanner yields on them, and `scanner.Err()` is never read, so a scan that
stops at an over-long line ends the loop like the end of the file. The result
`none` is a run-time panic. -/
def validateUser (Sum512 : Str → Str) (store : List Str) (user pass : Str) :
    Option AuthResult :=
  validateUserLoop Sum512 user pass store (scanTokens store) []

/-! ## user.go -/

/-- Characters used in password and username generation. -/
def passwordChars : Str :=
  "ABCDEFGHIJKLMNOPQRSTUVXYZabcdefghijklmnopqrstuvxyz01234567890".toList

/-- The function `randPass`: `draws` are the successive values of
`rand.Int31n(60)`, one per generated byte. -/
def randPass (draws : List Nat) : Str := draws.map fun i => passwordChars.getD i 'A'

/-- The function `saltNHash`, with the draws of its `randPass(10)` call. -/
def saltNHash (Sum512 : Str → Str) (draws : List Nat) (password : Str) : Str :=
  let salt := randPass draws
  ['$', '6', '$'] ++ salt ++ ['$'] ++ EncodeToString (Sum512 (salt ++ password))

/-- The struct `UserInfo`. -/
structure UserInfo where
  Username : Str
  Password : Str
  Privileges : Str
  UserDir : Str
  Recursive : Str
  UpSize : Nat
  Permanent : Bool
  Plaintext : Bool
  deriving DecidableEq, Repr

/-- The method `UserInfo.ConfigString`. -/
def UserInfo.ConfigString (u : UserInfo) : Str :=
  u.Privileges ++ [':'] ++ u.UserDir ++ [':'] ++ FormatUint u.UpSize ++ [':'] ++
    u.Recursive ++ [':'] ++ [if u.Permanent then 'p' else 't']

/-- The method `UserInfo.PasswdString`, with the draws of `saltNHash`. -/
def UserInfo.PasswdString (Sum512 : Str → Str) (draws : List Nat) (u : UserInfo) : Str :=
  u.Username ++ [':'] ++
    (if u.Plaintext then ['$', '0', '$'] ++ u.Password else saltNHash Sum512 draws u.Password)
    ++ [':'] ++ u.ConfigString ++ ['\n']

/-! ## validateLogin.go: public keys

`ssh.ParseAuthorizedKey` is not interpreted: `validatePubKey` takes the line
parser as its first argument, `parse line = some (key, comment)` giving the
marshalled key bytes and the comment of a line, `none` being its error. -/

/-- The scan loop of `validatePubKey` over the lines of the key file. The
outer `none` is the run-time panic of an index out of range on `privs`; the
inner `none` is the error "No valid key file". -/
def validatePubKeyLoop (parse : Str → Option (Str × Str)) (remoteKey : Str) :
    List Str → Option (Option Permissions)
  | [] => some none
  | l :: rest =>
    match parse l with
    | none => some none
    | some (localKey, comment) =>
      if comment.length = 0 then some none
      else if localKey = remoteKey then
        let privs := splitN comment ':' 4
        (privs.get? 0).bind fun p0 =>
        (privs.get? 1).bind fun p1 =>
        (privs.get? 2).bind fun p2 =>
        (privs.get? 3).bind fun p3 =>
        some (some ⟨[("privs".toList, p0), ("dir".toList, addSepSuffix p1),
          ("size".toList, p2), ("recurse".toList, p3)]⟩)
      else validatePubKeyLoop parse remoteKey rest

/-- The method `validatePubKey`; `keyFile` is `none` when the key file of the
user cannot be read, and the lines its scanner yields otherwise. -/
def validatePubKey (parse : Str → Option (Str × Str)) (keyFile : Option (List Str))
    (remoteKey : Str) : Option (Option Permissions) :=
  match keyFile with
  | none => some none
  | some lines => validatePubKeyLoop parse remoteKey lines

/-- A stand-in for the uninterpreted key-line parser, used in evaluations
only: a line is "<key> <comment>", the key being its first word; a line with
an empty first word is unparseable. -/
def exampleParse (line : Str) : Option (Str × Str) :=
  if line.takeWhile (fun c => c ≠ ' ') = [] then none
  else some (line.takeWhile (fun c => c ≠ ' '), (line.dropWhile (fun c => c ≠ ' ')).drop 1)

/-! ## utils.go: parseCmdLine and toBytes

These two functions work on the runes of their input: here a `Str` is the
sequence of runes of the Go string, one `Char` per rune. -/

/-- Go `unicode.IsSpace`. -/
def isSpace (c : Char) : Bool :=
  (9 ≤ c.toNat ∧ c.toNat ≤ 13) ∨ c.toNat = 0x20 ∨ c.toNat = 0x85 ∨ c.toNat = 0xA0 ∨
  c.toNat = 0x1680 ∨ (0x2000 ≤ c.toNat ∧ c.toNat ≤ 0x200A) ∨ c.toNat = 0x2028 ∨
  c.toNat = 0x2029 ∨ c.toNat = 0x202F ∨ c.toNat = 0x205F ∨ c.toNat = 0x3000

/-- Go `unicode.In(c, unicode.Quotation_Mark)`. -/
def isQuotationMark (c : Char) : Bool :=
  c.toNat = 0x22 ∨ c.toNat = 0x27 ∨ c.toNat = 0xAB ∨ c.toNat = 0xBB ∨
  (0x2018 ≤ c.toNat ∧ c.toNat ≤ 0x201F) ∨ (0x2039 ≤ c.toNat ∧ c.toNat ≤ 0x203A) ∨
  c.toNat = 0x2E42 ∨ (0x300C ≤ c.toNat ∧ c.toNat ≤ 0x300F) ∨
  (0x301D ≤ c.toNat ∧ c.toNat ≤ 0x301F) ∨ (0xFE41 ≤ c.toNat ∧ c.toNat ≤ 0xFE44) ∨
  c.toNat = 0xFF02 ∨ c.toNat = 0xFF07 ∨ (0xFF62 ≤ c.toNat ∧ c.toNat ≤ 0xFF63)

/-- Go `strings.FieldsFunc(s, f)` for a function `f` with state: `f` is called
once per rune, in order; `step st c` is the new state and the value returned
by `f(c)`. `cur` is the field being collected (`start >= 0` when non-empty). -/
def fieldsLoop {σ : Type} (step : σ → Char → σ × Bool) : σ → Str → Str → List Str
  | _, [], cur => if cur = [] then [] else [cur]
  | st, c :: cs, cur =>
    if (step st c).2 then
      if cur = [] then fieldsLoop step (step st c).1 cs []
      else cur :: fieldsLoop step (step st c).1 cs []
    else fieldsLoop step (step st c).1 cs (cur ++ [c])

/-- The closure `f` of `parseCmdLine`; the state is its variable `lastQuote`
(`rune(0)` outside quotation marks). -/
def quoteStep (lastQuote : Char) (c : Char) : Char × Bool :=
  if c = lastQuote then (Char.ofNat 0, false)
  else if lastQuote ≠ Char.ofNat 0 then (lastQuote, false)
  else if isQuotationMark c then (c, false)
  else (lastQuote, isSpace c)

/-- The function `parseCmdLine`. -/
def parseCmdLine (cmdline : Str) : List Str :=
  if hasPrefix cmdline ['@'] then
    if contains cmdline ['/'] then [cmdline.drop 1] else [['.', '/'] ++ cmdline.drop 1]
  else fieldsLoop quoteStep (Char.ofNat 0) cmdline []

/-- Go `strings.TrimSpace`. -/
def TrimSpace (s : Str) : Str :=
  ((s.dropWhile isSpace).reverse.dropWhile isSpace).reverse

/-- A decimal digit, the class `\d` of Go regular expressions. -/
def isDigit (c : Char) : Bool := 48 ≤ c.toNat ∧ c.toNat ≤ 57

/-- The Kelvin sign U+212A, which the case-insensitive class `(?i)[KMGT]`
matches along with the eight ASCII letters (it folds to 'k'). -/
def kelvinSign : Char := Char.ofNat 0x212A

/-- The runes matched by `(?i)[KMGT]`. -/
def isUnitLetter (c : Char) : Bool :=
  c ∈ ['K', 'M', 'G', 'T', 'k', 'm', 'g', 't', kelvinSign]

/-- The runes matched by `(?i)B`. -/
def isLetterB (c : Char) : Bool := c = 'B' ∨ c = 'b'

/-- `bytesPattern.FindStringSubmatch` for the pattern
`(?i)^(-?\d+)([KMGT]B?|B)$`: the two submatches `parts[1]` and `parts[2]`, or
`none` when the whole input does not match. -/
def bytesPattern (s : Str) : Option (Str × Str) :=
  let sign : Str := if s.head? = some '-' then ['-'] else []
  let r := if s.head? = some '-' then s.tail else s
  let digits := r.takeWhile isDigit
  let unit := r.dropWhile isDigit
  if digits = [] then none
  else
    match unit with
    | [u] => if isUnitLetter u ∨ isLetterB u then some (sign ++ digits, unit) else none
    | [u, b] => if isUnitLetter u ∧ isLetterB b then some (sign ++ digits, unit) else none
    | _ => none

/-- Go `unicode.ToUpper` on the runes that can start a unit: an ASCII
lowercase letter goes to its capital, every other rune (the Kelvin sign
included) is left as it is. -/
def toUpper (c : Char) : Char :=
  if 97 ≤ c.toNat ∧ c.toNat ≤ 122 then Char.ofNat (c.toNat - 32) else c

/-- The function `toBytes`: `none` is the error `errInvalidByteQuantity`
(returned with the value 0), `some b` the value returned with a nil error.
The switch is on `unit[:1]`, the first byte of the upper-cased unit, which is
its first rune when that is ASCII; no case matches otherwise and `bytes`
keeps its zero value. -/
def toBytes (s : Str) : Option Nat :=
  match bytesPattern (TrimSpace s) with
  | none => none
  | some (num, unit) =>
    let value := ParseUint num
    if value.2 ∨ value.1 < 1 then none
    else
      match unit.head?.map toUpper with
      | some 'T' => some ((value.1 * 1024 ^ 4) % 2 ^ 64)
      | some 'G' => some ((value.1 * 1024 ^ 3) % 2 ^ 64)
      | some 'M' => some ((value.1 * 1024 ^ 2) % 2 ^ 64)
      | some 'K' => some ((value.1 * 1024) % 2 ^ 64)
      | some 'B' => some ((value.1 * 1) % 2 ^ 64)
      | _ => some 0

/-! ## The record test of the passwd file, written from the claims -/

/-- A passwd line that decides a login of `user` with the password `pass`: it
is not a comment (it does not start with '#'), it has seven colon-separated
fields, its first field is the user name and its second field, the stored
hash, verifies the password. -/
def recordMatches (Sum512 : Str → Str) (user pass l : Str) : Prop :=
  l.head? ≠ some '#' ∧ (splitN l ':' 7).length = 7 ∧ (splitN l ':' 7).headD [] = user ∧
    validatePass Sum512 pass ((splitN l ':' 7).getD 1 []) = some true

instance (Sum512 : Str → Str) (user pass l : Str) :
    Decidable (recordMatches Sum512 user pass l) := by
  unfold recordMatches
  infer_instance

/-- A passwd line that a login of `user` with the password `pass` passes
over: a comment line, a malformed line (fewer than seven fields), a record of
another user, or a record of the user whose stored hash does not verify the
password. -/
def recordSkipped (Sum512 : Str → Str) (user pass l : Str) : Prop :=
  l.head? = some '#' ∨ (splitN l ':' 7).length ≠ 7 ∨ (splitN l ':' 7).headD [] ≠ user ∨
    validatePass Sum512 pass ((splitN l ':' 7).getD 1 []) = some false

instance (Sum512 : Str → Str) (user pass l : Str) :
    Decidable (recordSkipped Sum512 user pass l) := by
  unfold recordSkipped
  infer_instance

/-! ## The contracts of parseCmdLine and toBytes, written from the claims -/

/-- For each rune of an input, whether it lies inside a quoted section. A
section opens at a quotation mark met outside quotes and runs to the next
occurrence of the same mark, both marks included, or to the end of the input
when the mark does not occur again; `q` is the mark of the section that is
open at the start, if any. -/
def insideQuotes : Option Char → Str → List Bool
  | _, [] => []
  | some q, c :: cs => true :: insideQuotes (if c = q then none else some q) cs
  | none, c :: cs =>
    if isQuotationMark c then true :: insideQuotes (some c) cs
    else false :: insideQuotes none cs

/-- The pieces of an input between its whitespace runes that lie outside
quoted sections, the empty pieces left out. -/
def quotedFields (s : Str) : List Str :=
  (((s.zip (insideQuotes none s)).splitOnP fun p => isSpace p.1 && !p.2).map
    fun piece => piece.map Prod.fst).filter fun f => f ≠ []

/-- The whitespace-separated fields of a string: its pieces between
whitespace runes, the empty ones left out. -/
def whitespaceFields (s : Str) : List Str :=
  (s.splitOnP (fun c => isSpace c)).filter (fun f => f ≠ [])

/-- The state of the quotation-mark tracker after reading `s` from the state
`q`: `rune(0)` when `s` leaves no quotation open. -/
def quoteState (q : Char) (s : Str) : Char := s.foldl (fun st c => (quoteStep st c).1) q

/-- The power of 1024 that a unit stands for: 0 for B, 1 for K and KB, 2 for
M and MB, 3 for G and GB, 4 for T and TB, in any (ASCII) letter case. -/
def unitExponent (unit : Str) : Option Nat :=
  match unit.map toUpper with
  | ['B'] => some 0
  | ['K'] => some 1
  | ['K', 'B'] => some 1
  | ['M'] => some 2
  | ['M', 'B'] => some 2
  | ['G'] => some 3
  | ['G', 'B'] => some 3
  | ['T'] => some 4
  | ['T', 'B'] => some 4
  | _ => none

/-! ## The protocol's begin-file header, written from the specification -/

/-- The value of a string of decimal digits. -/
def decimalValue (s : Str) : Nat := s.foldl (fun acc d => acc * 10 + (d.toNat - 48)) 0

/-- A non-empty string of decimal digits. -/
def isDecimal (s : Str) : Prop := s ≠ [] ∧ ∀ d ∈ s, 48 ≤ d.toNat ∧ d.toNat ≤ 57

/-- The begin-file header "C<mode> <size> <name>\n". -/
def fileHeader (mode size name : Str) : Str :=
  'C' :: mode ++ ' ' :: size ++ ' ' :: name ++ ['\n']

/-! ## The validator's contract, written from the specification (§4.3) -/

/-- The whitelist of the flag walk: recurse, preserve-times marker, end of
options, upload mode, download mode. -/
def flagWhitelist : List Str :=
  [['-', 'r'], ['-', 'd'], ['-', '-'], ['-', 't'], ['-', 'f']]

/-- Step 5 of the specification for one flag taken on its own: the rejection
this flag earns, if any. -/
def specFlagCheck (perm : Permissions) (flag : Str) : Option ScpError :=
  if flag ∉ flagWhitelist then some .errUnsupportedScpFlag
  else if flag = ['-', 't'] ∧ 'w' ∉ perm.opt "privs" then some .errUploadPrivs
  else if flag = ['-', 'f'] ∧ 'r' ∉ perm.opt "privs" then some .errDownloadPrivs
  else none

/-- The middle tokens of a command: everything except token 0 and the final
path. -/
def middleTokens (command : Str) : List Str := ((split command ' ').drop 1).dropLast

/-- The checks of the specification in their stated order, each one judged on
its own (`none` when it passes): steps 1 to 4, one entry per middle token for
step 5, and the two recursion checks of step 6. -/
def specChecks (command : Str) (perm : Permissions) (recPerms : Str) :
    List (Option ScpError) :=
  let c := split command ' '
  [ if c.head? ≠ some ['s', 'c', 'p'] then some .errOnlySCP else none,
    if c.length < 2 then some .errFewArgs else none,
    if ∃ ch ∈ disallowedChars, ch ∈ command then some .errDisallowedChars else none,
    if c.getLast?.bind List.head? = some Separator then some .errAbsolutePath else none,
    if ['.', '.'] <:+: command then some .errPathTraversal else none ]
  ++ (middleTokens command).map (specFlagCheck perm)
  ++ [ if ['-', 'r'] ∈ middleTokens command ∧ ['-', 'f'] ∈ middleTokens command ∧
          'r' ∉ recPerms then some .errRecursiveDownload else none,
       if ['-', 'r'] ∈ middleTokens command ∧ ['-', 'f'] ∉ middleTokens command ∧
          'w' ∉ recPerms then some .errRecursiveUpload else none ]

/-- The first failing check of an ordered list of checks. -/
def firstFailure : List (Option ScpError) → Option ScpError
  | [] => none
  | some e :: _ => some e
  | none :: rest => firstFailure rest

/-- The rejection reason of a validation result (`none` when accepted). -/
def rejection (r : Except ScpError Str) : Option ScpError :=
  match r with
  | .error e => some e
  | .ok _ => none

/-! ## Facts about the library functions -/

theorem split_ne_nil (s : Str) (sep : Char) : split s sep ≠ [] := by
  cases s with
  | nil => simp [split]
  | cons c cs =>
    unfold split
    split_ifs
    · simp
    · split <;> simp

theorem split_length_pos (s : Str) (sep : Char) : 0 < (split s sep).length :=
  List.length_pos.mpr (split_ne_nil s sep)

theorem split_headD_prefix (s : Str) (sep : Char) : (split s sep).headD [] <+: s := by
  induction s with
  | nil => simp [split]
  | cons c cs ih =>
    unfold split
    split_ifs with h
    · simp
    · split
      · simp
      · rename_i h1 t heq
        rw [heq] at ih
        simpa using ih

theorem index_ge (s sub : Str) : -1 ≤ index s sub := by
  induction s with
  | nil => unfold index; split_ifs <;> omega
  | cons c cs ih =>
    unfold index
    simp only
    split_ifs <;> omega

theorem index_ne_iff (s sub : Str) : index s sub ≠ -1 ↔ sub <:+: s := by
  induction s with
  | nil =>
    unfold index
    split_ifs with h
    · simp [h]
    · simp [h]
  | cons c cs ih =>
    unfold index
    simp only
    rw [List.infix_cons_iff]
    have hge := index_ge cs sub
    split_ifs with h1 h2
    · have : sub <+: c :: cs := by simpa [hasPrefix] using h1
      simp [this]
    · have h3 : ¬ sub <:+: cs := by rw [← ih]; simpa using h2
      have h4 : ¬ sub <+: c :: cs := by simpa [hasPrefix] using h1
      simp [h3, h4]
    · have h3 : sub <:+: cs := by rw [← ih]; exact h2
      simp only [h3, or_true, iff_true]
      omega

theorem contains_iff (s sub : Str) : contains s sub = true ↔ sub <:+: s := by
  rw [← index_ne_iff]
  have := index_ge s sub
  simp only [contains, decide_eq_true_eq]
  omega

theorem indexAny_ge (s chars : Str) : -1 ≤ indexAny s chars := by
  induction s with
  | nil => simp [indexAny]
  | cons c cs ih =>
    unfold indexAny
    simp only
    split_ifs <;> omega

theorem indexAny_eq_iff (s chars : Str) :
    indexAny s chars = -1 ↔ ∀ ch ∈ chars, ch ∉ s := by
  induction s with
  | nil => simp [indexAny]
  | cons c cs ih =>
    unfold indexAny
    simp only
    have hge := indexAny_ge cs chars
    split_ifs with h1 h2
    · simp only [List.mem_cons, not_or]
      constructor
      · intro h; exact absurd h (by decide)
      · intro h; exact absurd rfl (h c h1).1
    · simp only [List.mem_cons, not_or, true_iff]
      intro ch hch
      refine ⟨?_, (ih.mp h2) ch hch⟩
      rintro rfl
      exact h1 hch
    · constructor
      · intro h; omega
      · intro h
        exfalso
        apply h2
        rw [ih]
        intro ch hch
        have := h ch hch
        simp only [List.mem_cons, not_or] at this
        exact this.2

theorem contains_singleton_iff (s : Str) (ch : Char) : contains s [ch] = true ↔ ch ∈ s := by
  rw [contains_iff]
  constructor
  · rintro ⟨a, b, rfl⟩
    simp
  · intro h
    obtain ⟨a, b, rfl⟩ := List.mem_iff_append.mp h
    exact ⟨a, b, by simp⟩

theorem hasPrefix_iff (s pre : Str) : hasPrefix s pre = true ↔ pre <+: s := by
  simp [hasPrefix]

/-! ## Facts about `validateCommand` -/

/-- Once the five structural checks pass, `validateCommand` is its flag walk
followed by the recursion checks. -/
theorem validateCommand_of_structure (command : Str) (perm : Permissions) (recPerms : Str)
    (h1 : (split command ' ').headD [] = ['s', 'c', 'p'])
    (h2 : (split command ' ').length ≠ 1)
    (h3 : indexAny command disallowedChars = -1)
    (h4 : hasPrefix ((split command ' ').getLastD []) [Separator] = false)
    (h5 : index command ['.', '.'] = -1) :
    validateCommand command perm recPerms =
      match flagLoop perm (((split command ' ').take ((split command ' ').length - 1)).drop 1)
          ⟨[], false, false⟩ with
      | .error e => .error e
      | .ok st =>
        if st.recurse && st.download && !contains recPerms ['r'] then
          .error .errRecursiveDownload
        else if st.recurse && !st.download && !contains recPerms ['w'] then
          .error .errRecursiveUpload
        else .ok st.cmd := by
  unfold validateCommand
  simp only [h1, h2, h3, h4, h5, ne_eq, not_true_eq_false, if_false, Bool.false_eq_true]

theorem validateCommand_notScp (command : Str) (perm : Permissions) (recPerms : Str)
    (h1 : (split command ' ').headD [] ≠ ['s', 'c', 'p']) :
    validateCommand command perm recPerms = .error .errOnlySCP := by
  unfold validateCommand
  simp only [h1, ne_eq, not_false_eq_true, if_true]

theorem validateCommand_fewArgs (command : Str) (perm : Permissions) (recPerms : Str)
    (h1 : (split command ' ').headD [] = ['s', 'c', 'p'])
    (h2 : (split command ' ').length = 1) :
    validateCommand command perm recPerms = .error .errFewArgs := by
  unfold validateCommand
  simp only [h1, h2, ne_eq, not_true_eq_false, if_false, if_true]

theorem validateCommand_disallowed (command : Str) (perm : Permissions) (recPerms : Str)
    (h1 : (split command ' ').headD [] = ['s', 'c', 'p'])
    (h2 : (split command ' ').length ≠ 1)
    (h3 : indexAny command disallowedChars ≠ -1) :
    validateCommand command perm recPerms = .error .errDisallowedChars := by
  unfold validateCommand
  simp only [h1, h2, h3, ne_eq, not_true_eq_false, not_false_eq_true, if_false, if_true]

theorem validateCommand_absolute (command : Str) (perm : Permissions) (recPerms : Str)
    (h1 : (split command ' ').headD [] = ['s', 'c', 'p'])
    (h2 : (split command ' ').length ≠ 1)
    (h3 : indexAny command disallowedChars = -1)
    (h4 : hasPrefix ((split command ' ').getLastD []) [Separator] = true) :
    validateCommand command perm recPerms = .error .errAbsolutePath := by
  unfold validateCommand
  simp only [h1, h2, h3, h4, ne_eq, not_true_eq_false, if_false, if_true]

theorem validateCommand_traversal (command : Str) (perm : Permissions) (recPerms : Str)
    (h1 : (split command ' ').headD [] = ['s', 'c', 'p'])
    (h2 : (split command ' ').length ≠ 1)
    (h3 : indexAny command disallowedChars = -1)
    (h4 : hasPrefix ((split command ' ').getLastD []) [Separator] = false)
    (h5 : index command ['.', '.'] ≠ -1) :
    validateCommand command perm recPerms = .error .errPathTraversal := by
  unfold validateCommand
  simp only [h1, h2, h3, h4, h5, ne_eq, not_true_eq_false, not_false_eq_true, if_false,
    if_true, Bool.false_eq_true]

/-- A result other than the five structural errors was reached with all five
structural checks passed. -/
theorem validateCommand_structure (command : Str) (perm : Permissions) (recPerms : Str)
    (n1 : validateCommand command perm recPerms ≠ .error .errOnlySCP)
    (n2 : validateCommand command perm recPerms ≠ .error .errFewArgs)
    (n3 : validateCommand command perm recPerms ≠ .error .errDisallowedChars)
    (n4 : validateCommand command perm recPerms ≠ .error .errAbsolutePath)
    (n5 : validateCommand command perm recPerms ≠ .error .errPathTraversal) :
    (split command ' ').headD [] = ['s', 'c', 'p'] ∧
    (split command ' ').length ≠ 1 ∧
    indexAny command disallowedChars = -1 ∧
    hasPrefix ((split command ' ').getLastD []) [Separator] = false ∧
    index command ['.', '.'] = -1 := by
  by_cases c1 : (split command ' ').headD [] = ['s', 'c', 'p']
  swap
  · exact absurd (validateCommand_notScp command perm recPerms c1) n1
  by_cases c2 : (split command ' ').length = 1
  · exact absurd (validateCommand_fewArgs command perm recPerms c1 c2) n2
  by_cases c3 : indexAny command disallowedChars = -1
  swap
  · exact absurd (validateCommand_disallowed command perm recPerms c1 c2 c3) n3
  by_cases c4 : hasPrefix ((split command ' ').getLastD []) [Separator] = true
  · exact absurd (validateCommand_absolute command perm recPerms c1 c2 c3 c4) n4
  have c4f : hasPrefix ((split command ' ').getLastD []) [Separator] = false := by
    simpa using c4
  by_cases c5 : index command ['.', '.'] = -1
  swap
  · exact absurd (validateCommand_traversal command perm recPerms c1 c2 c3 c4f c5) n5
  exact ⟨c1, c2, c3, c4f, c5⟩

theorem validateCommand_ok_structure (command : Str) (perm : Permissions) (recPerms m : Str)
    (h : validateCommand command perm recPerms = .ok m) :
    (split command ' ').headD [] = ['s', 'c', 'p'] ∧
    (split command ' ').length ≠ 1 ∧
    indexAny command disallowedChars = -1 ∧
    hasPrefix ((split command ' ').getLastD []) [Separator] = false ∧
    index command ['.', '.'] = -1 := by
  apply validateCommand_structure command perm recPerms <;> simp [h]

theorem flagSlice_eq (c : List Str) : (c.take (c.length - 1)).drop 1 = (c.drop 1).dropLast := by
  rw [List.dropLast_eq_take, List.drop_take, List.length_drop]

theorem validateCommand_flags (command : Str) :
    ((split command ' ').take ((split command ' ').length - 1)).drop 1 = middleTokens command :=
  flagSlice_eq _

/-- What a completed flag walk establishes. -/
theorem flagLoop_ok (perm : Permissions) (flags : List Str) (st st' : FlagState)
    (h : flagLoop perm flags st = .ok st') :
    (∀ f ∈ flags, f ∈ flagWhitelist) ∧
    (['-', 't'] ∈ flags → 'w' ∈ perm.opt "privs") ∧
    (['-', 'f'] ∈ flags → 'r' ∈ perm.opt "privs") ∧
    st'.recurse = (st.recurse || decide (['-', 'r'] ∈ flags)) ∧
    st'.download = (st.download || decide (['-', 'f'] ∈ flags)) ∧
    (['-', 't'] ∈ flags ∨ ['-', 'f'] ∈ flags → st'.cmd = ['-', 't'] ∨ st'.cmd = ['-', 'f']) ∧
    (['-', 't'] ∉ flags ∧ ['-', 'f'] ∉ flags → st'.cmd = st.cmd) := by
  induction flags generalizing st with
  | nil =>
    simp only [flagLoop, Except.ok.injEq] at h
    subst h
    simp
  | cons flag rest ih =>
    unfold flagLoop at h
    split_ifs at h with h1 h2 h3 h4 h5 h6 h7
    · obtain ⟨a, b, c, d, e, f, g⟩ := ih _ h
      subst h1
      refine ⟨?_, ?_, ?_, ?_, ?_, ?_, ?_⟩
      · simpa [flagWhitelist] using a
      · simpa using b
      · simpa using c
      · simp [d]
      · simp [e]
      · simpa using f
      · simpa using g
    · obtain ⟨a, b, c, d, e, f, g⟩ := ih _ h
      subst h2
      refine ⟨?_, ?_, ?_, ?_, ?_, ?_, ?_⟩
      · simpa [flagWhitelist] using a
      · simpa using b
      · simpa using c
      · simp [d]
      · simp [e]
      · simpa using f
      · simpa using g
    · obtain ⟨a, b, c, d, e, f, g⟩ := ih _ h
      subst h3
      refine ⟨?_, ?_, ?_, ?_, ?_, ?_, ?_⟩
      · simpa [flagWhitelist] using a
      · simpa using b
      · simpa using c
      · simp [d]
      · simp [e]
      · simpa using f
      · simpa using g
    · obtain ⟨a, b, c, d, e, f, g⟩ := ih _ h
      subst h4
      have hw : 'w' ∈ perm.opt "privs" := by
        rw [← contains_singleton_iff]; simpa using h5
      refine ⟨?_, ?_, ?_, ?_, ?_, ?_, ?_⟩
      · simpa [flagWhitelist] using a
      · intro _; exact hw
      · simpa using c
      · simp [d]
      · simp [e]
      · intro _
        by_cases hin : ['-', 't'] ∈ rest ∨ ['-', 'f'] ∈ rest
        · exact f hin
        · exact Or.inl (g (by simpa [not_or] using hin))
      · simp
    · obtain ⟨a, b, c, d, e, f, g⟩ := ih _ h
      subst h6
      have hr : 'r' ∈ perm.opt "privs" := by
        rw [← contains_singleton_iff]; simpa using h7
      refine ⟨?_, ?_, ?_, ?_, ?_, ?_, ?_⟩
      · simpa [flagWhitelist] using a
      · simpa using b
      · intro _; exact hr
      · simp [d]
      · simp [e]
      · intro _
        by_cases hin : ['-', 't'] ∈ rest ∨ ['-', 'f'] ∈ rest
        · exact f hin
        · exact Or.inr (g (by simpa [not_or] using hin))
      · simp

theorem head?_eq_headD (c : List Str) (h : c ≠ []) : c.head? = some (c.headD []) := by
  cases c <;> simp_all

theorem getLast?_eq_getLastD (c : List Str) (h : c ≠ []) :
    c.getLast? = some (c.getLastD []) := by
  rw [List.getLastD_eq_getLast?, List.getLast?_eq_getLast c h]
  simp

theorem hasPrefix_singleton (s : Str) (ch : Char) :
    hasPrefix s [ch] = true ↔ s.head? = some ch := by
  cases s with
  | nil => simp [hasPrefix, List.isPrefixOf]
  | cons a t =>
    simp only [hasPrefix, List.isPrefixOf, Bool.and_true, beq_iff_eq, List.head?_cons,
      Option.some.injEq]
    exact eq_comm

/-- The five structural facts in the vocabulary of the specification. -/
theorem structure_spec (command : Str)
    (h1 : (split command ' ').headD [] = ['s', 'c', 'p'])
    (h2 : (split command ' ').length ≠ 1)
    (h3 : indexAny command disallowedChars = -1)
    (h4 : hasPrefix ((split command ' ').getLastD []) [Separator] = false)
    (h5 : index command ['.', '.'] = -1) :
    2 ≤ (split command ' ').length ∧
    (split command ' ').head? = some ['s', 'c', 'p'] ∧
    (∀ ch ∈ disallowedChars, ch ∉ command) ∧
    (split command ' ').getLast?.bind List.head? ≠ some Separator ∧
    ¬ ['.', '.'] <:+: command := by
  have hne := split_ne_nil command ' '
  have hpos := split_length_pos command ' '
  refine ⟨by omega, ?_, (indexAny_eq_iff _ _).mp h3, ?_, ?_⟩
  · rw [head?_eq_headD _ hne, h1]
  · rw [getLast?_eq_getLastD _ hne, Option.some_bind, ne_eq, ← hasPrefix_singleton, h4]
    simp
  · rw [← index_ne_iff]
    simpa using h5

/-! ## C1 -/

/-- C1, as stated, fails: these commands contain ".." and are rejected with
another reason than PathTraversal, because an earlier check fails first. -/
theorem validateCommand_dotdot_other_reason :
    (['.', '.'] <:+: "ls ..".toList ∧
      validateCommand "ls ..".toList (mkPerm "rw" "rw") "rw".toList = .error .errOnlySCP) ∧
    (['.', '.'] <:+: "scp -t /etc/..".toList ∧
      validateCommand "scp -t /etc/..".toList (mkPerm "rw" "rw") "rw".toList
        = .error .errAbsolutePath) := by
  decide

/-- C1 (amended): every command that contains ".." is rejected, whatever the
Permission and the recursive set, and the reason is PathTraversal ("Path
traversal not allowed") whenever the four earlier checks pass: token 0 is
"scp", there are at least two tokens, no disallowed character occurs and the
final token does not start with the path separator. -/
theorem validateCommand_dotdot (command : Str) (perm : Permissions) (recPerms : Str)
    (hdots : ['.', '.'] <:+: command) :
    (∀ m, validateCommand command perm recPerms ≠ .ok m) ∧
    ((split command ' ').head? = some ['s', 'c', 'p'] →
      2 ≤ (split command ' ').length →
      (∀ ch ∈ disallowedChars, ch ∉ command) →
      (split command ' ').getLast?.bind List.head? ≠ some Separator →
      validateCommand command perm recPerms = .error .errPathTraversal ∧
      ScpError.errPathTraversal.Error = "Path traversal not allowed") := by
  have hidx : index command ['.', '.'] ≠ -1 := (index_ne_iff _ _).mpr hdots
  have hne := split_ne_nil command ' '
  constructor
  · intro m hm
    exact hidx (validateCommand_ok_structure command perm recPerms m hm).2.2.2.2
  · intro h1 h2 h3 h4
    refine ⟨?_, rfl⟩
    apply validateCommand_traversal
    · rw [head?_eq_headD _ hne] at h1
      exact Option.some.inj h1
    · omega
    · exact (indexAny_eq_iff _ _).mpr h3
    · rw [getLast?_eq_getLastD _ hne, Option.some_bind, ne_eq, ← hasPrefix_singleton] at h4
      simpa using h4
    · exact hidx

/-- Witness for C1 (amended): "scp -t a/../b" passes the earlier checks. -/
theorem validateCommand_dotdot_witness :
    (∀ m, validateCommand "scp -t a/../b".toList (mkPerm "rw" "") [] ≠ .ok m) ∧
    validateCommand "scp -t a/../b".toList (mkPerm "rw" "") [] = .error .errPathTraversal :=
  ⟨(validateCommand_dotdot "scp -t a/../b".toList (mkPerm "rw" "") [] (by decide)).1,
   ((validateCommand_dotdot "scp -t a/../b".toList (mkPerm "rw" "") [] (by decide)).2
      (by decide) (by decide) (by decide) (by decide)).1⟩

/-! ## C2 -/

theorem middleTokens_getElem? (command : Str) (i : Nat) (tok : Str)
    (h0 : 0 < i) (h1 : i + 1 < (split command ' ').length)
    (h : (split command ' ')[i]? = some tok) : tok ∈ middleTokens command := by
  rw [List.mem_iff_getElem?]
  refine ⟨i - 1, ?_⟩
  unfold middleTokens
  rw [List.getElem?_dropLast, List.getElem?_drop, List.length_drop]
  have e : 1 + (i - 1) = i := by omega
  rw [e, h, if_pos (by omega)]

/-- What an accepted command went through: the five structural checks and a
complete flag walk. -/
theorem validateCommand_ok_flagLoop (command : Str) (perm : Permissions) (recPerms m : Str)
    (h : validateCommand command perm recPerms = .ok m) :
    ∃ st, flagLoop perm (middleTokens command) ⟨[], false, false⟩ = .ok st ∧
      m = st.cmd ∧
      (st.recurse && st.download && !contains recPerms ['r']) = false ∧
      (st.recurse && !st.download && !contains recPerms ['w']) = false := by
  obtain ⟨h1, h2, h3, h4, h5⟩ := validateCommand_ok_structure command perm recPerms m h
  rw [validateCommand_of_structure command perm recPerms h1 h2 h3 h4 h5,
    validateCommand_flags] at h
  cases hfl : flagLoop perm (middleTokens command) ⟨[], false, false⟩ with
  | error e => rw [hfl] at h; simp at h
  | ok st =>
    rw [hfl] at h
    simp only at h
    split_ifs at h with c1 c2
    simp only [Except.ok.injEq] at h
    exact ⟨st, rfl, h.symm, by simpa using c1, by simpa using c2⟩

/-- C2: every command accepted by validateCommand, for every Permission and
recursive set, has at least two space-separated tokens with token 0 equal to
"scp", contains none of the disallowed characters and no "..", has a final
token that does not start with the path separator, and every token strictly
between the first and the last is one of -r, -d, --, -t, -f. -/
theorem validateCommand_accepted_shape (command : Str) (perm : Permissions)
    (recPerms m : Str) (h : validateCommand command perm recPerms = .ok m) :
    2 ≤ (split command ' ').length ∧
    (split command ' ').head? = some "scp".toList ∧
    (∀ ch ∈ [';', '&', '|', '>', '<', '~', Char.ofNat 96], ch ∉ command) ∧
    ¬ "..".toList <:+: command ∧
    (∀ last, (split command ' ').getLast? = some last → last.head? ≠ some '/') ∧
    (∀ i tok, 0 < i → i + 1 < (split command ' ').length →
      (split command ' ')[i]? = some tok →
      tok ∈ ["-r".toList, "-d".toList, "--".toList, "-t".toList, "-f".toList]) := by
  obtain ⟨h1, h2, h3, h4, h5⟩ := validateCommand_ok_structure command perm recPerms m h
  obtain ⟨s1, s2, s3, s4, s5⟩ := structure_spec command h1 h2 h3 h4 h5
  obtain ⟨st, hfl, -, -, -⟩ := validateCommand_ok_flagLoop command perm recPerms m h
  refine ⟨s1, s2, s3, s5, ?_, ?_⟩
  · intro last hlast
    rw [hlast, Option.some_bind] at s4
    exact s4
  · intro i tok h0 hi htok
    exact (flagLoop_ok perm _ _ _ hfl).1 tok (middleTokens_getElem? command i tok h0 hi htok)

/-- Witness for C2: "scp -r -t dir/file.txt" is accepted under privileges
"rw" and recursive set "w". -/
theorem validateCommand_accepted_shape_witness :
    validateCommand "scp -r -t dir/file.txt".toList (mkPerm "rw" "w") "w".toList
      = .ok "-t".toList ∧
    2 ≤ (split "scp -r -t dir/file.txt".toList ' ').length ∧
    ¬ "..".toList <:+: "scp -r -t dir/file.txt".toList :=
  ⟨by decide,
   (validateCommand_accepted_shape "scp -r -t dir/file.txt".toList (mkPerm "rw" "w")
      "w".toList "-t".toList (by decide)).1,
   (validateCommand_accepted_shape "scp -r -t dir/file.txt".toList (mkPerm "rw" "w")
      "w".toList "-t".toList (by decide)).2.2.2.1⟩

/-! ## C3 -/

/-- C3: a command whose first space-separated token is not exactly "scp" (in
particular one that does not start with "scp") is rejected with NotScp ("Only
scp allowed") for every Permission and recursive set, and the one-token command
"scp" is rejected with TooFewArgs. -/
theorem validateCommand_not_scp (command : Str) (perm : Permissions) (recPerms : Str)
    (h : (split command ' ').head? ≠ some "scp".toList ∨ ¬ "scp".toList <+: command) :
    validateCommand command perm recPerms = .error .errOnlySCP ∧
    ScpError.errOnlySCP.Error = "Only scp allowed" ∧
    validateCommand "scp".toList perm recPerms = .error .errFewArgs := by
  refine ⟨?_, rfl, ?_⟩
  · apply validateCommand_notScp
    intro hh
    have hne := split_ne_nil command ' '
    rcases h with h | h
    · rw [head?_eq_headD _ hne, hh] at h
      exact h rfl
    · apply h
      have := split_headD_prefix command ' '
      rw [hh] at this
      exact this
  · exact validateCommand_fewArgs _ perm recPerms (by decide) (by decide)

/-- Witness for C3: "sftp x" does not start with "scp". -/
theorem validateCommand_not_scp_witness :
    validateCommand "sftp x".toList (mkPerm "rw" "rw") "rw".toList = .error .errOnlySCP ∧
    validateCommand "scp".toList (mkPerm "rw" "rw") "rw".toList = .error .errFewArgs :=
  ⟨(validateCommand_not_scp "sftp x".toList (mkPerm "rw" "rw") "rw".toList
      (Or.inl (by decide))).1,
   (validateCommand_not_scp "sftp x".toList (mkPerm "rw" "rw") "rw".toList
      (Or.inr (by decide))).2.2⟩

/-! ## C4 -/

theorem specFlagCheck_eq (perm : Permissions) (flag : Str) :
    specFlagCheck perm flag =
      if flag = ['-', 'r'] then none
      else if flag = ['-', 'd'] then none
      else if flag = ['-', '-'] then none
      else if flag = ['-', 't'] then
        if !contains (perm.opt "privs") ['w'] then some .errUploadPrivs else none
      else if flag = ['-', 'f'] then
        if !contains (perm.opt "privs") ['r'] then some .errDownloadPrivs else none
      else some .errUnsupportedScpFlag := by
  have hw := contains_singleton_iff (perm.opt "privs") 'w'
  have hr := contains_singleton_iff (perm.opt "privs") 'r'
  unfold specFlagCheck flagWhitelist
  by_cases c1 : flag = ['-', 'r']
  · subst c1; simp
  by_cases c2 : flag = ['-', 'd']
  · subst c2; simp
  by_cases c3 : flag = ['-', '-']
  · subst c3; simp
  by_cases c4 : flag = ['-', 't']
  · subst c4
    by_cases cw : 'w' ∈ perm.opt "privs"
    · simp [cw, hw.mpr cw]
    · have : contains (perm.opt "privs") ['w'] = false := by
        rw [← Bool.not_eq_true, hw]; exact cw
      simp [cw, this]
  by_cases c5 : flag = ['-', 'f']
  · subst c5
    by_cases cr : 'r' ∈ perm.opt "privs"
    · simp [cr, hr.mpr cr]
    · have : contains (perm.opt "privs") ['r'] = false := by
        rw [← Bool.not_eq_true, hr]; exact cr
      simp [cr, this]
  simp [c1, c2, c3, c4, c5]

/-- The flag walk stops at the first flag whose own check fails, and otherwise
lets the later checks decide. -/
theorem flagLoop_firstFailure (perm : Permissions) (flags : List Str) (st : FlagState)
    (rest : List (Option ScpError)) :
    match flagLoop perm flags st with
    | .error e => firstFailure (flags.map (specFlagCheck perm) ++ rest) = some e
    | .ok _ => firstFailure (flags.map (specFlagCheck perm) ++ rest) = firstFailure rest := by
  induction flags generalizing st with
  | nil => simp [flagLoop]
  | cons flag tl ih =>
    rw [List.map_cons, List.cons_append, specFlagCheck_eq]
    unfold flagLoop
    split_ifs with h1 h2 h3 h4 h5 h6 h7
    · simpa [firstFailure] using ih _
    · simpa [firstFailure] using ih _
    · simpa [firstFailure] using ih _
    · simp [firstFailure]
    · simpa [firstFailure] using ih _
    · simp [firstFailure]
    · simpa [firstFailure] using ih _
    · simp [firstFailure]

/-- C4: validateCommand reports the first failing check in the fixed order
NotScp, TooFewArgs, DisallowedCharacter, AbsolutePathArgument, PathTraversal,
then the flags in token order, then the two recursion checks: its rejection is
the first failure of the ordered check list of the specification (and it
accepts exactly when no check fails). In particular a command with token 0 =
scp and at least two tokens that has a disallowed character yields
DisallowedCharacter even when its final token is absolute, and one without
disallowed characters whose final token is absolute yields
AbsolutePathArgument even when it contains "..". -/
theorem validateCommand_first_failing_check (command : Str) (perm : Permissions)
    (recPerms : Str) :
    rejection (validateCommand command perm recPerms)
      = firstFailure (specChecks command perm recPerms) ∧
    ((split command ' ').head? = some "scp".toList → 2 ≤ (split command ' ').length →
      (∃ ch ∈ disallowedChars, ch ∈ command) →
      validateCommand command perm recPerms = .error .errDisallowedChars) ∧
    ((split command ' ').head? = some "scp".toList → 2 ≤ (split command ' ').length →
      (∀ ch ∈ disallowedChars, ch ∉ command) →
      (split command ' ').getLast?.bind List.head? = some Separator →
      validateCommand command perm recPerms = .error .errAbsolutePath) := by
  have hne := split_ne_nil command ' '
  have hpos := split_length_pos command ' '
  have hhead := head?_eq_headD _ hne
  have hlast := getLast?_eq_getLastD _ hne
  have hany := indexAny_eq_iff command disallowedChars
  have hpre := hasPrefix_singleton ((split command ' ').getLastD []) Separator
  have hidx := index_ne_iff command ['.', '.']
  refine ⟨?_, ?_, ?_⟩
  · by_cases c1 : (split command ' ').headD [] = ['s', 'c', 'p']
    swap
    · rw [validateCommand_notScp command perm recPerms c1]
      have : (split command ' ').head? ≠ some ['s', 'c', 'p'] := by
        rw [hhead]; simpa using c1
      simp [specChecks, firstFailure, rejection, this]
    have s1 : (split command ' ').head? = some ['s', 'c', 'p'] := by rw [hhead, c1]
    by_cases c2 : (split command ' ').length = 1
    · rw [validateCommand_fewArgs command perm recPerms c1 c2]
      simp [specChecks, firstFailure, rejection, s1, c2]
    have s2 : ¬ (split command ' ').length < 2 := by omega
    by_cases c3 : indexAny command disallowedChars = -1
    swap
    · rw [validateCommand_disallowed command perm recPerms c1 c2 c3]
      have : ∃ ch ∈ disallowedChars, ch ∈ command := by
        by_contra hcon
        exact c3 (hany.mpr (by simpa using hcon))
      simp only [specChecks, rejection, s1, s2, this, firstFailure, ne_eq, not_true_eq_false,
        if_false, if_true, List.cons_append]
    have s3 : ¬ ∃ ch ∈ disallowedChars, ch ∈ command := by
      have := hany.mp c3
      simpa using this
    by_cases c4 : hasPrefix ((split command ' ').getLastD []) [Separator] = true
    · rw [validateCommand_absolute command perm recPerms c1 c2 c3 c4]
      have : (split command ' ').getLast?.bind List.head? = some Separator := by
        rw [hlast, Option.some_bind]; exact hpre.mp c4
      simp only [specChecks, rejection, s1, s2, s3, this, firstFailure, ne_eq,
        not_true_eq_false, if_false, if_true, List.cons_append]
    have c4f : hasPrefix ((split command ' ').getLastD []) [Separator] = false := by
      simpa using c4
    have s4 : ¬ (split command ' ').getLast?.bind List.head? = some Separator := by
      rw [hlast, Option.some_bind, ← hpre]; exact c4
    by_cases c5 : index command ['.', '.'] = -1
    swap
    · rw [validateCommand_traversal command perm recPerms c1 c2 c3 c4f c5]
      have : ['.', '.'] <:+: command := hidx.mp c5
      simp only [specChecks, rejection, s1, s2, s3, s4, this, firstFailure, ne_eq,
        not_true_eq_false, if_false, if_true, List.cons_append]
    have s5 : ¬ ['.', '.'] <:+: command := by
      rw [← hidx]; simpa using c5
    rw [validateCommand_of_structure command perm recPerms c1 c2 c3 c4f c5,
      validateCommand_flags]
    simp only [specChecks, s1, s2, s3, s4, s5, firstFailure, ne_eq,
      not_true_eq_false, if_false, List.cons_append, List.nil_append, List.append_assoc]
    have key := flagLoop_firstFailure perm (middleTokens command) ⟨[], false, false⟩
      [ if ['-', 'r'] ∈ middleTokens command ∧ ['-', 'f'] ∈ middleTokens command ∧
          'r' ∉ recPerms then some ScpError.errRecursiveDownload else none,
        if ['-', 'r'] ∈ middleTokens command ∧ ['-', 'f'] ∉ middleTokens command ∧
          'w' ∉ recPerms then some ScpError.errRecursiveUpload else none ]
    cases hfl : flagLoop perm (middleTokens command) ⟨[], false, false⟩ with
    | error e =>
      rw [hfl] at key
      simp only at key
      rw [key]
      rfl
    | ok st =>
      rw [hfl] at key
      simp only at key
      rw [key]
      obtain ⟨-, -, -, hr, hd, -, -⟩ := flagLoop_ok perm _ _ _ hfl
      simp only [Bool.false_or] at hr hd
      have hw : contains recPerms ['w'] = decide ('w' ∈ recPerms) := by
        rw [Bool.eq_iff_iff]; simp [contains_singleton_iff]
      have hr' : contains recPerms ['r'] = decide ('r' ∈ recPerms) := by
        rw [Bool.eq_iff_iff]; simp [contains_singleton_iff]
      by_cases m1 : ['-', 'r'] ∈ middleTokens command <;>
      by_cases m2 : ['-', 'f'] ∈ middleTokens command <;>
      by_cases m3 : 'r' ∈ recPerms <;>
      by_cases m4 : 'w' ∈ recPerms <;>
      simp [hr, hd, m1, m2, m3, m4, firstFailure, rejection, hw, hr']
  · intro h1 h2 h3
    apply validateCommand_disallowed
    · rw [hhead] at h1; exact Option.some.inj h1
    · omega
    · intro hcon
      obtain ⟨ch, hch, hmem⟩ := h3
      exact (hany.mp hcon) ch hch hmem
  · intro h1 h2 h3 h4
    apply validateCommand_absolute
    · rw [hhead] at h1; exact Option.some.inj h1
    · omega
    · exact hany.mpr h3
    · rw [hlast, Option.some_bind] at h4
      exact hpre.mpr h4

/-- Witness for C4: "scp ;x /abs" has a disallowed character and an absolute
final token, "scp -t /etc/.." an absolute final token and "..". -/
theorem validateCommand_first_failing_check_witness :
    validateCommand "scp ;x /abs".toList (mkPerm "rw" "") [] = .error .errDisallowedChars ∧
    validateCommand "scp -t /etc/..".toList (mkPerm "rw" "") [] = .error .errAbsolutePath :=
  ⟨(validateCommand_first_failing_check "scp ;x /abs".toList (mkPerm "rw" "") []).2.1
      (by decide) (by decide) (by decide),
   (validateCommand_first_failing_check "scp -t /etc/..".toList (mkPerm "rw" "") []).2.2
      (by decide) (by decide) (by decide) (by decide)⟩

/-! ## C5 -/

/-- The five structural facts, from the vocabulary of the specification to
the tests of the code. -/
theorem structure_code (command : Str)
    (s1 : (split command ' ').head? = some ['s', 'c', 'p'])
    (s2 : 2 ≤ (split command ' ').length)
    (s3 : ∀ ch ∈ disallowedChars, ch ∉ command)
    (s4 : (split command ' ').getLast?.bind List.head? ≠ some Separator)
    (s5 : ¬ ['.', '.'] <:+: command) :
    (split command ' ').headD [] = ['s', 'c', 'p'] ∧
    (split command ' ').length ≠ 1 ∧
    indexAny command disallowedChars = -1 ∧
    hasPrefix ((split command ' ').getLastD []) [Separator] = false ∧
    index command ['.', '.'] = -1 := by
  have hne := split_ne_nil command ' '
  refine ⟨?_, by omega, (indexAny_eq_iff _ _).mpr s3, ?_, ?_⟩
  · rw [head?_eq_headD _ hne] at s1
    exact Option.some.inj s1
  · rw [getLast?_eq_getLastD _ hne, Option.some_bind, ne_eq, ← hasPrefix_singleton] at s4
    simpa using s4
  · by_contra hcon
    exact s5 ((index_ne_iff _ _).mp hcon)

theorem firstFailure_append_none (l r : List (Option ScpError)) (h : ∀ x ∈ l, x = none) :
    firstFailure (l ++ r) = firstFailure r := by
  induction l with
  | nil => rfl
  | cons a t ih =>
    have ha : a = none := h a (List.mem_cons_self _ _)
    subst ha
    simpa [firstFailure] using ih (fun x hx => h x (List.mem_cons_of_mem _ hx))

/-- When the structural checks pass and some flag fails its own check, the
command is rejected with the reason of the first such flag. -/
theorem validateCommand_flagWalk_error (command : Str) (perm : Permissions)
    (recPerms : Str) (e : ScpError)
    (h1 : (split command ' ').headD [] = ['s', 'c', 'p'])
    (h2 : (split command ' ').length ≠ 1)
    (h3 : indexAny command disallowedChars = -1)
    (h4 : hasPrefix ((split command ' ').getLastD []) [Separator] = false)
    (h5 : index command ['.', '.'] = -1)
    (hf : firstFailure ((middleTokens command).map (specFlagCheck perm)) = some e) :
    validateCommand command perm recPerms = .error e := by
  rw [validateCommand_of_structure command perm recPerms h1 h2 h3 h4 h5, validateCommand_flags]
  have key := flagLoop_firstFailure perm (middleTokens command) ⟨[], false, false⟩ []
  rw [List.append_nil, hf] at key
  cases hfl : flagLoop perm (middleTokens command) ⟨[], false, false⟩ with
  | error e2 =>
    rw [hfl] at key
    simp only [Option.some.injEq] at key
    rw [key]
  | ok st =>
    rw [hfl] at key
    simp [firstFailure] at key

/-- C5: upload mode requires write and download mode requires read. For a
command that passes the NotScp, TooFewArgs, DisallowedCharacter,
AbsolutePathArgument and PathTraversal checks and whose flags before the
flag in question all pass the flag walk, a -t flag with privileges lacking
'w' yields UploadNotPermitted and a -f flag with privileges lacking 'r'
yields DownloadNotPermitted; every accepted command containing -t has 'w' in
privileges and every accepted command containing -f has 'r'; and
"scp -t file.txt" is accepted with mode "-t" under privileges "rw" and yields
UploadNotPermitted under privileges "r". -/
theorem validateCommand_mode_privileges (command : Str) (perm : Permissions)
    (recPerms : Str) :
    (∀ pre post flag,
      (split command ' ').head? = some "scp".toList → 2 ≤ (split command ' ').length →
      (∀ ch ∈ disallowedChars, ch ∉ command) →
      (split command ' ').getLast?.bind List.head? ≠ some Separator →
      ¬ "..".toList <:+: command →
      middleTokens command = pre ++ flag :: post →
      (∀ f ∈ pre, specFlagCheck perm f = none) →
      (flag = "-t".toList → 'w' ∉ perm.opt "privs" →
        validateCommand command perm recPerms = .error .errUploadPrivs) ∧
      (flag = "-f".toList → 'r' ∉ perm.opt "privs" →
        validateCommand command perm recPerms = .error .errDownloadPrivs)) ∧
    (∀ m, validateCommand command perm recPerms = .ok m →
      ("-t".toList ∈ middleTokens command → 'w' ∈ perm.opt "privs") ∧
      ("-f".toList ∈ middleTokens command → 'r' ∈ perm.opt "privs")) ∧
    (perm.opt "privs" = "rw".toList →
      validateCommand "scp -t file.txt".toList perm recPerms = .ok "-t".toList) ∧
    (perm.opt "privs" = "r".toList →
      validateCommand "scp -t file.txt".toList perm recPerms = .error .errUploadPrivs) := by
  refine ⟨?_, ?_, ?_, ?_⟩
  · intro pre post flag s1 s2 s3 s4 s5 hmid hpre
    obtain ⟨h1, h2, h3, h4, h5⟩ := structure_code command s1 s2 s3 s4 s5
    have hnone : ∀ x ∈ pre.map (specFlagCheck perm), x = none := by
      intro x hx
      obtain ⟨f, hf, rfl⟩ := List.mem_map.mp hx
      exact hpre f hf
    constructor
    · intro hflag hw
      apply validateCommand_flagWalk_error command perm recPerms _ h1 h2 h3 h4 h5
      rw [hmid, List.map_append, firstFailure_append_none _ _ hnone, List.map_cons, hflag]
      simp [specFlagCheck, flagWhitelist, hw, firstFailure]
    · intro hflag hr
      apply validateCommand_flagWalk_error command perm recPerms _ h1 h2 h3 h4 h5
      rw [hmid, List.map_append, firstFailure_append_none _ _ hnone, List.map_cons, hflag]
      simp [specFlagCheck, flagWhitelist, hr, firstFailure]
  · intro m hm
    obtain ⟨st, hfl, -, -, -⟩ := validateCommand_ok_flagLoop command perm recPerms m hm
    obtain ⟨-, ht, hf, -, -, -, -⟩ := flagLoop_ok perm _ _ _ hfl
    exact ⟨ht, hf⟩
  · intro hp
    rw [validateCommand_of_structure _ perm recPerms (by decide) (by decide) (by decide)
      (by decide) (by decide), validateCommand_flags]
    have hm : middleTokens "scp -t file.txt".toList = [['-', 't']] := by decide
    have hc : contains ['r', 'w'] ['w'] = true := by decide
    rw [hm]
    simp [flagLoop, hp, hc]
  · intro hp
    rw [validateCommand_of_structure _ perm recPerms (by decide) (by decide) (by decide)
      (by decide) (by decide), validateCommand_flags]
    have hm : middleTokens "scp -t file.txt".toList = [['-', 't']] := by decide
    have hc : contains ['r'] ['w'] = false := by decide
    rw [hm]
    simp [flagLoop, hp, hc]

/-- Witness for C5: "scp -d -f file.txt" under privileges "w" is rejected at
its -f flag, and "scp -t file.txt" is accepted under "rw", rejected under "r". -/
theorem validateCommand_mode_privileges_witness :
    validateCommand "scp -d -f file.txt".toList (mkPerm "w" "") []
      = .error .errDownloadPrivs ∧
    'w' ∈ (mkPerm "rw" "").opt "privs" ∧
    validateCommand "scp -t file.txt".toList (mkPerm "rw" "") [] = .ok "-t".toList ∧
    validateCommand "scp -t file.txt".toList (mkPerm "r" "") [] = .error .errUploadPrivs :=
  ⟨((validateCommand_mode_privileges "scp -d -f file.txt".toList (mkPerm "w" "") []).1
      ["-d".toList] [] "-f".toList (by decide) (by decide) (by decide) (by decide)
      (by decide) (by decide) (by decide)).2 rfl (by decide),
   ((validateCommand_mode_privileges "scp -t file.txt".toList (mkPerm "rw" "") []).2.1
      "-t".toList (by decide)).1 (by decide),
   (validateCommand_mode_privileges "scp -t file.txt".toList (mkPerm "rw" "") []).2.2.1
      (by decide),
   (validateCommand_mode_privileges "scp -t file.txt".toList (mkPerm "r" "") []).2.2.2
      (by decide)⟩

/-! ## C6 -/

/-- C6, as stated, fails: "scp -r -t -f x" carries -r and -t, is accepted
under privileges "rw" with the recursive set "r", and that set has no 'w'. The
presence of -f makes the command a download for the recursion check. -/
theorem validateCommand_recursive_upload_flag_unchecked :
    validateCommand "scp -r -t -f x".toList (mkPerm "rw" "r") "r".toList = .ok "-f".toList ∧
    "-r".toList ∈ middleTokens "scp -r -t -f x".toList ∧
    "-t".toList ∈ middleTokens "scp -r -t -f x".toList ∧
    'w' ∉ "r".toList := by
  decide

/-- C6 (amended): for every accepted command whose flags include -r, if the
flags include -f (a download) the recursive set contains 'r', and if the flags
do not include -f (in particular an upload with -t and no -f) the recursive
set contains 'w'. -/
theorem validateCommand_recursive_permissions (command : Str) (perm : Permissions)
    (recPerms m : Str) (h : validateCommand command perm recPerms = .ok m)
    (hrec : "-r".toList ∈ middleTokens command) :
    ("-f".toList ∈ middleTokens command → 'r' ∈ recPerms) ∧
    ("-f".toList ∉ middleTokens command → 'w' ∈ recPerms) := by
  obtain ⟨st, hfl, -, c1, c2⟩ := validateCommand_ok_flagLoop command perm recPerms m h
  obtain ⟨-, -, -, hr, hd, -, -⟩ := flagLoop_ok perm _ _ _ hfl
  have hrec2 : ['-', 'r'] ∈ middleTokens command := hrec
  simp only [Bool.false_or, hrec2, decide_True] at hr hd
  rw [hr, hd] at c1 c2
  constructor
  · intro hf
    have hf2 : ['-', 'f'] ∈ middleTokens command := hf
    rw [← contains_singleton_iff]
    simpa [hf2] using c1
  · intro hf
    have hf2 : ['-', 'f'] ∉ middleTokens command := hf
    rw [← contains_singleton_iff]
    simpa [hf2] using c2

/-- Witness for C6 (amended): a recursive upload accepted with recursive set
"w". -/
theorem validateCommand_recursive_permissions_witness :
    validateCommand "scp -r -t dir".toList (mkPerm "rw" "w") "w".toList = .ok "-t".toList ∧
    'w' ∈ "w".toList :=
  ⟨by decide,
   (validateCommand_recursive_permissions "scp -r -t dir".toList (mkPerm "rw" "w")
      "w".toList "-t".toList (by decide) (by decide)).2 (by decide)⟩

/-! ## C7 -/

/-- C7, as stated, fails: "scp file.txt" has no mode flag and is accepted
with the empty mode string. -/
theorem validateCommand_accepts_without_mode :
    validateCommand "scp file.txt".toList (mkPerm "rw" "") [] = .ok [] ∧
    ([] : Str) ≠ "-t".toList ∧ ([] : Str) ≠ "-f".toList := by
  decide

/-- C7 (amended): for every accepted command whose flags include -t or -f the
returned mode is "-t" or "-f"; for an accepted command with neither flag the
returned mode is the empty string. -/
theorem validateCommand_mode (command : Str) (perm : Permissions) (recPerms m : Str)
    (h : validateCommand command perm recPerms = .ok m) :
    ("-t".toList ∈ middleTokens command ∨ "-f".toList ∈ middleTokens command →
      m = "-t".toList ∨ m = "-f".toList) ∧
    ("-t".toList ∉ middleTokens command ∧ "-f".toList ∉ middleTokens command → m = []) := by
  obtain ⟨st, hfl, hm, -, -⟩ := validateCommand_ok_flagLoop command perm recPerms m h
  obtain ⟨-, -, -, -, -, hc, hn⟩ := flagLoop_ok perm _ _ _ hfl
  subst hm
  exact ⟨hc, hn⟩

/-- Witness for C7 (amended): an accepted download returns "-f". -/
theorem validateCommand_mode_witness :
    validateCommand "scp -f file.txt".toList (mkPerm "r" "") [] = .ok "-f".toList ∧
    ("-f".toList = "-t".toList ∨ "-f".toList = "-f".toList) :=
  ⟨by decide,
   (validateCommand_mode "scp -f file.txt".toList (mkPerm "r" "") [] "-f".toList
      (by decide)).1 (Or.inr (by decide))⟩

/-! ## C8 -/

/-- A token list of at least two tokens is its first token, its middle tokens
and its last token. -/
theorem tokens_decompose (c : List Str) (h : 2 ≤ c.length) :
    c = c.headD [] :: ((c.drop 1).dropLast ++ [c.getLastD []]) := by
  match c, h with
  | a :: b :: t, _ =>
    have hne : b :: t ≠ [] := by simp
    have e : (a :: b :: t).getLastD [] = (b :: t).getLast hne := by
      simp [List.getLastD_eq_getLast?, List.getLast?_eq_getLast]
    simp only [List.headD_cons, List.drop_one, List.tail_cons]
    rw [e, List.dropLast_append_getLast hne]

theorem set_last (a : Str) (mid : List Str) (last x : Str) :
    ((a :: (mid ++ [last])).set ((a :: (mid ++ [last])).length - 1) x).drop 1
      = mid ++ [x] := by
  have e : (a :: (mid ++ [last])).length - 1 = mid.length + 1 := by simp
  rw [e, List.set_cons_succ, List.drop_one, List.tail_cons]
  induction mid with
  | nil => rfl
  | cons b t ih => simp [List.set_cons_succ, ih]

/-- C8: for every accepted command, the argument vector handed to the
transfer subprocess by handleExec is the command's space-separated tokens
without token 0, with only the final token rewritten to dir ++ finalToken,
where dir is the Permission's directory, or the configured SharedDir when
that directory is empty; every other token is unchanged. -/
theorem handleExec_argument_vector (command : Str) (perm : Permissions) (config : Config)
    (m : Str) (h : validateCommand command perm (perm.opt "recurse") = .ok m) :
    ∃ mid last, split command ' ' = "scp".toList :: (mid ++ [last]) ∧
      handleExecArgs command perm config =
        .ok (mid ++ [(if perm.opt "dir" = [] then config.SharedDir else perm.opt "dir")
          ++ last]) := by
  obtain ⟨h1, h2, -, -, -⟩ := validateCommand_ok_structure command perm _ m h
  have hpos := split_length_pos command ' '
  have hdec := tokens_decompose (split command ' ') (by omega)
  rw [h1] at hdec
  refine ⟨((split command ' ').drop 1).dropLast, (split command ' ').getLastD [], hdec, ?_⟩
  unfold handleExecArgs
  rw [h]
  simp only
  congr 1
  generalize ((split command ' ').drop 1).dropLast = mid at hdec ⊢
  generalize hl : (split command ' ').getLastD [] = last at hdec ⊢
  rw [hdec]
  exact set_last _ mid last _

/-- Witness for C8: an upload into the user's directory, and one into the
shared directory when the Permission has no directory. -/
theorem handleExec_argument_vector_witness :
    handleExecArgs "scp -t file.txt".toList
      ⟨[("privs".toList, "rw".toList), ("dir".toList, "/srv/alice/".toList)]⟩
      ⟨"/srv/shared/".toList, "/usr/bin/scp".toList⟩
      = .ok ["-t".toList, "/srv/alice/file.txt".toList] ∧
    (∃ mid last, split "scp -t file.txt".toList ' ' = "scp".toList :: (mid ++ [last]) ∧
      handleExecArgs "scp -t file.txt".toList (mkPerm "rw" "")
        ⟨"/srv/shared/".toList, "/usr/bin/scp".toList⟩ =
        .ok (mid ++ [(if (mkPerm "rw" "").opt "dir" = [] then "/srv/shared/".toList
          else (mkPerm "rw" "").opt "dir") ++ last])) :=
  ⟨by decide,
   handleExec_argument_vector "scp -t file.txt".toList (mkPerm "rw" "")
     ⟨"/srv/shared/".toList, "/usr/bin/scp".toList⟩ "-t".toList (by decide)⟩

/-! ## Facts about the library functions used by the interceptor -/

theorem slice_append (a b c : Str) (lo hi : Int) (hlo : lo = a.length)
    (hhi : hi = a.length + b.length) : slice (a ++ (b ++ c)) lo hi = some b := by
  subst hlo hhi
  unfold slice
  have hlen : ((a.length : Int) + b.length) ≤ ((a ++ (b ++ c)).length : Int) := by
    simp only [List.length_append, Nat.cast_add]
    omega
  rw [if_pos ⟨by omega, by omega, hlen⟩]
  have e1 : ((a.length : Int) + b.length).toNat = a.length + b.length := by omega
  have e2 : (a.length : Int).toNat = a.length := by omega
  rw [e1, e2, ← List.append_assoc, List.take_left' (by simp), List.drop_left]

theorem index_first (s rest : Str) (c : Char) (h : ∀ d ∈ s, d ≠ c) :
    index (s ++ c :: rest) [c] = s.length := by
  induction s with
  | nil => simp [index, hasPrefix, List.isPrefixOf]
  | cons d t ih =>
    have hd : d ≠ c := h d (List.mem_cons_self _ _)
    have ht := ih (fun x hx => h x (List.mem_cons_of_mem _ hx))
    have hc : (c == d) = false := by simpa using hd.symm
    have hp : hasPrefix (d :: (t ++ c :: rest)) [c] = false := by
      simp [hasPrefix, List.isPrefixOf, hc]
    show index (d :: (t ++ c :: rest)) [c] = _
    unfold index
    simp only [hp, Bool.false_eq_true, if_false, ht, List.length_cons, Nat.cast_add,
      Nat.cast_one]
    rw [if_neg (by omega)]

theorem foldl_decimal_ge (ds : Str) (m : Nat) :
    m ≤ ds.foldl (fun acc d => acc * 10 + (d.toNat - 48)) m := by
  induction ds generalizing m with
  | nil => exact Nat.le_refl _
  | cons d t ih =>
    simp only [List.foldl_cons]
    have := ih (m * 10 + (d.toNat - 48))
    omega

theorem parseUintLoop_decimal (ds : Str) (n : Nat)
    (hd : ∀ d ∈ ds, 48 ≤ d.toNat ∧ d.toNat ≤ 57)
    (hn : ds.foldl (fun acc d => acc * 10 + (d.toNat - 48)) n < 2 ^ 64) :
    parseUintLoop ds n = (ds.foldl (fun acc d => acc * 10 + (d.toNat - 48)) n, false) := by
  induction ds generalizing n with
  | nil => rfl
  | cons d t ih =>
    have hdig := hd d (List.mem_cons_self _ _)
    simp only [List.foldl_cons] at hn ⊢
    have hge := foldl_decimal_ge t (n * 10 + (d.toNat - 48))
    have hlt : n * 10 + (d.toNat - 48) < 18446744073709551616 := by
      have : (2 : Nat) ^ 64 = 18446744073709551616 := by norm_num
      omega
    have rec := ih (n * 10 + (d.toNat - 48)) (fun x hx => hd x (List.mem_cons_of_mem _ hx)) hn
    unfold parseUintLoop
    have hmax : maxUint64 = 18446744073709551615 := by norm_num [maxUint64]
    have hpow : (2 : Nat) ^ 64 = 18446744073709551616 := by norm_num
    simp only [hdig, and_self, if_true, hmax, hpow]
    have h1 : ¬ n ≥ 18446744073709551615 / 10 + 1 := by omega
    rw [if_neg h1]
    have h2 : n * 10 % 18446744073709551616 = n * 10 := Nat.mod_eq_of_lt (by omega)
    have h3 : (n * 10 + (d.toNat - 48)) % 18446744073709551616 = n * 10 + (d.toNat - 48) :=
      Nat.mod_eq_of_lt hlt
    simp only [h2, h3]
    rw [if_neg (by omega)]
    exact rec

theorem ParseUint_decimal (s : Str) (h : isDecimal s) (hv : decimalValue s < 2 ^ 64) :
    ParseUint s = (decimalValue s, false) := by
  unfold ParseUint
  rw [if_neg h.1]
  exact parseUintLoop_decimal s 0 h.2 hv

theorem isDecimal_no_space (s : Str) (h : isDecimal s) : ∀ d ∈ s, d ≠ ' ' := by
  intro d hd hsp
  have := h.2 d hd
  rw [hsp] at this
  exact absurd this (by decide)

/-! ## C9 -/

/-- The `Read` call on a begin-file header in the Idle phase, step by step:
the slices the code takes all exist, and the result is the one of the branch
selected by the size test. -/
theorem Read_fileHeader (maxSize : Nat) (fr : Frame) (mode size name junk : Str)
    (hphase : fr.phase = 0) (hmode : mode.length = 4) (hdec : isDecimal size)
    (hS : decimalValue size < 2 ^ 64) :
    Read maxSize fr (fileHeader mode size name ++ junk) (fileHeader mode size name).length =
      if maxSize ≠ 0 ∧ decimalValue size > maxSize then
        some ⟨{ fr with filename := name, filesize := decimalValue size, phase := 2 },
          copy (fileHeader mode size name ++ junk) (fileHeader mode ['0'] name),
          (fileHeader mode ['0'] name).length, []⟩
      else
        some ⟨{ fr with filename := name, filesize := decimalValue size, phase := 1 },
          fileHeader mode size name ++ junk, (fileHeader mode size name).length, []⟩ := by
  have hnew : ('C' :: mode) ++ [' '] ++ ['0'] ++ [' '] ++ (name ++ ['\n'])
      = fileHeader mode ['0'] name := by simp [fileHeader]
  have hn : (fileHeader mode size name).length = size.length + name.length + 8 := by
    simp [fileHeader, hmode]; omega
  have hpl : (fileHeader mode size name ++ junk).length
      = size.length + name.length + 8 + junk.length := by
    rw [List.length_append, hn]
  have f2 : (fileHeader mode size name ++ junk).head? = some 'C' := by simp [fileHeader]
  have hpre : ('C' :: mode ++ [' ']).length = 6 := by simp [hmode]
  have f3 : slice (fileHeader mode size name ++ junk) 6
      ((fileHeader mode size name ++ junk).length : Nat)
      = some (size ++ ' ' :: (name ++ '\n' :: junk)) := by
    have e : fileHeader mode size name ++ junk
        = ('C' :: mode ++ [' ']) ++ ((size ++ ' ' :: (name ++ '\n' :: junk)) ++ []) := by
      simp [fileHeader]
    rw [e]
    apply slice_append
    · rw [hpre]; rfl
    · simp only [List.length_append, hpre, List.append_nil]
      push_cast
      simp
  have f4 := index_first size (name ++ '\n' :: junk) ' ' (isDecimal_no_space size hdec)
  have f5 : slice (fileHeader mode size name ++ junk) 6 ((size.length : Int) + 6)
      = some size := by
    have e : fileHeader mode size name ++ junk
        = ('C' :: mode ++ [' ']) ++ (size ++ ' ' :: (name ++ '\n' :: junk)) := by
      simp [fileHeader]
    rw [e]
    apply slice_append
    · rw [hpre]; rfl
    · rw [hpre]; push_cast; omega
  have hpre2 : ('C' :: mode ++ ' ' :: size ++ [' ']).length = size.length + 7 := by
    simp only [List.cons_append, List.length_cons, List.length_append, hmode,
      List.length_singleton, List.length_nil]
    omega
  have f6 : slice (fileHeader mode size name ++ junk) ((size.length : Int) + 6 + 1)
      (((fileHeader mode size name).length : Nat) - 1) = some name := by
    have e : fileHeader mode size name ++ junk
        = ('C' :: mode ++ ' ' :: size ++ [' ']) ++ (name ++ '\n' :: junk) := by
      simp [fileHeader]
    rw [e, hn]
    apply slice_append
    · rw [hpre2]; push_cast; omega
    · rw [hpre2]; push_cast; omega
  have f7 : slice (fileHeader mode size name ++ junk) 0 5 = some ('C' :: mode) := by
    have e : fileHeader mode size name ++ junk
        = [] ++ (('C' :: mode) ++ (' ' :: size ++ ' ' :: name ++ '\n' :: junk)) := by
      simp [fileHeader]
    rw [e]
    apply slice_append
    · rfl
    · simp [hmode]
  have f8 : slice (fileHeader mode size name ++ junk) ((size.length : Int) + 6 + 1)
      ((fileHeader mode size name).length : Nat) = some (name ++ ['\n']) := by
    have e : fileHeader mode size name ++ junk
        = ('C' :: mode ++ ' ' :: size ++ [' ']) ++ ((name ++ ['\n']) ++ junk) := by
      simp [fileHeader]
    rw [e, hn]
    apply slice_append
    · rw [hpre2]; push_cast; omega
    · rw [hpre2]; simp only [List.length_append, List.length_singleton]; push_cast; omega
  have f9 : (ParseUint size).1 = decimalValue size := by
    rw [ParseUint_decimal size hdec hS]
  generalize fileHeader mode size name ++ junk = p at hpl f2 f3 f5 f6 f7 f8 ⊢
  generalize (fileHeader mode size name).length = n at hn f6 f8 ⊢
  unfold Read
  rw [if_neg (by omega), if_neg (by omega), if_pos hphase, f2]
  simp only [show ('C' = 'E') = False by decide, show ('C' = 'D') = False by decide,
    if_false, if_true, f3, Option.some_bind, f4, f5, f6, f7, f8, f9, hnew]

theorem copy_take (p b : Str) (h : b.length ≤ p.length) : (copy p b).take b.length = b := by
  unfold copy
  rw [List.take_of_length_le h, List.take_left' rfl]

/-- C9: in the Idle phase, on a begin-file header "C<mode> <size> <name>\n"
(four mode bytes, a decimal size field of value S below 2^64) received as one
chunk, scpReader.Read suppresses if and only if maxUploadSize is non-zero and
S is strictly greater than it: when suppressing it forwards the header with
the size field replaced by "0", mode, name and newline unchanged, and enters
phase 2 (Suppressing); otherwise it forwards the header unchanged and enters
phase 1 (InData); in both cases filesize is S and filename is the name. -/
theorem Read_idle_begin_file (maxSize S : Nat) (fr : Frame) (mode size name junk : Str)
    (hphase : fr.phase = 0) (hmode : mode.length = 4) (hdec : isDecimal size)
    (hval : decimalValue size = S) (hS : S < 2 ^ 64) :
    ∃ r, Read maxSize fr (fileHeader mode size name ++ junk)
        (fileHeader mode size name).length = some r ∧
      r.frame.filesize = S ∧ r.frame.filename = name ∧
      r.frame.dirname = fr.dirname ∧ r.frame.currsize = fr.currsize ∧ r.files = [] ∧
      (r.frame.phase = 2 ↔ (maxSize ≠ 0 ∧ maxSize < S)) ∧
      (maxSize ≠ 0 ∧ maxSize < S →
        r.frame.phase = 2 ∧ r.p.take r.n = fileHeader mode "0".toList name) ∧
      (¬ (maxSize ≠ 0 ∧ maxSize < S) →
        r.frame.phase = 1 ∧ r.p.take r.n = fileHeader mode size name) := by
  subst hval
  have hrd := Read_fileHeader maxSize fr mode size name junk hphase hmode hdec hS
  by_cases hc : maxSize ≠ 0 ∧ maxSize < decimalValue size
  · rw [if_pos hc] at hrd
    refine ⟨_, hrd, rfl, rfl, rfl, rfl, rfl, ?_, ?_, ?_⟩
    · simp only [true_iff]; exact hc
    · intro _
      refine ⟨rfl, ?_⟩
      apply copy_take
      have hne : size ≠ [] := hdec.1
      have hpos : 0 < size.length := List.length_pos.mpr hne
      simp only [fileHeader, List.cons_append, List.length_cons, List.length_append,
        List.length_singleton, List.length_nil, String.toList]
      omega
    · intro hn; exact absurd hc hn
  · rw [if_neg hc] at hrd
    refine ⟨_, hrd, rfl, rfl, rfl, rfl, rfl, ?_, ?_, ?_⟩
    · constructor
      · intro h
        have h12 : (1 : Nat) = 2 := h
        omega
      · intro h; exact absurd h hc
    · intro h; exact absurd h hc
    · intro _
      exact ⟨rfl, List.take_left' rfl⟩

/-- Witness for C9: the header "C0644 5000000 big.bin\n" against the limit
1000000 in a fresh frame. -/
theorem Read_idle_begin_file_witness :
    ∃ r, Read 1000000 newFrame
        (fileHeader "0644".toList "5000000".toList "big.bin".toList ++ "stale".toList)
        (fileHeader "0644".toList "5000000".toList "big.bin".toList).length = some r ∧
      r.frame.filesize = 5000000 ∧ r.frame.filename = "big.bin".toList ∧
      r.frame.dirname = newFrame.dirname ∧ r.frame.currsize = newFrame.currsize ∧
      r.files = [] ∧
      (r.frame.phase = 2 ↔ ((1000000 : Nat) ≠ 0 ∧ 1000000 < 5000000)) ∧
      ((1000000 : Nat) ≠ 0 ∧ 1000000 < 5000000 →
        r.frame.phase = 2 ∧
        r.p.take r.n = fileHeader "0644".toList "0".toList "big.bin".toList) ∧
      (¬ ((1000000 : Nat) ≠ 0 ∧ 1000000 < 5000000) →
        r.frame.phase = 1 ∧
        r.p.take r.n = fileHeader "0644".toList "5000000".toList "big.bin".toList) :=
  Read_idle_begin_file 1000000 5000000 newFrame "0644".toList "5000000".toList
    "big.bin".toList "stale".toList rfl rfl ⟨by decide, by decide⟩ (by decide) (by norm_num)

/-! ## C10 -/

theorem sum_pos_of_forall_pos (calls : List (Str × Nat))
    (h : ∀ c ∈ calls, 0 < c.2 ∧ c.2 ≤ c.1.length) (hne : calls ≠ []) :
    0 < (calls.map Prod.snd).sum := by
  cases calls with
  | nil => exact absurd rfl hne
  | cons c t =>
    have := (h c (List.mem_cons_self _ _)).1
    simp only [List.map_cons, List.sum_cons]
    omega

/-- A run through the Suppressing phase: whatever the chunking of the bytes
still missing up to `filesize + 1`, nothing is forwarded before the completing
chunk, one zero byte is forwarded for it, nothing is sent on `filechan`, and
the frame is back in phase 0. -/
theorem runReads_suppressing (maxSize : Nat) (calls : List (Str × Nat)) (fr : Frame)
    (hphase : fr.phase = 2) (hS : fr.filesize < 2 ^ 64) (hk : fr.currsize ≤ fr.filesize)
    (hcalls : ∀ c ∈ calls, 0 < c.2 ∧ c.2 ≤ c.1.length)
    (hsum : fr.currsize + (calls.map Prod.snd).sum = fr.filesize + 1) :
    runReads maxSize fr calls =
      some ⟨{ fr with currsize := 0, filename := [], phase := 0 }, [Char.ofNat 0], []⟩ := by
  induction calls generalizing fr with
  | nil =>
    simp only [List.map_nil, List.sum_nil] at hsum
    omega
  | cons c rest ih =>
    obtain ⟨p, n⟩ := c
    have hn := hcalls (p, n) (List.mem_cons_self _ _)
    have hrest : ∀ c ∈ rest, 0 < c.2 ∧ c.2 ≤ c.1.length :=
      fun c hc => hcalls c (List.mem_cons_of_mem _ hc)
    simp only [List.map_cons, List.sum_cons] at hsum
    simp only at hn
    have hpow : (2 : Nat) ^ 64 = 18446744073709551616 := by norm_num
    have hph0 : ¬ fr.phase = 0 := by omega
    have hph1 : ¬ fr.phase = 1 := by omega
    by_cases hfin : fr.currsize + n = fr.filesize + 1
    · have hrest0 : rest = [] := by
        by_contra hne
        have := sum_pos_of_forall_pos rest hrest hne
        omega
      subst hrest0
      have hp : (p.set 0 (Char.ofNat 0)).take 1 = [Char.ofNat 0] := by
        cases p with
        | nil => simp at hn; omega
        | cons a t => simp
      have hread : Read maxSize fr p n =
          some ⟨{ fr with currsize := 0, filename := [], phase := 0 },
            p.set 0 (Char.ofNat 0), 1, []⟩ := by
        unfold Read
        rw [if_neg (by omega), if_neg (by omega), if_neg hph0]
        simp only [hfin, if_true, if_neg hph1, if_pos hphase]
      simp only [runReads, hread, Option.some_bind, hp, List.append_nil]
    · have hlt : fr.currsize + n < fr.filesize + 1 := by omega
      have hmod : (fr.currsize + n) % 2 ^ 64 = fr.currsize + n :=
        Nat.mod_eq_of_lt (by omega)
      have hne : ¬ (fr.currsize + n) % 2 ^ 64 = (fr.filesize + 1) % 2 ^ 64 := by
        rw [hmod]
        by_cases hb : fr.filesize + 1 < 2 ^ 64
        · rw [Nat.mod_eq_of_lt hb]; omega
        · have hb2 : fr.filesize + 1 = 2 ^ 64 := by omega
          rw [hb2, Nat.mod_self]; omega
      have hread : Read maxSize fr p n =
          some ⟨{ fr with currsize := fr.currsize + n }, p, 0, []⟩ := by
        unfold Read
        rw [if_neg (by omega), if_neg (by omega), if_neg hph0]
        rw [hmod] at hne
        simp only [hmod, if_neg hne, if_pos hphase]
      have hih := ih { fr with currsize := fr.currsize + n } hphase hS (by simp only; omega)
        hrest (by simp only; omega)
      simp only [runReads, hread, Option.some_bind, hih, List.take_zero, List.nil_append]

/-- C10, as stated, fails: with limit 1 a header declaring size 2 is rewritten
to size 0, and after the 3 payload bytes the run has forwarded the rewritten
header and one zero byte but has sent nothing on the file channel, in one
payload chunk as well as in two. -/
theorem runReads_suppressed_no_event :
    runReads 1 newFrame [("C0644 2 a\n".toList, 10), ("xy\x00".toList, 3)]
      = some ⟨⟨0, [], [], 2, 0⟩, "C0644 0 a\n\x00".toList, []⟩ ∧
    runReads 1 newFrame [("C0644 2 a\n".toList, 10), ("x".toList, 1), ("y\x00".toList, 2)]
      = some ⟨⟨0, [], [], 2, 0⟩, "C0644 0 a\n\x00".toList, []⟩ ∧
    ([] : List Str).length ≠ 1 := by
  decide

/-- C10 (amended): for a begin-file header declaring size S (below 2^64)
under maxUploadSize = M with 0 < M < S, received in the Idle phase, the upload
interceptor forwards the header with a size field of 0 and, once the S + 1
payload bytes have been observed (in any chunks of positive length), it has
forwarded a single zero byte in their place, is back in the Idle phase with
bytesSeen 0 and no current file, and has sent no Completed-Transfer Event for
the suppressed file. -/
theorem runReads_oversized_upload (M S : Nat) (fr : Frame) (mode size name junk : Str)
    (calls : List (Str × Nat))
    (hphase : fr.phase = 0) (hcurr : fr.currsize = 0) (hmode : mode.length = 4)
    (hdec : isDecimal size) (hval : decimalValue size = S) (hS : S < 2 ^ 64)
    (hM : 0 < M) (hMS : M < S)
    (hcalls : ∀ c ∈ calls, 0 < c.2 ∧ c.2 ≤ c.1.length)
    (hsum : (calls.map Prod.snd).sum = S + 1) :
    runReads M fr
        ((fileHeader mode size name ++ junk, (fileHeader mode size name).length) :: calls) =
      some ⟨{ fr with filesize := S, currsize := 0, filename := [], phase := 0 },
        fileHeader mode "0".toList name ++ [Char.ofNat 0], []⟩ := by
  subst hval
  have hread := Read_fileHeader M fr mode size name junk hphase hmode hdec hS
  rw [if_pos ⟨by omega, hMS⟩] at hread
  have hfwd : (copy (fileHeader mode size name ++ junk) (fileHeader mode ['0'] name)).take
      (fileHeader mode ['0'] name).length = fileHeader mode ['0'] name := by
    apply copy_take
    have hpos : 0 < size.length := List.length_pos.mpr hdec.1
    simp only [fileHeader, List.cons_append, List.length_cons, List.length_append,
      List.length_singleton, List.length_nil]
    omega
  have hrun := runReads_suppressing M calls
    { fr with filename := name, filesize := decimalValue size, phase := 2 } rfl hS
    (by simp only [hcurr]; exact Nat.zero_le _) hcalls (by simp only [hcurr]; omega)
  simp only [runReads, hread, Option.some_bind, hrun, hfwd, List.append_nil]
  rfl

/-- Witness for C10 (amended): a header declaring 12 bytes against the limit
10, followed by the 13 payload bytes in chunks of 5 and 8 bytes. -/
theorem runReads_oversized_upload_witness :
    runReads 10 newFrame
        ((fileHeader "0644".toList "12".toList "big.bin".toList ++ "stale".toList,
          (fileHeader "0644".toList "12".toList "big.bin".toList).length) ::
         [("hello".toList, 5), ("world!!\x00".toList, 8)]) =
      some ⟨{ newFrame with filesize := 12, currsize := 0, filename := [], phase := 0 },
        fileHeader "0644".toList "0".toList "big.bin".toList ++ [Char.ofNat 0], []⟩ :=
  runReads_oversized_upload 10 12 newFrame "0644".toList "12".toList
    "big.bin".toList "stale".toList _ rfl rfl rfl ⟨by decide, by decide⟩ (by decide)
    (by norm_num) (by decide) (by decide) (by decide) (by decide)

/-! ## The payload phases of the upload interceptor -/

/-- A payload chunk that does not complete the file: it is counted, and it is
forwarded in phase 1 and withheld in phase 2. -/
theorem Read_payload_partial (maxSize : Nat) (fr : Frame) (p : Str) (n : Nat)
    (hph : fr.phase ≠ 0) (hn : 0 < n) (hnp : n ≤ p.length) (hS : fr.filesize < 2 ^ 64)
    (hlt : fr.currsize + n < fr.filesize + 1) :
    Read maxSize fr p n =
      some ⟨{ fr with currsize := fr.currsize + n }, p, if fr.phase = 2 then 0 else n, []⟩ := by
  have hmod : (fr.currsize + n) % 2 ^ 64 = fr.currsize + n := Nat.mod_eq_of_lt (by omega)
  have hne : ¬ fr.currsize + n = (fr.filesize + 1) % 2 ^ 64 := by
    by_cases hb : fr.filesize + 1 < 2 ^ 64
    · rw [Nat.mod_eq_of_lt hb]; omega
    · have hb2 : fr.filesize + 1 = 2 ^ 64 := by omega
      rw [hb2, Nat.mod_self]; omega
  unfold Read
  rw [if_neg (by omega), if_neg (by omega), if_neg hph]
  simp only [hmod, if_neg hne]
  split_ifs <;> rfl

/-- The payload chunk that completes the file. -/
theorem Read_payload_complete (maxSize : Nat) (fr : Frame) (p : Str) (n : Nat)
    (hph : fr.phase ≠ 0) (hn : 0 < n) (hnp : n ≤ p.length)
    (heq : fr.currsize + n = fr.filesize + 1) :
    Read maxSize fr p n =
      if fr.phase = 1 then
        some ⟨{ fr with currsize := 0, filename := [], phase := 0 }, p, n,
          [fr.dirname ++ '/' :: fr.filename]⟩
      else if fr.phase = 2 then
        some ⟨{ fr with currsize := 0, filename := [], phase := 0 },
          p.set 0 (Char.ofNat 0), 1, []⟩
      else none := by
  unfold Read
  rw [if_neg (by omega), if_neg (by omega), if_neg hph]
  simp only [heq, if_true]

/-- The partial sums of the chunk lengths of a run. -/
theorem partial_sum_cons (c : Str × Nat) (rest : List (Str × Nat)) (i : Nat) :
    (((c :: rest).take (i + 1)).map Prod.snd).sum
      = c.2 + ((rest.take i).map Prod.snd).sum := by
  simp

/-- A run through a payload phase (1 or 2), chunk by chunk: every chunk
before the completing one is counted and leaves the rest of the frame alone;
the completing chunk gives the result of `Read_payload_complete`. -/
theorem readTrace_payload (maxSize : Nat) (calls : List (Str × Nat)) (fr : Frame)
    (hph : fr.phase ≠ 0) (hS : fr.filesize < 2 ^ 64) (hk : fr.currsize ≤ fr.filesize)
    (hcalls : ∀ c ∈ calls, 0 < c.2 ∧ c.2 ≤ c.1.length)
    (hsum : fr.currsize + (calls.map Prod.snd).sum = fr.filesize + 1) :
    ∃ rs c, calls.getLast? = some c ∧ rs.length + 1 = calls.length ∧
      readTrace maxSize fr calls =
        (Read maxSize { fr with currsize := fr.filesize + 1 - c.2 } c.1 c.2).map
          (fun last => rs ++ [last]) ∧
      ∀ (i : Nat) (r : ReadResult), rs[i]? = some r → ∃ ci, calls[i]? = some ci ∧
        r = (⟨{ fr with currsize := fr.currsize + ((calls.take (i + 1)).map Prod.snd).sum },
              ci.1, if fr.phase = 2 then 0 else ci.2, []⟩ : ReadResult) := by
  induction calls generalizing fr with
  | nil =>
    simp only [List.map_nil, List.sum_nil] at hsum
    omega
  | cons c rest ih =>
    obtain ⟨p, n⟩ := c
    have hn := hcalls (p, n) (List.mem_cons_self _ _)
    have hrest : ∀ c ∈ rest, 0 < c.2 ∧ c.2 ≤ c.1.length :=
      fun c hc => hcalls c (List.mem_cons_of_mem _ hc)
    simp only [List.map_cons, List.sum_cons] at hsum
    simp only at hn
    by_cases hfin : fr.currsize + n = fr.filesize + 1
    · have hrest0 : rest = [] := by
        by_contra hne
        have := sum_pos_of_forall_pos rest hrest hne
        omega
      subst hrest0
      refine ⟨[], (p, n), rfl, rfl, ?_, ?_⟩
      · have hfr : ({ fr with currsize := fr.filesize + 1 - n } : Frame) = fr := by
          have : fr.filesize + 1 - n = fr.currsize := by omega
          rw [this]
        simp only [hfr, readTrace]
        cases Read maxSize fr p n <;> rfl
      · intro i r hr
        simp at hr
    · have hlt : fr.currsize + n < fr.filesize + 1 := by omega
      have hread := Read_payload_partial maxSize fr p n hph hn.1 hn.2 hS hlt
      obtain ⟨rs, c, hlast, hlen, htrace, hidx⟩ :=
        ih { fr with currsize := fr.currsize + n } hph hS (by simp only; omega) hrest
          (by simp only; omega)
      have hne : rest ≠ [] := by
        intro h0; rw [h0] at hlast; simp at hlast
      refine ⟨⟨{ fr with currsize := fr.currsize + n }, p, if fr.phase = 2 then 0 else n, []⟩
        :: rs, c, ?_, ?_, ?_, ?_⟩
      · cases rest with
        | nil => exact absurd rfl hne
        | cons b t => rw [List.getLast?_cons_cons, hlast]
      · simp only [List.length_cons]; omega
      · simp only [readTrace, hread, Option.some_bind, htrace]
        cases Read maxSize { fr with currsize := fr.filesize + 1 - c.2 } c.1 c.2 <;> rfl
      · intro i r hr
        cases i with
        | zero =>
          simp only [List.getElem?_cons_zero, Option.some.injEq] at hr
          refine ⟨(p, n), by simp, ?_⟩
          rw [← hr]
          simp
        | succ j =>
          simp only [List.getElem?_cons_succ] at hr
          obtain ⟨ci, hci, hrj⟩ := hidx j r hr
          refine ⟨ci, by simpa using hci, ?_⟩
          rw [hrj, partial_sum_cons]
          simp only [Nat.add_assoc]

theorem last_call_bounds (calls : List (Str × Nat)) (c : Str × Nat) (k S : Nat)
    (hcalls : ∀ c ∈ calls, 0 < c.2 ∧ c.2 ≤ c.1.length)
    (hsum : k + (calls.map Prod.snd).sum = S + 1) (hlast : calls.getLast? = some c) :
    0 < c.2 ∧ c.2 ≤ c.1.length ∧ (S + 1 - c.2) + c.2 = S + 1 := by
  have hmem := List.mem_of_getLast?_eq_some hlast
  have hle : c.2 ≤ (calls.map Prod.snd).sum :=
    List.le_sum_of_mem (List.mem_map_of_mem Prod.snd hmem)
  have := hcalls c hmem
  omega

/-! ## C11 -/

/-- C11: while Suppressing (phase 2) a file of declared size S, for every
split of the payload bytes still due (S + 1 from a fresh count) into non-empty
chunks, every call before the completing one returns the count 0 (nothing is
forwarded) while bytesSeen grows by the chunk length toward the unmodified S;
the completing call forwards exactly one byte of value 0x00, sends nothing on
the file channel, and leaves the frame in phase 0 (Idle) with bytesSeen 0 and
an empty current file. -/
theorem readTrace_suppressing (maxSize : Nat) (calls : List (Str × Nat)) (fr : Frame)
    (hphase : fr.phase = 2) (hS : fr.filesize < 2 ^ 64) (hk : fr.currsize ≤ fr.filesize)
    (hcalls : ∀ c ∈ calls, 0 < c.2 ∧ c.2 ≤ c.1.length)
    (hsum : fr.currsize + (calls.map Prod.snd).sum = fr.filesize + 1) :
    ∃ rs last, readTrace maxSize fr calls = some (rs ++ [last]) ∧
      rs.length + 1 = calls.length ∧
      (∀ (i : Nat) (r : ReadResult), rs[i]? = some r →
        r.n = 0 ∧ r.p.take r.n = [] ∧ r.files = [] ∧
        r.frame.phase = 2 ∧ r.frame.filesize = fr.filesize ∧
        r.frame.currsize = fr.currsize + ((calls.take (i + 1)).map Prod.snd).sum) ∧
      last.n = 1 ∧ last.p.take last.n = [Char.ofNat 0] ∧ last.files = [] ∧
      last.frame.phase = 0 ∧ last.frame.currsize = 0 ∧ last.frame.filename = [] ∧
      last.frame.dirname = fr.dirname := by
  have hph : fr.phase ≠ 0 := by omega
  obtain ⟨rs, c, hlast, hlen, htrace, hidx⟩ :=
    readTrace_payload maxSize calls fr hph hS hk hcalls hsum
  obtain ⟨hc1, hc2, hc3⟩ := last_call_bounds calls c _ _ hcalls hsum hlast
  have hcomp := Read_payload_complete maxSize { fr with currsize := fr.filesize + 1 - c.2 }
    c.1 c.2 hph hc1 hc2 hc3
  rw [if_neg (by simp only [hphase]; decide), if_pos hphase] at hcomp
  rw [hcomp] at htrace
  refine ⟨rs, _, htrace, hlen, ?_, rfl, ?_, rfl, rfl, rfl, rfl, rfl⟩
  · intro i r hr
    obtain ⟨ci, -, hri⟩ := hidx i r hr
    subst hri
    simp [hphase]
  · have hne : c.1 ≠ [] := by
      intro h0
      rw [h0] at hc2
      simp at hc2
      omega
    cases hp : c.1 with
    | nil => exact absurd hp hne
    | cons a t => simp

/-- Witness for C11: a suppressed file of declared size 4 whose 5 payload
bytes arrive in chunks of 2, 2 and 1 bytes. -/
theorem readTrace_suppressing_witness :
    ∃ rs last, readTrace 3 ⟨2, [], "f".toList, 4, 0⟩
        [("ab".toList, 2), ("cd".toList, 2), ("\x00".toList, 1)] = some (rs ++ [last]) ∧
      rs.length + 1 = 3 ∧
      (∀ (i : Nat) (r : ReadResult), rs[i]? = some r →
        r.n = 0 ∧ r.p.take r.n = [] ∧ r.files = [] ∧
        r.frame.phase = 2 ∧ r.frame.filesize = 4 ∧
        r.frame.currsize = 0 + (([("ab".toList, 2), ("cd".toList, 2),
          ("\x00".toList, 1)].take (i + 1)).map Prod.snd).sum) ∧
      last.n = 1 ∧ last.p.take last.n = [Char.ofNat 0] ∧ last.files = [] ∧
      last.frame.phase = 0 ∧ last.frame.currsize = 0 ∧ last.frame.filename = [] ∧
      last.frame.dirname = [] :=
  readTrace_suppressing 3 [("ab".toList, 2), ("cd".toList, 2), ("\x00".toList, 1)]
    ⟨2, [], "f".toList, 4, 0⟩ rfl (by norm_num) (by decide) (by decide) (by decide)

/-! ## C12 -/

/-- C12: in the InData phase (phase 1) with expected size S, for every split
of the payload bytes still due (S + 1 from a fresh count: data plus
terminator) into non-empty chunks, every call forwards its chunk unchanged;
the calls before the last send nothing on the file channel and only advance
bytesSeen; the call at which bytesSeen reaches S + 1 sends exactly one path,
the current directory joined with the current file by "/", resets bytesSeen to
0 and the current file to empty, and returns to phase 0 (Idle). -/
theorem readTrace_inData (maxSize : Nat) (calls : List (Str × Nat)) (fr : Frame)
    (hphase : fr.phase = 1) (hS : fr.filesize < 2 ^ 64) (hk : fr.currsize ≤ fr.filesize)
    (hcalls : ∀ c ∈ calls, 0 < c.2 ∧ c.2 ≤ c.1.length)
    (hsum : fr.currsize + (calls.map Prod.snd).sum = fr.filesize + 1) :
    ∃ rs last c, readTrace maxSize fr calls = some (rs ++ [last]) ∧
      rs.length + 1 = calls.length ∧ calls.getLast? = some c ∧
      (∀ (i : Nat) (r : ReadResult), rs[i]? = some r → ∃ ci, calls[i]? = some ci ∧
        r.p = ci.1 ∧ r.n = ci.2 ∧ r.files = [] ∧
        r.frame.phase = 1 ∧ r.frame.filesize = fr.filesize ∧
        r.frame.filename = fr.filename ∧ r.frame.dirname = fr.dirname ∧
        r.frame.currsize = fr.currsize + ((calls.take (i + 1)).map Prod.snd).sum) ∧
      last.p = c.1 ∧ last.n = c.2 ∧
      last.files = [fr.dirname ++ "/".toList ++ fr.filename] ∧
      last.frame.phase = 0 ∧ last.frame.currsize = 0 ∧ last.frame.filename = [] ∧
      last.frame.dirname = fr.dirname := by
  have hph : fr.phase ≠ 0 := by omega
  obtain ⟨rs, c, hlast, hlen, htrace, hidx⟩ :=
    readTrace_payload maxSize calls fr hph hS hk hcalls hsum
  obtain ⟨hc1, hc2, hc3⟩ := last_call_bounds calls c _ _ hcalls hsum hlast
  have hcomp := Read_payload_complete maxSize { fr with currsize := fr.filesize + 1 - c.2 }
    c.1 c.2 hph hc1 hc2 hc3
  rw [if_pos hphase] at hcomp
  rw [hcomp] at htrace
  refine ⟨rs, _, c, htrace, hlen, hlast, ?_, rfl, rfl, ?_, rfl, rfl, rfl, rfl⟩
  · intro i r hr
    obtain ⟨ci, hci, hri⟩ := hidx i r hr
    subst hri
    refine ⟨ci, hci, ?_⟩
    simp [hphase]
  · simp

/-- Witness for C12: a file "f" of size 4 in directory "sub" whose 5 payload
bytes arrive in chunks of 3 and 2 bytes. -/
theorem readTrace_inData_witness :
    ∃ rs last c, readTrace 0 ⟨1, "sub".toList, "f".toList, 4, 0⟩
        [("abc".toList, 3), ("d\x00".toList, 2)] = some (rs ++ [last]) ∧
      rs.length + 1 = 2 ∧
      [("abc".toList, 3), ("d\x00".toList, 2)].getLast? = some c ∧
      (∀ (i : Nat) (r : ReadResult), rs[i]? = some r →
        ∃ ci, [("abc".toList, 3), ("d\x00".toList, 2)][i]? = some ci ∧
        r.p = ci.1 ∧ r.n = ci.2 ∧ r.files = [] ∧
        r.frame.phase = 1 ∧ r.frame.filesize = 4 ∧
        r.frame.filename = "f".toList ∧ r.frame.dirname = "sub".toList ∧
        r.frame.currsize = 0 + (([("abc".toList, 3), ("d\x00".toList, 2)].take
          (i + 1)).map Prod.snd).sum) ∧
      last.p = c.1 ∧ last.n = c.2 ∧
      last.files = ["sub".toList ++ "/".toList ++ "f".toList] ∧
      last.frame.phase = 0 ∧ last.frame.currsize = 0 ∧ last.frame.filename = [] ∧
      last.frame.dirname = "sub".toList :=
  readTrace_inData 0 [("abc".toList, 3), ("d\x00".toList, 2)]
    ⟨1, "sub".toList, "f".toList, 4, 0⟩ rfl (by norm_num) (by decide) (by decide) (by decide)

/-! ## C13 -/

/-- The download interceptor leaves the chunk and the count alone: whatever
the frame, a `Write` call that returns hands back the chunk it was given and
the count of the underlying writer. -/
theorem Write_forwards_unchanged (fr : Frame) (p : Str) (n : Nat) (r : ReadResult)
    (h : Write fr p n = some r) : r.p = p ∧ r.n = n := by
  unfold Write at h
  simp only at h
  split_ifs at h
  all_goals try (simp only [Option.some.injEq] at h; subst h; exact ⟨rfl, rfl⟩)
  split at h
  · exact absurd h (by simp)
  · split_ifs at h
    · simp only [Option.some.injEq] at h; subst h; exact ⟨rfl, rfl⟩
    · simp only [Option.bind_eq_some] at h
      obtain ⟨_, _, _, _, h⟩ := h
      simp only [Option.some.injEq] at h; subst h; exact ⟨rfl, rfl⟩
    · simp only [Option.bind_eq_some] at h
      obtain ⟨_, _, _, _, _, _, h⟩ := h
      simp only [Option.some.injEq] at h; subst h; exact ⟨rfl, rfl⟩
    · simp only [Option.bind_eq_some] at h
      obtain ⟨_, _, h⟩ := h
      simp only [Option.some.injEq] at h; subst h; exact ⟨rfl, rfl⟩

/-- C13 (the code at the failing input): a download of the two-byte file "a",
written by the subprocess as the header chunk and one chunk holding the data
and the terminator. `Write` forwards both chunks unchanged, and on the second
one sends the path "/a" on the file channel; `handleExec` collects it among
the uploaded files and runs the configured command on it. -/
theorem Write_reports_downloaded_file :
    writeTrace newFrame [("C0644 2 a\n".toList, 10), ("xy\x00".toList, 3)]
      = some [⟨⟨1, [], "a".toList, 2, 0⟩, "C0644 2 a\n".toList, 10, []⟩,
              ⟨⟨0, [], [], 2, 0⟩, "xy\x00".toList, 3, ["/a".toList]⟩] ∧
    hookCommands ["/usr/bin/scan".toList] "/srv/shared/".toList ["/a".toList]
      = [["/usr/bin/scan".toList, "/srv/shared//a".toList]] := by
  decide

/-! ## C14 -/

/-- Outside the one case of a single zero byte arriving in phase 1, the
upload interceptor without a size limit and the download interceptor take the
same step from every frame in phase 0 or 1. -/
theorem Read_zero_eq_Write (fr : Frame) (p : Str) (n : Nat)
    (hph : fr.phase = 0 ∨ fr.phase = 1)
    (hz : ¬ (fr.phase = 1 ∧ n = 1 ∧ p.head? = some (Char.ofNat 0))) :
    Read 0 fr p n = Write fr p n := by
  by_cases a : n > p.length
  · unfold Read Write
    simp only [if_pos a]
  rcases hph with h0 | h1
  · by_cases b : n = 0 ∨ (n = 1 ∧ p.head? = some (Char.ofNat 0))
    · have bR : n = 0 ∨ (fr.phase = 0 ∧ n = 1 ∧ p.head? = some (Char.ofNat 0)) := by tauto
      unfold Read Write
      simp only [if_neg a, if_pos bR, if_pos b]
    · have bR : ¬ (n = 0 ∨ (fr.phase = 0 ∧ n = 1 ∧ p.head? = some (Char.ofNat 0))) := by
        tauto
      unfold Read Write
      simp only [if_neg a, if_neg bR, if_neg b, if_pos h0]
      cases p.head? with
      | none => rfl
      | some c => simp only [ne_eq, not_true_eq_false, false_and, if_false]
  · have hne : ¬ fr.phase = 0 := by omega
    have h2 : ¬ fr.phase = 2 := by omega
    by_cases b : n = 0
    · unfold Read Write
      simp only [if_neg a, b, true_or, if_true]
    · have bR : ¬ (n = 0 ∨ (fr.phase = 0 ∧ n = 1 ∧ p.head? = some (Char.ofNat 0))) := by
        tauto
      have bW : ¬ (n = 0 ∨ (n = 1 ∧ p.head? = some (Char.ofNat 0))) := by tauto
      unfold Read Write
      simp only [if_neg a, if_neg bR, if_neg bW, if_neg hne, if_pos h1, if_neg h2]

/-- C14 (the code at the failing input): the transfer of an empty file "a",
whose terminator byte arrives as a chunk of its own. The upload interceptor
without a size limit counts the terminator and returns to phase 0; the
download interceptor skips every one-byte zero chunk, in phase 1 as well, and
stays in phase 1 with bytesSeen 0. -/
theorem Read_Write_diverge_on_terminator :
    (readTrace 0 newFrame [("C0644 0 a\n".toList, 10), ("\x00".toList, 1)]).map
        (List.map ReadResult.frame)
      = some [⟨1, [], "a".toList, 0, 0⟩, ⟨0, [], [], 0, 0⟩] ∧
    (writeTrace newFrame [("C0644 0 a\n".toList, 10), ("\x00".toList, 1)]).map
        (List.map ReadResult.frame)
      = some [⟨1, [], "a".toList, 0, 0⟩, ⟨1, [], "a".toList, 0, 0⟩] := by
  decide

/-! ## C15 -/

/-- C15, as stated, fails: in a fresh frame (empty directory) the header
"E\n" changes the directory from the empty string to ".", in the upload and in
the download interceptor, and a file "a" completed afterwards is reported as
"./a" where it is reported as "/a" without the header. -/
theorem leave_directory_at_root_changes_frame :
    Read 0 newFrame "E\n".toList 2
      = some ⟨⟨0, ".".toList, [], 0, 0⟩, "E\n".toList, 2, []⟩ ∧
    Write newFrame "E\n".toList 2
      = some ⟨⟨0, ".".toList, [], 0, 0⟩, "E\n".toList, 2, []⟩ ∧
    (⟨0, ".".toList, [], 0, 0⟩ : Frame) ≠ newFrame ∧
    (runReads 0 newFrame
        [("E\n".toList, 2), ("C0644 1 a\n".toList, 10), ("x\x00".toList, 2)]).map
        RunResult.files = some ["./a".toList] ∧
    (runReads 0 newFrame [("C0644 1 a\n".toList, 10), ("x\x00".toList, 2)]).map
        RunResult.files = some ["/a".toList] := by
  decide

/-- C15 (amended): a leave-subdirectory header received in the Idle phase
while the directory is empty sets the directory to "." (Go's path.Dir of the
empty path) and leaves phase, current file, expected size and bytes seen
unchanged, in the upload and in the download interceptor alike; received
while the directory is ".", it leaves the whole frame unchanged. A file
completed while the directory is "." is reported as "./<name>". -/
theorem leave_directory_at_root (maxSize : Nat) (fr : Frame) (p : Str) (n : Nat)
    (hphase : fr.phase = 0) (hdir : fr.dirname = [] ∨ fr.dirname = ".".toList)
    (hp : p.head? = some 'E') (hn : 0 < n) (hnp : n ≤ p.length) :
    Read maxSize fr p n = some ⟨{ fr with dirname := ".".toList }, p, n, []⟩ ∧
    Write fr p n = some ⟨{ fr with dirname := ".".toList }, p, n, []⟩ ∧
    (fr.dirname = ".".toList → ({ fr with dirname := ".".toList } : Frame) = fr) ∧
    (∀ (g : Frame) (q : Str) (m : Nat), g.phase = 1 → g.dirname = ".".toList →
      0 < m → m ≤ q.length → g.currsize + m = g.filesize + 1 →
      (Read maxSize g q m).map ReadResult.files = some ["./".toList ++ g.filename]) := by
  have hD : Dir fr.dirname = ['.'] := by
    rcases hdir with h | h <;> rw [h] <;> decide
  have hz : ¬ p.head? = some (Char.ofNat 0) := by
    rw [hp]; decide
  have c1 : ¬ (n = 0 ∨ (fr.phase = 0 ∧ n = 1 ∧ p.head? = some (Char.ofNat 0))) := by
    intro h
    rcases h with h | ⟨-, -, h⟩
    · omega
    · exact hz h
  have c2 : ¬ (n = 0 ∨ (n = 1 ∧ p.head? = some (Char.ofNat 0))) := by
    intro h
    rcases h with h | ⟨-, h⟩
    · omega
    · exact hz h
  refine ⟨?_, ?_, ?_, ?_⟩
  · unfold Read
    simp only [if_neg (not_lt.mpr hnp), if_neg c1, if_pos hphase]
    simp only [hp, if_true, hD]
    rfl
  · unfold Write
    simp only [if_neg (not_lt.mpr hnp), if_neg c2, if_pos hphase]
    simp only [hp, if_true, hD]
    rfl
  · intro h
    cases fr
    simp only at h
    subst h
    rfl
  · intro g q m hg hgd hm hmq heq
    rw [Read_payload_complete maxSize g q m (by omega) hm hmq heq, if_pos hg, hgd]
    rfl

/-- Witness for C15 (amended): the header "E\n" in a fresh frame. -/
theorem leave_directory_at_root_witness :
    Read 1000 newFrame "E\n".toList 2
      = some ⟨{ newFrame with dirname := ".".toList }, "E\n".toList, 2, []⟩ ∧
    Write newFrame "E\n".toList 2
      = some ⟨{ newFrame with dirname := ".".toList }, "E\n".toList, 2, []⟩ :=
  ⟨(leave_directory_at_root 1000 newFrame "E\n".toList 2 rfl (Or.inl rfl) (by decide)
      (by decide) (by decide)).1,
   (leave_directory_at_root 1000 newFrame "E\n".toList 2 rfl (Or.inl rfl) (by decide)
      (by decide) (by decide)).2.1⟩

/-! ## Facts about `splitN` -/

theorem splitN_cons (c : Char) (cs : Str) (sep : Char) (n : Nat) :
    splitN (c :: cs) sep (n + 2) =
      if c = sep then [] :: splitN cs sep (n + 1)
      else
        match splitN cs sep (n + 2) with
        | [] => [[c]]
        | h :: t => (c :: h) :: t := by
  rw [splitN]

theorem splitN_of_not_mem (a : Str) (sep : Char) (n : Nat) (h : sep ∉ a) :
    splitN a sep (n + 1) = [a] := by
  cases n with
  | zero => cases a <;> rfl
  | succ m =>
    induction a with
    | nil => rfl
    | cons c t ih =>
      have hc : ¬ c = sep := fun e => h (e ▸ List.mem_cons_self _ _)
      have ht : sep ∉ t := fun e => h (List.mem_cons_of_mem _ e)
      rw [splitN_cons, if_neg hc, ih ht]

theorem splitN_append_sep (a r : Str) (sep : Char) (n : Nat) (h : sep ∉ a) :
    splitN (a ++ sep :: r) sep (n + 2) = a :: splitN r sep (n + 1) := by
  induction a with
  | nil =>
    show splitN (sep :: r) sep (n + 2) = _
    rw [splitN_cons, if_pos rfl]
  | cons c t ih =>
    have hc : ¬ c = sep := fun e => h (e ▸ List.mem_cons_self _ _)
    have ht : sep ∉ t := fun e => h (List.mem_cons_of_mem _ e)
    show splitN (c :: (t ++ sep :: r)) sep (n + 2) = _
    rw [splitN_cons, if_neg hc, ih ht]

theorem passwordChars_no_dollar (i : Nat) : passwordChars.getD i 'A' ≠ '$' := by
  by_cases hi : i < 61
  · have hall : ∀ j, j < 61 → passwordChars.getD j 'A' ≠ '$' := by decide
    exact hall i hi
  · have hlen : passwordChars.length ≤ i := by
      have : passwordChars.length = 61 := by decide
      omega
    rw [List.getD_eq_default _ _ hlen]
    decide

theorem randPass_no_dollar (draws : List Nat) : '$' ∉ randPass draws := by
  intro h
  obtain ⟨i, -, hi⟩ := List.mem_map.mp h
  exact passwordChars_no_dollar i hi

/-- A scheme 6 hash field whose salt has no '$' validates exactly the
passwords whose salted digest is the stored digest. -/
theorem validatePass_scheme6_eq (Sum512 : Str → Str) (pw salt digest : Str)
    (hs : '$' ∉ salt) :
    validatePass Sum512 pw (['$', '6', '$'] ++ salt ++ ['$'] ++ digest)
      = some (decide (EncodeToString (Sum512 (salt ++ pw)) = digest)) := by
  have e : ['$', '6', '$'] ++ salt ++ ['$'] ++ digest
      = '$' :: (['6'] ++ '$' :: (salt ++ '$' :: digest)) := by simp
  have h6 : '$' ∉ ['6'] := by decide
  rw [e]
  unfold validatePass
  simp only [ne_eq, not_true_eq_false, if_false]
  rw [splitN_append_sep ['6'] _ '$' 1 h6, splitN_append_sep salt _ '$' 0 hs]
  have h1 : splitN digest '$' 1 = [digest] := by cases digest <;> rfl
  rw [h1]
  rfl

/-! ## C16 -/

/-- C16: with SHA-512 uninterpreted, for every password pw and every salt
without '$', validatePass accepts pw against "$6$" ++ salt ++ "$" ++
lowercaseHex(SHA512(salt ++ pw)); in particular it accepts pw against
saltNHash(pw) for every salt saltNHash can draw. -/
theorem validatePass_scheme6 (Sum512 : Str → Str) (pw salt : Str) (hs : '$' ∉ salt) :
    validatePass Sum512 pw
        ("$6$".toList ++ salt ++ "$".toList ++ EncodeToString (Sum512 (salt ++ pw)))
      = some true ∧
    ∀ draws, validatePass Sum512 pw (saltNHash Sum512 draws pw) = some true := by
  constructor
  · have := validatePass_scheme6_eq Sum512 pw salt (EncodeToString (Sum512 (salt ++ pw))) hs
    simpa using this
  · intro draws
    have := validatePass_scheme6_eq Sum512 pw (randPass draws)
      (EncodeToString (Sum512 (randPass draws ++ pw))) (randPass_no_dollar draws)
    simpa [saltNHash] using this

/-- Witness for C16: the salt "mysalt" of the repository's test, with a
stand-in hash function. -/
theorem validatePass_scheme6_witness :
    validatePass (fun x => x.reverse) "myPassword123!".toList
        ("$6$".toList ++ "mysalt".toList ++ "$".toList ++
          EncodeToString ((fun x => x.reverse) ("mysalt".toList ++ "myPassword123!".toList)))
      = some true :=
  (validatePass_scheme6 (fun x => x.reverse) "myPassword123!".toList "mysalt".toList
    (by decide)).1

/-! ## C17 -/

/-- For a stored plaintext without '$', scheme 0 is the byte-exact compare. -/
theorem validatePass_scheme0_eq (Sum512 : Str → Str) (pw s : Str) (hs : '$' ∉ s) :
    validatePass Sum512 pw (['$', '0', '$'] ++ s) = some (decide (pw = s)) := by
  have e : ['$', '0', '$'] ++ s = '$' :: (['0'] ++ '$' :: s) := by simp
  have h0 : '$' ∉ ['0'] := by decide
  rw [e]
  unfold validatePass
  simp only [ne_eq, not_true_eq_false, if_false]
  rw [splitN_append_sep ['0'] _ '$' 1 h0, splitN_of_not_mem s '$' 1 hs]
  by_cases hp : pw = s
  · simp [hp]
  · simp [hp]

/-- C17 (the code at the failing input): the user "u" with the plaintext
password "pa$$word" is written by PasswdString as the line
"u:$0$pa$$word:rw:/:0::p"; validatePass cuts the stored plaintext at its first
'$', so it rejects the stored password "pa$$word" and accepts "pa", and so
does validateUser on that line. -/
theorem validatePass_plaintext_cut_at_dollar (Sum512 : Str → Str) (draws : List Nat) :
    UserInfo.PasswdString Sum512 draws
        ⟨"u".toList, "pa$$word".toList, "rw".toList, "/".toList, [], 0, true, true⟩
      = "u:$0$pa$$word:rw:/:0::p\n".toList ∧
    validatePass Sum512 "pa$$word".toList "$0$pa$$word".toList = some false ∧
    validatePass Sum512 "pa".toList "$0$pa$$word".toList = some true ∧
    validateUser Sum512 ["u:$0$pa$$word:rw:/:0::p".toList] "u".toList "pa$$word".toList
      = some ⟨none, ["u:$0$pa$$word:rw:/:0::p".toList]⟩ ∧
    (validateUser Sum512 ["u:$0$pa$$word:rw:/:0::p".toList] "u".toList "pa".toList).map
        (fun r => r.perm.isSome) = some true :=
  ⟨rfl, rfl, rfl, rfl, rfl⟩

/-! ## Facts about the scan loop of `validateUser` -/

/-- Lines that are skipped are copied to the output and the scan goes on. -/
theorem validateUserLoop_skip (Sum512 : Str → Str) (user pass : Str) (store : List Str)
    (pre rest out : List Str)
    (hpre : ∀ x ∈ pre, lineVerdict Sum512 user pass x = some false) :
    validateUserLoop Sum512 user pass store (pre ++ rest) out
      = validateUserLoop Sum512 user pass store rest (out ++ pre) := by
  induction pre generalizing out with
  | nil => simp
  | cons a t ih =>
    have ha := hpre a (List.mem_cons_self _ _)
    have ht := ih (out ++ [a]) (fun x hx => hpre x (List.mem_cons_of_mem _ hx))
    rw [List.cons_append, validateUserLoop, ha]
    simp only
    rw [ht, List.append_assoc, List.singleton_append]

/-- The scan on a matching line. -/
theorem validateUserLoop_match (Sum512 : Str → Str) (user pass : Str) (store : List Str)
    (l : Str) (post out : List Str) (hl : lineVerdict Sum512 user pass l = some true) :
    validateUserLoop Sum512 user pass store (l :: post) out =
      some ⟨some (linePermissions l),
        if (splitN l ':' 7).getD 6 [] ≠ ['p'] then out ++ post else store⟩ := by
  rw [validateUserLoop, hl]
  simp only
  split_ifs <;> rfl

/-- The scan when no line matches. -/
theorem validateUserLoop_none (Sum512 : Str → Str) (user pass : Str) (store : List Str)
    (lines out : List Str)
    (h : ∀ x ∈ lines, lineVerdict Sum512 user pass x = some false) :
    validateUserLoop Sum512 user pass store lines out = some ⟨none, store⟩ := by
  have := validateUserLoop_skip Sum512 user pass store lines [] out h
  rw [List.append_nil] at this
  rw [this, validateUserLoop]

/-- Every scan that returns either found no matching line, or stopped at the
first line whose verdict is a match. -/
theorem validateUserLoop_inv (Sum512 : Str → Str) (user pass : Str) (store : List Str)
    (lines out : List Str) (res : AuthResult)
    (h : validateUserLoop Sum512 user pass store lines out = some res) :
    (res = ⟨none, store⟩ ∧ ∀ x ∈ lines, lineVerdict Sum512 user pass x = some false) ∨
    ∃ pre l post, lines = pre ++ l :: post ∧
      (∀ x ∈ pre, lineVerdict Sum512 user pass x = some false) ∧
      lineVerdict Sum512 user pass l = some true ∧
      res = ⟨some (linePermissions l),
        if (splitN l ':' 7).getD 6 [] ≠ ['p'] then out ++ pre ++ post else store⟩ := by
  induction lines generalizing out with
  | nil =>
    rw [validateUserLoop] at h
    simp only [Option.some.injEq] at h
    exact Or.inl ⟨h.symm, by simp⟩
  | cons a t ih =>
    cases hv : lineVerdict Sum512 user pass a with
    | none =>
      rw [validateUserLoop, hv] at h
      simp at h
    | some b =>
      cases b with
      | false =>
        rw [validateUserLoop, hv] at h
        simp only at h
        rcases ih (out ++ [a]) h with ⟨hres, hall⟩ | ⟨pre, l, post, hlines, hpre, hl, hres⟩
        · refine Or.inl ⟨hres, ?_⟩
          intro x hx
          rcases List.mem_cons.mp hx with rfl | hx
          · exact hv
          · exact hall x hx
        · refine Or.inr ⟨a :: pre, l, post, by rw [hlines]; rfl, ?_, hl, ?_⟩
          · intro x hx
            rcases List.mem_cons.mp hx with rfl | hx
            · exact hv
            · exact hpre x hx
          · rw [hres]
            simp
      | true =>
        rw [validateUserLoop_match Sum512 user pass store a t out hv] at h
        simp only [Option.some.injEq] at h
        exact Or.inr ⟨[], a, t, rfl, by simp, hv, by rw [← h]; simp⟩

/-! ## Facts about the scanner and the record test -/

theorem splitN_headD_head? (l : Str) (sep ch : Char) (n : Nat) (h : ch ≠ sep) :
    ((splitN l sep (n + 1)).headD []).head? = some ch ↔ l.head? = some ch := by
  cases n with
  | zero => cases l <;> rfl
  | succ m =>
    cases l with
    | nil => rfl
    | cons c cs =>
      rw [splitN_cons]
      by_cases hc : c = sep
      · rw [if_pos hc]
        simp only [List.headD_cons, List.head?_nil, List.head?_cons, Option.some.injEq]
        exact ⟨fun e => absurd e (by simp), fun e => absurd (e.symm.trans hc) h⟩
      · rw [if_neg hc]
        cases splitN cs sep (m + 2) <;> rfl

theorem comment_iff (l : Str) :
    hasPrefix ((splitN l ':' 7).headD []) ['#'] = true ↔ l.head? = some '#' := by
  rw [hasPrefix_singleton]
  exact splitN_headD_head? l ':' '#' 6 (by decide)

theorem lineVerdict_eq_true_iff (Sum512 : Str → Str) (user pass l : Str) :
    lineVerdict Sum512 user pass l = some true ↔ recordMatches Sum512 user pass l := by
  unfold lineVerdict recordMatches
  simp only
  by_cases hc : hasPrefix ((splitN l ':' 7).headD []) ['#'] = true ∨ (splitN l ':' 7).length ≠ 7
  · rw [if_pos hc]
    constructor
    · intro h
      exact absurd h (by simp)
    · rintro ⟨h1, h2, -, -⟩
      rcases hc with hc | hc
      · exact absurd ((comment_iff l).mp hc) h1
      · exact absurd h2 hc
  · rw [if_neg hc]
    have h1 : l.head? ≠ some '#' := fun e => hc (Or.inl ((comment_iff l).mpr e))
    have h2 : (splitN l ':' 7).length = 7 := by
      by_contra e
      exact hc (Or.inr e)
    by_cases hu : user ≠ (splitN l ':' 7).headD []
    · rw [if_pos hu]
      constructor
      · intro h
        exact absurd h (by simp)
      · rintro ⟨-, -, h3, -⟩
        exact absurd h3.symm hu
    · rw [if_neg hu]
      exact ⟨fun h => ⟨h1, h2, (not_not.mp hu).symm, h⟩, fun h => h.2.2.2⟩

theorem lineVerdict_eq_false_iff (Sum512 : Str → Str) (user pass l : Str) :
    lineVerdict Sum512 user pass l = some false ↔ recordSkipped Sum512 user pass l := by
  unfold lineVerdict recordSkipped
  simp only
  by_cases hc : hasPrefix ((splitN l ':' 7).headD []) ['#'] = true ∨ (splitN l ':' 7).length ≠ 7
  · rw [if_pos hc]
    refine ⟨fun _ => ?_, fun _ => rfl⟩
    rcases hc with hc | hc
    · exact Or.inl ((comment_iff l).mp hc)
    · exact Or.inr (Or.inl hc)
  · rw [if_neg hc]
    have h1 : l.head? ≠ some '#' := fun e => hc (Or.inl ((comment_iff l).mpr e))
    have h2 : ¬ (splitN l ':' 7).length ≠ 7 := fun e => hc (Or.inr e)
    by_cases hu : user ≠ (splitN l ':' 7).headD []
    · rw [if_pos hu]
      exact ⟨fun _ => Or.inr (Or.inr (Or.inl (Ne.symm hu))), fun _ => rfl⟩
    · rw [if_neg hu]
      constructor
      · intro h
        exact Or.inr (Or.inr (Or.inr h))
      · rintro (h | h | h | h)
        · exact absurd h h1
        · exact absurd h h2
        · exact absurd (fun e => h e.symm) hu
        · exact h

theorem dropCR_cases (x : Str) : dropCR x = x ∨ ∃ a, x = a ++ ['\r'] ∧ dropCR x = a := by
  unfold dropCR
  by_cases h : x.getLast? = some '\r'
  · right
    exact ⟨x.dropLast, (List.dropLast_append_getLast? _ h).symm, by rw [if_pos h]⟩
  · left
    rw [if_neg h]

theorem dropCR_of_no_cr (x : Str) (h : x.getLast? ≠ some '\r') : dropCR x = x := by
  unfold dropCR
  rw [if_neg h]

theorem dropCR_length_le (x : Str) : (dropCR x).length ≤ x.length := by
  rcases dropCR_cases x with e | ⟨a, hx, e⟩
  · rw [e]
  · rw [e, hx]
    simp

theorem scanTokens_of_short (lines : List Str)
    (h : ∀ x ∈ lines, x.length < MaxScanTokenSize) :
    scanTokens lines = lines.map dropCR := by
  unfold scanTokens
  have e : lines.takeWhile (fun l => decide (l.length < MaxScanTokenSize)) = lines := by
    rw [List.takeWhile_eq_self_iff]
    intro x hx
    simpa using h x hx
  rw [e]

theorem scanTokens_verbatim (lines : List Str)
    (h : ∀ x ∈ lines, x.length < MaxScanTokenSize ∧ x.getLast? ≠ some '\r') :
    scanTokens lines = lines := by
  rw [scanTokens_of_short lines (fun x hx => (h x hx).1)]
  conv_rhs => rw [← List.map_id lines]
  exact List.map_congr_left (fun x hx => dropCR_of_no_cr x (h x hx).2)

theorem scanTokens_cons_short (x : Str) (rest : List Str)
    (h : x.length < MaxScanTokenSize) :
    scanTokens (x :: rest) = dropCR x :: scanTokens rest := by
  unfold scanTokens
  rw [List.takeWhile_cons]
  simp [h]

theorem scanTokens_cons_long (x : Str) (rest : List Str)
    (h : ¬ x.length < MaxScanTokenSize) :
    scanTokens (x :: rest) = [] := by
  unfold scanTokens
  rw [List.takeWhile_cons]
  simp [h]

theorem scanTokens_short (lines : List Str) :
    ∀ t ∈ scanTokens lines, t.length < MaxScanTokenSize := by
  intro t ht
  unfold scanTokens at ht
  obtain ⟨x, hx, rfl⟩ := List.mem_map.mp ht
  have hp := List.mem_takeWhile_imp hx
  have hlt : x.length < MaxScanTokenSize := by simpa using hp
  exact lt_of_le_of_lt (dropCR_length_le x) hlt

theorem splitN_snoc (a : Str) (sep c : Char) (n : Nat) (hc : c ≠ sep) :
    ∃ init last, splitN a sep (n + 1) = init ++ [last] ∧
      splitN (a ++ [c]) sep (n + 1) = init ++ [last ++ [c]] := by
  induction a generalizing n with
  | nil =>
    cases n with
    | zero => exact ⟨[], [], rfl, rfl⟩
    | succ m =>
      refine ⟨[], [], rfl, ?_⟩
      show splitN [c] sep (m + 2) = _
      rw [splitN_cons, if_neg hc]
      rfl
  | cons x xs ih =>
    cases n with
    | zero => exact ⟨[], x :: xs, rfl, rfl⟩
    | succ m =>
      rw [List.cons_append, splitN_cons, splitN_cons]
      by_cases hx : x = sep
      · rw [if_pos hx, if_pos hx]
        obtain ⟨i, l, e1, e2⟩ := ih m
        exact ⟨[] :: i, l, by rw [e1]; rfl, by rw [e2]; rfl⟩
      · rw [if_neg hx, if_neg hx]
        obtain ⟨i, l, e1, e2⟩ := ih (m + 1)
        rw [e1, e2]
        cases i with
        | nil => exact ⟨[], x :: l, rfl, rfl⟩
        | cons h t => exact ⟨(x :: h) :: t, l, rfl, rfl⟩

theorem headD_eq_getD (l : List Str) : l.headD [] = l.getD 0 [] := by
  cases l <;> rfl

theorem splitN_snoc_fields (a : Str) (c : Char) (hc : c ≠ ':') :
    (splitN (a ++ [c]) ':' 7).length = (splitN a ':' 7).length ∧
    ((splitN a ':' 7).length = 7 → ∀ i, i < 6 →
      (splitN (a ++ [c]) ':' 7).getD i [] = (splitN a ':' 7).getD i []) := by
  obtain ⟨init, last, e1, e2⟩ := splitN_snoc a ':' c 6 hc
  rw [e1, e2]
  refine ⟨by simp, ?_⟩
  intro h7 i hi
  have hlen : init.length = 6 := by simpa using h7
  rw [List.getD_append _ _ _ _ (by omega), List.getD_append _ _ _ _ (by omega)]

theorem record_fields_dropCR (x : Str) :
    (splitN (dropCR x) ':' 7).length = (splitN x ':' 7).length ∧
    ((splitN x ':' 7).length = 7 →
      (dropCR x).head? = x.head? ∧
      ∀ i, i < 6 → (splitN (dropCR x) ':' 7).getD i [] = (splitN x ':' 7).getD i []) := by
  rcases dropCR_cases x with e | ⟨a, hx, e⟩
  · rw [e]
    exact ⟨rfl, fun _ => ⟨rfl, fun _ _ => rfl⟩⟩
  · obtain ⟨hlen, hf⟩ := splitN_snoc_fields a '\r' (by decide)
    rw [e, hx]
    refine ⟨hlen.symm, ?_⟩
    intro h7
    have h7a : (splitN a ':' 7).length = 7 := by rw [← hlen]; exact h7
    have hne : a ≠ [] := by
      rintro rfl
      exact absurd h7a (by decide)
    refine ⟨?_, fun i hi => (hf h7a i hi).symm⟩
    cases a with
    | nil => exact absurd rfl hne
    | cons y ys => rfl

theorem recordSkipped_dropCR (Sum512 : Str → Str) (user pass x : Str) :
    recordSkipped Sum512 user pass (dropCR x) ↔ recordSkipped Sum512 user pass x := by
  obtain ⟨hlen, hf⟩ := record_fields_dropCR x
  by_cases h7 : (splitN x ':' 7).length = 7
  · obtain ⟨hh, hg⟩ := hf h7
    unfold recordSkipped
    rw [hh, hlen, headD_eq_getD, headD_eq_getD, hg 0 (by norm_num), hg 1 (by norm_num)]
  · exact ⟨fun _ => Or.inr (Or.inl h7), fun _ => Or.inr (Or.inl (by rw [hlen]; exact h7))⟩

theorem recordMatches_dropCR (Sum512 : Str → Str) (user pass x : Str) :
    recordMatches Sum512 user pass (dropCR x) ↔ recordMatches Sum512 user pass x := by
  obtain ⟨hlen, hf⟩ := record_fields_dropCR x
  by_cases h7 : (splitN x ':' 7).length = 7
  · obtain ⟨hh, hg⟩ := hf h7
    unfold recordMatches
    rw [hh, hlen, headD_eq_getD, headD_eq_getD, hg 0 (by norm_num), hg 1 (by norm_num)]
  · constructor
    · intro h
      exact absurd (hlen ▸ h.2.1) h7
    · intro h
      exact absurd h.2.1 h7

/-- The login on a file whose scan reaches a deciding line after lines that
are passed over. -/
theorem validateUser_of_scan (Sum512 : Str → Str) (store pre post : List Str)
    (l user pass : Str) (hscan : scanTokens store = pre ++ l :: post)
    (hpre : ∀ x ∈ pre, recordSkipped Sum512 user pass x)
    (hl : recordMatches Sum512 user pass l) :
    validateUser Sum512 store user pass
      = some ⟨some (linePermissions l),
          if (splitN l ':' 7).getD 6 [] ≠ ['p'] then pre ++ post else store⟩ := by
  unfold validateUser
  rw [hscan, validateUserLoop_skip Sum512 user pass _ pre (l :: post) []
      (fun x hx => (lineVerdict_eq_false_iff Sum512 user pass x).mpr (hpre x hx)),
    List.nil_append,
    validateUserLoop_match Sum512 user pass _ l post pre
      ((lineVerdict_eq_true_iff Sum512 user pass l).mpr hl)]

/-- The login on a file whose scan yields only lines that are passed over. -/
theorem validateUser_of_skipped (Sum512 : Str → Str) (store : List Str) (user pass : Str)
    (h : ∀ x ∈ scanTokens store, recordSkipped Sum512 user pass x) :
    validateUser Sum512 store user pass = some ⟨none, store⟩ :=
  validateUserLoop_none Sum512 user pass store (scanTokens store) []
    (fun x hx => (lineVerdict_eq_false_iff Sum512 user pass x).mpr (h x hx))

/-- Every login that returns either passed over every token of the scan, or
stopped at the first deciding token. -/
theorem validateUser_inv (Sum512 : Str → Str) (store : List Str) (user pass : Str)
    (res : AuthResult) (h : validateUser Sum512 store user pass = some res) :
    (res = ⟨none, store⟩ ∧ ∀ x ∈ scanTokens store, recordSkipped Sum512 user pass x) ∨
    ∃ pre l post, scanTokens store = pre ++ l :: post ∧
      (∀ x ∈ pre, recordSkipped Sum512 user pass x) ∧
      recordMatches Sum512 user pass l ∧
      res = ⟨some (linePermissions l),
        if (splitN l ':' 7).getD 6 [] ≠ ['p'] then pre ++ post else store⟩ := by
  unfold validateUser at h
  rcases validateUserLoop_inv Sum512 user pass store (scanTokens store) [] res h with
    ⟨hres, hall⟩ | ⟨pre, l, post, hlines, hpre, hl, hres⟩
  · exact Or.inl ⟨hres,
      fun x hx => (lineVerdict_eq_false_iff Sum512 user pass x).mp (hall x hx)⟩
  · refine Or.inr ⟨pre, l, post, hlines,
      fun x hx => (lineVerdict_eq_false_iff Sum512 user pass x).mp (hpre x hx),
      (lineVerdict_eq_true_iff Sum512 user pass l).mp hl, ?_⟩
    rw [hres, List.nil_append]

/-- The scan of a file that a login has rewritten: the tokens written, each
without one more trailing carriage return. -/
theorem scanTokens_rewritten (store pre post : List Str) (l : Str)
    (hscan : scanTokens store = pre ++ l :: post) :
    scanTokens (pre ++ post) = (pre ++ post).map dropCR := by
  apply scanTokens_of_short
  intro x hx
  apply scanTokens_short store
  rw [hscan]
  rcases List.mem_append.mp hx with h | h
  · exact List.mem_append_left _ h
  · exact List.mem_append_right _ (List.mem_cons_of_mem _ h)

theorem recordSkipped_not_matches (Sum512 : Str → Str) (user pass x : Str)
    (h : recordSkipped Sum512 user pass x) : ¬ recordMatches Sum512 user pass x := by
  rintro ⟨h1, h2, h3, h4⟩
  rcases h with h | h | h | h
  · exact h1 h
  · exact h h2
  · exact h h3
  · rw [h4] at h
    exact absurd h (by simp)

/-! ## C18 -/

theorem validatePubKeyLoop_skip (parse : Str → Option (Str × Str)) (remoteKey : Str)
    (pre rest : List Str)
    (hpre : ∀ x ∈ pre, ∃ k c, parse x = some (k, c) ∧ c ≠ [] ∧ k ≠ remoteKey) :
    validatePubKeyLoop parse remoteKey (pre ++ rest)
      = validatePubKeyLoop parse remoteKey rest := by
  induction pre with
  | nil => rfl
  | cons a t ih =>
    obtain ⟨k, c, hp, hc, hk⟩ := hpre a (List.mem_cons_self _ _)
    have hlen : ¬ c.length = 0 := fun h => hc (List.length_eq_zero.mp h)
    rw [List.cons_append, validatePubKeyLoop, hp]
    simp only [if_neg hlen, if_neg hk]
    exact ih (fun x hx => hpre x (List.mem_cons_of_mem _ hx))

theorem validatePubKeyLoop_no_match (parse : Str → Option (Str × Str)) (remoteKey : Str)
    (lines : List Str)
    (h : ∀ x ∈ lines, ∀ k c, parse x = some (k, c) → k ≠ remoteKey) :
    validatePubKeyLoop parse remoteKey lines = some none := by
  induction lines with
  | nil => rfl
  | cons a t ih =>
    rw [validatePubKeyLoop]
    cases hp : parse a with
    | none => rfl
    | some kc =>
      obtain ⟨k, c⟩ := kc
      have hk := h a (List.mem_cons_self _ _) k c hp
      simp only [if_neg hk]
      split_ifs
      · rfl
      · exact ih (fun x hx => h x (List.mem_cons_of_mem _ hx))

/-! ## C21 -/

/-- C21: in validatePubKey a single malformed line aborts the lookup. When a
line that the parser rejects, or an entry with an empty comment, comes after
entries that are all well formed and carry other keys (so before any entry
whose key equals the presented key), the result is the error "No valid key
file" and no Permission; the result is the same error when the key file
cannot be read and when no entry carries the presented key. -/
theorem validatePubKey_malformed_aborts (parse : Str → Option (Str × Str))
    (remoteKey : Str) (pre post : List Str) (bad : Str)
    (hpre : ∀ x ∈ pre, ∃ k c, parse x = some (k, c) ∧ c ≠ [] ∧ k ≠ remoteKey)
    (hbad : parse bad = none ∨ ∃ k, parse bad = some (k, [])) :
    validatePubKey parse (some (pre ++ bad :: post)) remoteKey = some none ∧
    validatePubKey parse none remoteKey = some none ∧
    (∀ lines, (∀ x ∈ lines, ∀ k c, parse x = some (k, c) → k ≠ remoteKey) →
      validatePubKey parse (some lines) remoteKey = some none) := by
  refine ⟨?_, rfl, ?_⟩
  · show validatePubKeyLoop parse remoteKey (pre ++ bad :: post) = some none
    rw [validatePubKeyLoop_skip parse remoteKey pre _ hpre, validatePubKeyLoop]
    rcases hbad with h | ⟨k, h⟩
    · rw [h]
    · rw [h]
      rfl
  · intro lines h
    exact validatePubKeyLoop_no_match parse remoteKey lines h

/-- Witness for C21: an entry without comment precedes the entry of the
presented key "k2". -/
theorem validatePubKey_malformed_aborts_witness :
    validatePubKey exampleParse
        (some (["k1 rw:/a/:0:r".toList] ++ "k3".toList :: ["k2 rw:/srv/:0:".toList]))
        "k2".toList = some none ∧
    validatePubKey exampleParse (some ["k1 rw:/a/:0:r".toList]) "k2".toList = some none :=
  ⟨(validatePubKey_malformed_aborts exampleParse "k2".toList ["k1 rw:/a/:0:r".toList]
      ["k2 rw:/srv/:0:".toList] "k3".toList
      (by
        intro x hx
        rw [List.mem_singleton] at hx
        subst hx
        exact ⟨"k1".toList, "rw:/a/:0:r".toList, by decide, by decide, by decide⟩)
      (Or.inr ⟨"k3".toList, by decide⟩)).1,
   (validatePubKey_malformed_aborts exampleParse "k2".toList ["k1 rw:/a/:0:r".toList]
      ["k2 rw:/srv/:0:".toList] "k3".toList
      (by
        intro x hx
        rw [List.mem_singleton] at hx
        subst hx
        exact ⟨"k1".toList, "rw:/a/:0:r".toList, by decide, by decide, by decide⟩)
      (Or.inr ⟨"k3".toList, by decide⟩)).2.2 ["k1 rw:/a/:0:r".toList]
      (by
        intro x hx k c hp
        rw [List.mem_singleton] at hx
        subst hx
        have hk : exampleParse "k1 rw:/a/:0:r".toList
            = some ("k1".toList, "rw:/a/:0:r".toList) := by decide
        rw [hk] at hp
        simp only [Option.some.injEq, Prod.mk.injEq] at hp
        rw [← hp.1]
        decide)⟩

/-! ## C22 -/

/-- C22 (the code at the failing inputs): for the presented key "k2", a
comment with two fields ("rw:/srv") makes validatePubKey fail abruptly, with
an index out of range on `privs`, where an error is due; and a comment with
five fields is accepted, its fourth and fifth fields merged into the
recursive set "r:x". -/
theorem validatePubKey_field_count_unchecked :
    validatePubKey exampleParse (some ["k2 rw:/srv".toList]) "k2".toList = none ∧
    validatePubKey exampleParse (some ["k2 rw:/srv:0:r:x".toList]) "k2".toList
      = some (some ⟨[("privs".toList, "rw".toList), ("dir".toList, "/srv/".toList),
          ("size".toList, "0".toList), ("recurse".toList, "r:x".toList)]⟩) := by
  decide

/-! ## C23 -/

/-- C23 (the code at the failing input): for the presented key "k2" with the
comment "rw::0:" (empty directory field), validatePubKey returns the
directory "/", and handleExec sends the upload of "file.txt" to "/file.txt";
validateUser, for a password record with an empty directory field, returns
the empty directory, and handleExec sends the same upload under the
configured SharedDir. -/
theorem validatePubKey_empty_directory_is_root :
    validatePubKey exampleParse (some ["k2 rw::0:".toList]) "k2".toList
      = some (some ⟨[("privs".toList, "rw".toList), ("dir".toList, "/".toList),
          ("size".toList, "0".toList), ("recurse".toList, [])]⟩) ∧
    handleExecArgs "scp -t file.txt".toList
        ⟨[("privs".toList, "rw".toList), ("dir".toList, "/".toList),
          ("size".toList, "0".toList), ("recurse".toList, [])]⟩
        ⟨"/srv/shared/".toList, "/usr/bin/scp".toList⟩
      = .ok ["-t".toList, "/file.txt".toList] ∧
    validateUser (fun _ => []) ["u:$0$pw:rw::0::p".toList] "u".toList "pw".toList
      = some ⟨some ⟨[("privs".toList, "rw".toList), ("dir".toList, []),
          ("size".toList, "0".toList), ("recurse".toList, [])]⟩,
          ["u:$0$pw:rw::0::p".toList]⟩ ∧
    handleExecArgs "scp -t file.txt".toList
        ⟨[("privs".toList, "rw".toList), ("dir".toList, []),
          ("size".toList, "0".toList), ("recurse".toList, [])]⟩
        ⟨"/srv/shared/".toList, "/usr/bin/scp".toList⟩
      = .ok ["-t".toList, "/srv/shared/file.txt".toList] := by
  decide

/-! ## Facts about `FormatUint` and `addSepSuffix` -/

theorem digitChar_decimal (k : Nat) (h : k < 10) :
    48 ≤ (Nat.digitChar k).toNat ∧ (Nat.digitChar k).toNat ≤ 57 ∧
    (Nat.digitChar k).toNat - 48 = k := by
  interval_cases k <;> decide

theorem toDigitsCore_decimal (fuel n : Nat) (ds : Str) (h : n < fuel)
    (hds : ∀ d ∈ ds, 48 ≤ d.toNat ∧ d.toNat ≤ 57) :
    (∀ d ∈ Nat.toDigitsCore 10 fuel n ds, 48 ≤ d.toNat ∧ d.toNat ≤ 57) ∧
    Nat.toDigitsCore 10 fuel n ds ≠ [] ∧
    (Nat.toDigitsCore 10 fuel n ds).foldl (fun acc d => acc * 10 + (d.toNat - 48)) 0
      = ds.foldl (fun acc d => acc * 10 + (d.toNat - 48)) n := by
  induction fuel generalizing n ds with
  | zero => omega
  | succ fuel ih =>
    have hk := digitChar_decimal (n % 10) (Nat.mod_lt _ (by norm_num))
    have hds2 : ∀ d ∈ Nat.digitChar (n % 10) :: ds, 48 ≤ d.toNat ∧ d.toNat ≤ 57 := by
      intro d hd
      rcases List.mem_cons.mp hd with rfl | hd
      · exact ⟨hk.1, hk.2.1⟩
      · exact hds d hd
    unfold Nat.toDigitsCore
    simp only
    by_cases h0 : n / 10 = 0
    · rw [if_pos h0]
      refine ⟨hds2, by simp, ?_⟩
      have hn : n % 10 = n := Nat.mod_eq_of_lt (by omega)
      simp only [List.foldl_cons, hk.2.2, Nat.zero_mul, Nat.zero_add]
      rw [hn]
    · rw [if_neg h0]
      obtain ⟨a, b, c⟩ := ih (n / 10) (Nat.digitChar (n % 10) :: ds) (by omega) hds2
      refine ⟨a, b, ?_⟩
      rw [c]
      simp only [List.foldl_cons, hk.2.2]
      have : n / 10 * 10 + n % 10 = n := by omega
      rw [this]

theorem FormatUint_decimal (n : Nat) :
    isDecimal (FormatUint n) ∧ decimalValue (FormatUint n) = n := by
  obtain ⟨a, b, c⟩ := toDigitsCore_decimal (n + 1) n [] (by omega) (by simp)
  exact ⟨⟨b, a⟩, by simpa [decimalValue, FormatUint, Nat.toDigits] using c⟩

theorem FormatUint_no_colon (n : Nat) : ':' ∉ FormatUint n := by
  intro h
  have := (FormatUint_decimal n).1.2 ':' h
  exact absurd this (by decide)

theorem hasSuffix_singleton (s : Str) (ch : Char) :
    hasSuffix s [ch] = true ↔ s.getLast? = some ch := by
  have h := hasPrefix_singleton s.reverse ch
  rw [List.head?_reverse] at h
  exact h

theorem addSepSuffix_getLast? (s : Str) : (addSepSuffix s).getLast? = some Separator := by
  unfold addSepSuffix
  by_cases h : hasSuffix s [Separator] = true
  · simp only [h, Bool.not_true, Bool.false_eq_true, if_false]
    exact (hasSuffix_singleton s Separator).mp h
  · have hf : hasSuffix s [Separator] = false := by simpa using h
    simp [hf]

theorem addSepSuffix_of_suffix (s : Str) (h : s.getLast? = some Separator) :
    addSepSuffix s = s := by
  unfold addSepSuffix
  rw [(hasSuffix_singleton s Separator).mpr h]
  rfl

theorem addSepSuffix_of_not_suffix (s : Str) (h : s.getLast? ≠ some Separator) :
    addSepSuffix s = s ++ [Separator] := by
  unfold addSepSuffix
  have hf : hasSuffix s [Separator] = false := by
    rw [← Bool.not_eq_true, hasSuffix_singleton]
    exact h
  rw [hf]
  rfl

theorem linePermissions_dir (l : Str) :
    (linePermissions l).opt "dir"
      = if (splitN l ':' 7).getD 3 [] ≠ [] then addSepSuffix ((splitN l ':' 7).getD 3 [])
        else (splitN l ':' 7).getD 3 [] := by
  rfl

/-! ## C25 -/

/-- C25: for every string s, addSepSuffix(s) ends with the path separator, is
s when s already ends with it and s ++ separator otherwise, and addSepSuffix
is idempotent; every non-empty directory in a Permission returned by
validateUser, and every directory in a Permission returned by validatePubKey,
ends with the path separator. -/
theorem addSepSuffix_normalises (s : Str) :
    (addSepSuffix s).getLast? = some '/' ∧
    (s.getLast? = some '/' → addSepSuffix s = s) ∧
    (s.getLast? ≠ some '/' → addSepSuffix s = s ++ "/".toList) ∧
    addSepSuffix (addSepSuffix s) = addSepSuffix s ∧
    (∀ (Sum512 : Str → Str) (store : List Str) (user pass : Str) (res : AuthResult)
      (perm : Permissions), validateUser Sum512 store user pass = some res →
      res.perm = some perm → perm.opt "dir" ≠ [] →
      (perm.opt "dir").getLast? = some '/') ∧
    (∀ (parse : Str → Option (Str × Str)) (keyFile : Option (List Str)) (remoteKey : Str)
      (perm : Permissions), validatePubKey parse keyFile remoteKey = some (some perm) →
      (perm.opt "dir").getLast? = some '/') := by
  refine ⟨addSepSuffix_getLast? s, addSepSuffix_of_suffix s, addSepSuffix_of_not_suffix s,
    addSepSuffix_of_suffix _ (addSepSuffix_getLast? s), ?_, ?_⟩
  · intro Sum512 store user pass res perm h hperm hne
    unfold validateUser at h
    rcases validateUserLoop_inv Sum512 user pass store (scanTokens store) [] res h with
      ⟨hres, -⟩ | ⟨pre, l, post, -, -, -, hres⟩
    · rw [hres] at hperm
      simp at hperm
    · rw [hres] at hperm
      simp only [Option.some.injEq] at hperm
      rw [← hperm, linePermissions_dir] at hne ⊢
      by_cases h3 : (splitN l ':' 7).getD 3 [] ≠ []
      · rw [if_pos h3]
        exact addSepSuffix_getLast? _
      · rw [if_neg h3] at hne
        exact absurd (not_not.mp h3) hne
  · intro parse keyFile remoteKey perm h
    cases keyFile with
    | none => simp [validatePubKey] at h
    | some lines =>
      simp only [validatePubKey] at h
      induction lines with
      | nil => simp [validatePubKeyLoop] at h
      | cons a t ih =>
        rw [validatePubKeyLoop] at h
        cases hp : parse a with
        | none => rw [hp] at h; simp at h
        | some kc =>
          obtain ⟨k, c⟩ := kc
          rw [hp] at h
          simp only at h
          split_ifs at h with c1 c2
          · simp at h
          · simp only [Option.bind_eq_some] at h
            obtain ⟨p0, -, p1, -, p2, -, p3, -, h⟩ := h
            simp only [Option.some.injEq] at h
            rw [← h]
            exact addSepSuffix_getLast? p1
          · exact ih h

/-- Witness for C25: the password record of "bob" with the directory "/srv",
and the key entry "k2" with the same directory. -/
theorem addSepSuffix_normalises_witness :
    (addSepSuffix "/srv".toList).getLast? = some '/' ∧
    (linePermissions "bob:$0$pw:w:/srv:0::p".toList).opt "dir" = "/srv/".toList ∧
    ((linePermissions "bob:$0$pw:w:/srv:0::p".toList).opt "dir").getLast? = some '/' ∧
    ((⟨[("privs".toList, "rw".toList), ("dir".toList, "/srv/".toList),
        ("size".toList, "0".toList), ("recurse".toList, [])]⟩ : Permissions).opt
        "dir").getLast? = some '/' :=
  ⟨(addSepSuffix_normalises "/srv".toList).1, by decide,
   (addSepSuffix_normalises "/srv".toList).2.2.2.2.1 (fun _ => [])
      ["bob:$0$pw:w:/srv:0::p".toList] "bob".toList "pw".toList
      ⟨some (linePermissions "bob:$0$pw:w:/srv:0::p".toList),
        ["bob:$0$pw:w:/srv:0::p".toList]⟩ _ (by decide) rfl (by decide),
   (addSepSuffix_normalises "/srv".toList).2.2.2.2.2 exampleParse
      (some ["k2 rw:/srv:0:".toList]) "k2".toList _ (by decide)⟩

/-! ## C24 -/

theorem splitN_passwd_line (name hash privs dir size rec last : Str)
    (hn : ':' ∉ name) (hh : ':' ∉ hash) (hp : ':' ∉ privs) (hd : ':' ∉ dir)
    (hs : ':' ∉ size) (hr : ':' ∉ rec) :
    splitN (name ++ [':'] ++ hash ++ [':'] ++
        (privs ++ [':'] ++ dir ++ [':'] ++ size ++ [':'] ++ rec ++ [':'] ++ last)) ':' 7
      = [name, hash, privs, dir, size, rec, last] := by
  have e : name ++ [':'] ++ hash ++ [':'] ++
        (privs ++ [':'] ++ dir ++ [':'] ++ size ++ [':'] ++ rec ++ [':'] ++ last)
      = name ++ ':' :: (hash ++ ':' :: (privs ++ ':' :: (dir ++ ':' :: (size ++ ':' ::
          (rec ++ ':' :: last))))) := by
    simp only [List.append_assoc, List.singleton_append, List.cons_append, List.nil_append]
  rw [e, splitN_append_sep name _ ':' 5 hn, splitN_append_sep hash _ ':' 4 hh,
    splitN_append_sep privs _ ':' 3 hp, splitN_append_sep dir _ ':' 2 hd,
    splitN_append_sep size _ ':' 1 hs, splitN_append_sep rec _ ':' 0 hr]
  cases last <;> rfl

/-- C24, the claim as written fails: the record of "bob" with the directory
"/srv" is written by PasswdString as "bob:$0$pw:rw:/srv:0::p", and validateUser
decodes the directory of that line as "/srv/". -/
theorem configString_directory_not_preserved :
    UserInfo.PasswdString (fun _ => []) []
        ⟨"bob".toList, "pw".toList, "rw".toList, "/srv".toList, [], 0, true, true⟩
      = "bob:$0$pw:rw:/srv:0::p".toList ++ ['\n'] ∧
    (validateUser (fun _ => []) ["bob:$0$pw:rw:/srv:0::p".toList] "bob".toList
        "pw".toList).map (fun r => r.perm.map (fun p => p.opt "dir"))
      = some (some "/srv/".toList) ∧
    "/srv/".toList ≠ "/srv".toList := by
  decide

/-- C24, amended: for every record whose privileges, directory and recursive
set contain no ':' (the size being a 64-bit number), written after a user name
and a hash field without ':', the line splits into seven fields, and decoding
as validateUser does gives the same privileges, the directory with the path
separator appended unless it is empty or already ends with it (so the same
directory in those two cases), a size field that ParseUint reads as the same
number, the same recursive set, and a last field equal to "p" exactly when the
record is permanent. -/
theorem configString_round_trip (u : UserInfo) (name hash : Str)
    (hn : ':' ∉ name) (hh : ':' ∉ hash) (hp : ':' ∉ u.Privileges)
    (hd : ':' ∉ u.UserDir) (hr : ':' ∉ u.Recursive) (hs : u.UpSize < 2 ^ 64) :
    (splitN (name ++ [':'] ++ hash ++ [':'] ++ u.ConfigString) ':' 7).length = 7 ∧
    (linePermissions (name ++ [':'] ++ hash ++ [':'] ++ u.ConfigString)).opt "privs"
      = u.Privileges ∧
    (linePermissions (name ++ [':'] ++ hash ++ [':'] ++ u.ConfigString)).opt "dir"
      = (if u.UserDir = [] ∨ u.UserDir.getLast? = some '/' then u.UserDir
         else u.UserDir ++ ['/']) ∧
    ParseUint ((linePermissions (name ++ [':'] ++ hash ++ [':'] ++ u.ConfigString)).opt
        "size") = (u.UpSize, false) ∧
    (linePermissions (name ++ [':'] ++ hash ++ [':'] ++ u.ConfigString)).opt "recurse"
      = u.Recursive ∧
    ((splitN (name ++ [':'] ++ hash ++ [':'] ++ u.ConfigString) ':' 7).getD 6 [] = ['p']
      ↔ u.Permanent = true) := by
  have e := splitN_passwd_line name hash u.Privileges u.UserDir (FormatUint u.UpSize)
    u.Recursive [if u.Permanent then 'p' else 't'] hn hh hp hd
    (FormatUint_no_colon u.UpSize) hr
  have e2 : splitN (name ++ [':'] ++ hash ++ [':'] ++ u.ConfigString) ':' 7
      = [name, hash, u.Privileges, u.UserDir, FormatUint u.UpSize, u.Recursive,
          [if u.Permanent then 'p' else 't']] := e
  have hsize : (linePermissions (name ++ [':'] ++ hash ++ [':'] ++ u.ConfigString)).opt
      "size" = FormatUint u.UpSize := by
    unfold linePermissions
    rw [e2]
    rfl
  refine ⟨by rw [e2]; rfl, by unfold linePermissions; rw [e2]; rfl, ?_, ?_,
    by unfold linePermissions; rw [e2]; rfl, ?_⟩
  · rw [linePermissions_dir, e2]
    show (if u.UserDir ≠ [] then addSepSuffix u.UserDir else u.UserDir) = _
    by_cases h0 : u.UserDir = []
    · rw [if_neg (not_not.mpr h0), if_pos (Or.inl h0)]
    · rw [if_pos h0]
      by_cases h1 : u.UserDir.getLast? = some '/'
      · rw [if_pos (Or.inr h1)]
        exact addSepSuffix_of_suffix _ h1
      · rw [if_neg (by tauto)]
        exact addSepSuffix_of_not_suffix _ h1
  · rw [hsize]
    have hdec := FormatUint_decimal u.UpSize
    have := ParseUint_decimal (FormatUint u.UpSize) hdec.1 (by rw [hdec.2]; exact hs)
    rw [this, hdec.2]
  · rw [e2]
    show [if u.Permanent then 'p' else 't'] = ['p'] ↔ _
    cases u.Permanent <;> decide

/-- Witness for C24: the record of the repository's test, user1 with the
directory "/", size 1000, permanent. -/
theorem configString_round_trip_witness :
    (linePermissions "user1:$0$pass1:rw:/:1000:rw:p".toList).opt "dir" = "/".toList ∧
    ParseUint ((linePermissions "user1:$0$pass1:rw:/:1000:rw:p".toList).opt "size")
      = (1000, false) :=
  ⟨(configString_round_trip
      ⟨"user1".toList, "pass1".toList, "rw".toList, "/".toList, "rw".toList, 1000, true,
        true⟩ "user1".toList "$0$pass1".toList (by decide) (by decide) (by decide)
      (by decide) (by decide) (by decide)).2.2.1,
   (configString_round_trip
      ⟨"user1".toList, "pass1".toList, "rw".toList, "/".toList, "rw".toList, 1000, true,
        true⟩ "user1".toList "$0$pass1".toList (by decide) (by decide) (by decide)
      (by decide) (by decide) (by decide)).2.2.2.1⟩

/-! ## Facts about `fieldsLoop` and `quoteStep` -/

theorem fieldsLoop_nonempty {σ : Type} (step : σ → Char → σ × Bool) (st : σ) (s cur : Str) :
    ∀ arg ∈ fieldsLoop step st s cur, arg ≠ [] := by
  induction s generalizing st cur with
  | nil =>
    intro arg h
    rw [fieldsLoop] at h
    split_ifs at h with h0
    · simp at h
    · simp only [List.mem_singleton] at h
      rw [h]
      exact h0
  | cons c cs ih =>
    intro arg h
    rw [fieldsLoop] at h
    split_ifs at h with h1 h0
    · exact ih _ _ arg h
    · rcases List.mem_cons.mp h with e | h
      · rw [e]
        exact h0
      · exact ih _ _ arg h
    · exact ih _ _ arg h

theorem fieldsLoop_append {σ : Type} (step : σ → Char → σ × Bool) (st : σ)
    (a rest cur : Str) :
    ∃ pre cur2, fieldsLoop step st (a ++ rest) cur
      = pre ++ fieldsLoop step (a.foldl (fun s c => (step s c).1) st) rest cur2 := by
  induction a generalizing st cur with
  | nil => exact ⟨[], cur, rfl⟩
  | cons c cs ih =>
    rw [List.cons_append, fieldsLoop, List.foldl_cons]
    split_ifs with h1 h0
    · exact ih _ _
    · obtain ⟨pre, cur2, e⟩ := ih (step st c).1 []
      exact ⟨cur :: pre, cur2, by rw [e]; rfl⟩
    · exact ih _ _

theorem fieldsLoop_keeps_current {σ : Type} (step : σ → Char → σ × Bool) (st : σ)
    (r cur : Str) (h : cur ≠ []) :
    ∃ arg ∈ fieldsLoop step st r cur, cur <+: arg := by
  induction r generalizing st cur with
  | nil =>
    rw [fieldsLoop, if_neg h]
    exact ⟨cur, List.mem_singleton.mpr rfl, List.prefix_refl cur⟩
  | cons c cs ih =>
    rw [fieldsLoop]
    split_ifs with h1
    · exact ⟨cur, List.mem_cons_self _ _, List.prefix_refl cur⟩
    · obtain ⟨arg, hm, hp⟩ := ih (step st c).1 (cur ++ [c]) (by simp)
      exact ⟨arg, hm, (List.prefix_append cur [c]).trans hp⟩

theorem isQuotationMark_ne_zero (q : Char) (hq : isQuotationMark q = true) :
    q ≠ Char.ofNat 0 := by
  intro e
  rw [e] at hq
  exact absurd hq (by decide)

theorem fieldsLoop_quote_open (q : Char) (r cur : Str) (hq : isQuotationMark q = true) :
    fieldsLoop quoteStep (Char.ofNat 0) (q :: r) cur = fieldsLoop quoteStep q r (cur ++ [q]) := by
  have e : quoteStep (Char.ofNat 0) q = (q, false) := by
    unfold quoteStep
    rw [if_neg (isQuotationMark_ne_zero q hq), if_neg (not_not.mpr rfl), if_pos hq]
  rw [fieldsLoop, e]
  rfl

theorem fieldsLoop_quote_close (q : Char) (r cur : Str) :
    fieldsLoop quoteStep q (q :: r) cur = fieldsLoop quoteStep (Char.ofNat 0) r (cur ++ [q]) := by
  have e : quoteStep q q = (Char.ofNat 0, false) := by
    unfold quoteStep
    rw [if_pos rfl]
  rw [fieldsLoop, e]
  rfl

theorem fieldsLoop_quote_body (q : Char) (body r cur : Str) (hq : q ≠ Char.ofNat 0)
    (hb : q ∉ body) :
    fieldsLoop quoteStep q (body ++ r) cur = fieldsLoop quoteStep q r (cur ++ body) := by
  induction body generalizing cur with
  | nil => simp
  | cons c cs ih =>
    have hc : c ≠ q := fun e => hb (by rw [e]; exact List.mem_cons_self _ _)
    have e : quoteStep q c = (q, false) := by
      unfold quoteStep
      rw [if_neg hc, if_pos hq]
    rw [List.cons_append, fieldsLoop, e]
    show fieldsLoop quoteStep q (cs ++ r) (cur ++ [c]) = _
    rw [ih (cur ++ [c]) (fun h => hb (List.mem_cons_of_mem _ h))]
    simp

theorem quoteStep_unquoted (c : Char) (h : isQuotationMark c = false) :
    quoteStep (Char.ofNat 0) c = (Char.ofNat 0, isSpace c) := by
  unfold quoteStep
  by_cases h0 : c = Char.ofNat 0
  · rw [if_pos h0, h0]
    rfl
  · rw [if_neg h0, if_neg (not_not.mpr rfl), if_neg (by rw [h]; decide)]

theorem fieldsLoop_unquoted (s cur : Str) (h : ∀ c ∈ s, isQuotationMark c = false) :
    fieldsLoop quoteStep (Char.ofNat 0) s cur
      = ((s.splitOnP (fun c => isSpace c)).modifyHead (fun x => cur ++ x)).filter
          (fun f => f ≠ []) := by
  induction s generalizing cur with
  | nil =>
    rw [fieldsLoop, List.splitOnP_nil]
    by_cases h0 : cur = [] <;> simp [h0]
  | cons c cs ih =>
    have hcs : ∀ c ∈ cs, isQuotationMark c = false := fun d hd => h d (List.mem_cons_of_mem _ hd)
    rw [fieldsLoop, quoteStep_unquoted c (h c (List.mem_cons_self _ _)), List.splitOnP_cons]
    simp only
    by_cases hsp : isSpace c = true
    · have e0 : (List.splitOnP (fun c => isSpace c) cs).modifyHead (fun x => [] ++ x)
          = List.splitOnP (fun c => isSpace c) cs := by
        cases List.splitOnP (fun c => isSpace c) cs <;> simp
      rw [if_pos hsp, if_pos hsp, ih [] hcs, e0]
      by_cases h0 : cur = [] <;> simp [h0]
    · rw [if_neg hsp, if_neg hsp, ih (cur ++ [c]) hcs, List.modifyHead_modifyHead]
      congr 2
      funext x
      simp

theorem quoteStep_insideQuotes (o : Option Char) (ho : ∀ q, o = some q → q ≠ Char.ofNat 0)
    (c : Char) :
    ∃ o2 b, (∀ cs, insideQuotes o (c :: cs) = b :: insideQuotes o2 cs) ∧
      (∀ q, o2 = some q → q ≠ Char.ofNat 0) ∧
      quoteStep (o.getD (Char.ofNat 0)) c = (o2.getD (Char.ofNat 0), isSpace c && !b) := by
  cases o with
  | none =>
    by_cases hq : isQuotationMark c = true
    · refine ⟨some c, true, fun cs => ?_, ?_, ?_⟩
      · show (if isQuotationMark c = true then true :: insideQuotes (some c) cs
            else false :: insideQuotes none cs) = _
        rw [if_pos hq]
      · intro q e
        simp only [Option.some.injEq] at e
        rw [← e]
        exact isQuotationMark_ne_zero c hq
      · show quoteStep (Char.ofNat 0) c = (c, isSpace c && !true)
        unfold quoteStep
        rw [if_neg (isQuotationMark_ne_zero c hq), if_neg (not_not.mpr rfl), if_pos hq]
        simp
    · have hq2 : isQuotationMark c = false := by simpa using hq
      refine ⟨none, false, fun cs => ?_, by simp, ?_⟩
      · show (if isQuotationMark c = true then true :: insideQuotes (some c) cs
            else false :: insideQuotes none cs) = _
        rw [if_neg hq]
      · show quoteStep (Char.ofNat 0) c = (Char.ofNat 0, isSpace c && !false)
        rw [quoteStep_unquoted c hq2]
        simp
  | some q =>
    have hq0 : q ≠ Char.ofNat 0 := ho q rfl
    refine ⟨if c = q then none else some q, true, fun cs => rfl, ?_, ?_⟩
    · intro r e
      by_cases hc : c = q
      · rw [if_pos hc] at e
        simp at e
      · rw [if_neg hc] at e
        simp only [Option.some.injEq] at e
        rw [← e]
        exact hq0
    · show quoteStep q c = _
      unfold quoteStep
      by_cases hc : c = q
      · rw [if_pos hc, if_pos hc]
        simp
      · rw [if_neg hc, if_pos hq0, if_neg hc]
        simp

theorem map_fst_modifyHead (L : List (List (Char × Bool))) (c : Char) (b : Bool) :
    (L.modifyHead (List.cons (c, b))).map (fun piece => piece.map Prod.fst)
      = (L.map fun piece => piece.map Prod.fst).modifyHead (List.cons c) := by
  cases L <;> simp

theorem fieldsLoop_quoted (o : Option Char) (ho : ∀ q, o = some q → q ≠ Char.ofNat 0)
    (s cur : Str) :
    fieldsLoop quoteStep (o.getD (Char.ofNat 0)) s cur
      = ((((s.zip (insideQuotes o s)).splitOnP fun p => isSpace p.1 && !p.2).map
          fun piece => piece.map Prod.fst).modifyHead (fun x => cur ++ x)).filter
          (fun f => f ≠ []) := by
  induction s generalizing o cur with
  | nil =>
    rw [fieldsLoop]
    have e : insideQuotes o [] = [] := by cases o <;> rfl
    rw [e, List.zip_nil_right, List.splitOnP_nil]
    by_cases h0 : cur = [] <;> simp [h0]
  | cons c cs ih =>
    obtain ⟨o2, b, hin, ho2, hstep⟩ := quoteStep_insideQuotes o ho c
    rw [fieldsLoop, hstep, hin cs, List.zip_cons_cons, List.splitOnP_cons]
    simp only
    by_cases hsp : (isSpace c && !b) = true
    · have e0 : ∀ L : List Str, L.modifyHead (fun x => [] ++ x) = L := by
        intro L
        cases L <;> simp
      rw [if_pos hsp, if_pos hsp, ih o2 ho2 [], e0]
      by_cases h0 : cur = [] <;> simp [h0]
    · rw [if_neg hsp, if_neg hsp, ih o2 ho2 (cur ++ [c]), map_fst_modifyHead,
        List.modifyHead_modifyHead]
      congr 2
      funext x
      simp

/-! ## C26 -/

/-- C26: parseCmdLine on an input starting with '@' yields exactly one
argument, the rest of the input when it contains '/', otherwise "./" followed
by the rest; on every other input no returned argument is empty, a section
opened by a quotation mark outside quotes and closed by the next occurrence of
the same mark lies, marks included, inside a single returned argument, an
input without quotation marks yields its whitespace-separated fields, and in
general the arguments returned are the pieces of the input between the
whitespace runes that lie outside quoted sections, the empty pieces left
out. -/
theorem parseCmdLine_contract (s : Str) :
    (s.head? = some '@' →
      parseCmdLine s = [if '/' ∈ s.drop 1 then s.drop 1 else "./".toList ++ s.drop 1]) ∧
    (s.head? ≠ some '@' →
      (∀ arg ∈ parseCmdLine s, arg ≠ []) ∧
      (∀ (a body tail : Str) (q : Char), s = a ++ q :: body ++ q :: tail →
        quoteState (Char.ofNat 0) a = Char.ofNat 0 → isQuotationMark q = true → q ∉ body →
        ∃ arg ∈ parseCmdLine s, (q :: body ++ [q]) <:+: arg) ∧
      ((∀ c ∈ s, isQuotationMark c = false) → parseCmdLine s = whitespaceFields s) ∧
      parseCmdLine s = quotedFields s) := by
  constructor
  · intro h
    have hp := (hasPrefix_singleton s '@').mpr h
    unfold parseCmdLine
    rw [if_pos hp]
    cases s with
    | nil => simp at h
    | cons c t =>
      simp only [List.head?_cons, Option.some.injEq] at h
      have hc : contains (c :: t) ['/'] = true ↔ '/' ∈ t := by
        rw [contains_singleton_iff, h]
        simp
      by_cases ht : '/' ∈ t
      · rw [if_pos (hc.mpr ht)]
        simp [ht]
      · rw [if_neg (fun x => ht (hc.mp x))]
        simp [ht]
  · intro h
    have hp : ¬ hasPrefix s ['@'] = true := fun x => h ((hasPrefix_singleton s '@').mp x)
    have e : parseCmdLine s = fieldsLoop quoteStep (Char.ofNat 0) s [] := by
      unfold parseCmdLine
      rw [if_neg hp]
    rw [e]
    refine ⟨fieldsLoop_nonempty _ _ _ _, ?_, ?_, ?_⟩
    · intro a body tail q hs ha hq hb
      obtain ⟨pre, cur2, e1⟩ := fieldsLoop_append quoteStep (Char.ofNat 0) a
        (q :: body ++ q :: tail) []
      have ha2 : List.foldl (fun s c => (quoteStep s c).1) (Char.ofNat 0) a = Char.ofNat 0 := ha
      rw [ha2, List.cons_append, fieldsLoop_quote_open q _ _ hq,
        fieldsLoop_quote_body q body _ _ (isQuotationMark_ne_zero q hq) hb,
        fieldsLoop_quote_close] at e1
      obtain ⟨arg, hm, hpre⟩ := fieldsLoop_keeps_current quoteStep (Char.ofNat 0) tail
        (cur2 ++ [q] ++ body ++ [q]) (by simp)
      refine ⟨arg, ?_, ?_⟩
      · rw [hs, List.append_assoc, List.cons_append, e1]
        exact List.mem_append_right _ hm
      · obtain ⟨t, ht⟩ := hpre
        exact ⟨cur2, t, by rw [← ht]; simp⟩
    · intro hq
      rw [fieldsLoop_unquoted s [] hq]
      unfold whitespaceFields
      congr 1
      cases List.splitOnP (fun c => isSpace c) s <;> simp
    · have h := fieldsLoop_quoted none (by simp) s []
      rw [Option.getD_none] at h
      rw [h]
      unfold quotedFields
      congr 1
      cases List.map (fun piece => List.map Prod.fst piece)
        (List.splitOnP (fun p => isSpace p.1 && !p.2) (s.zip (insideQuotes none s))) <;> simp

/-- Witness for C26: an "@file" input, a quoted argument, a plain command
line, and the two quoted command lines of the repository's test with the
arguments the test expects. -/
theorem parseCmdLine_contract_witness :
    parseCmdLine "@run.sh".toList = ["./run.sh".toList] ∧
    (∃ arg ∈ parseCmdLine "echo \"a b\" c".toList, "\"a b\"".toList <:+: arg) ∧
    parseCmdLine "ls  -l /tmp".toList = whitespaceFields "ls  -l /tmp".toList ∧
    parseCmdLine "program arg1 \"arg 2\" arg3".toList
      = ["program".toList, "arg1".toList, "\"arg 2\"".toList, "arg3".toList] ∧
    parseCmdLine "program -c arg1 \"arg 2\" arg3".toList
      = ["program".toList, "-c".toList, "arg1".toList, "\"arg 2\"".toList,
          "arg3".toList] :=
  ⟨(parseCmdLine_contract "@run.sh".toList).1 rfl,
   ((parseCmdLine_contract "echo \"a b\" c".toList).2 (by decide)).2.1 "echo ".toList
      "a b".toList " c".toList '"' (by decide) (by decide) (by decide) (by decide),
   ((parseCmdLine_contract "ls  -l /tmp".toList).2 (by decide)).2.2.1 (by decide),
   (((parseCmdLine_contract "program arg1 \"arg 2\" arg3".toList).2
      (by decide)).2.2.2).trans (by decide),
   (((parseCmdLine_contract "program -c arg1 \"arg 2\" arg3".toList).2
      (by decide)).2.2.2).trans (by decide)⟩

/-! ## Facts about `ParseUint`, `toUpper` and `bytesPattern` -/

theorem parseUintLoop_ok (ds : Str) (n v : Nat) (hn : n < 2 ^ 64)
    (h : parseUintLoop ds n = (v, false)) :
    (∀ d ∈ ds, 48 ≤ d.toNat ∧ d.toNat ≤ 57) ∧
    v = ds.foldl (fun acc d => acc * 10 + (d.toNat - 48)) n ∧ v < 2 ^ 64 := by
  induction ds generalizing n with
  | nil =>
    have e : (n, false) = (v, false) := h
    simp only [Prod.mk.injEq, and_true] at e
    exact ⟨by simp, by rw [← e]; rfl, by rw [← e]; exact hn⟩
  | cons d t ih =>
    have hmax : maxUint64 = 18446744073709551615 := by norm_num [maxUint64]
    have hpow : (2 : Nat) ^ 64 = 18446744073709551616 := by norm_num
    unfold parseUintLoop at h
    simp only [hmax, hpow] at h
    rw [hpow] at hn
    split_ifs at h with hdig h1 h2
    · simp at h
    · simp at h
    · have e10 : n * 10 % 18446744073709551616 = n * 10 := Nat.mod_eq_of_lt (by omega)
      rw [e10] at h2 h
      have hlt : n * 10 + (d.toNat - 48) < 18446744073709551616 := by
        by_contra hc
        apply h2
        left
        have : (n * 10 + (d.toNat - 48)) % 18446744073709551616
            = n * 10 + (d.toNat - 48) - 18446744073709551616 := by
          rw [Nat.mod_eq_sub_mod (by omega)]
          exact Nat.mod_eq_of_lt (by omega)
        omega
      have e1 : (n * 10 + (d.toNat - 48)) % 18446744073709551616 = n * 10 + (d.toNat - 48) :=
        Nat.mod_eq_of_lt hlt
      rw [e1] at h
      obtain ⟨a, b, c⟩ := ih (n * 10 + (d.toNat - 48)) (by rw [hpow]; exact hlt) h
      refine ⟨?_, by rw [List.foldl_cons]; exact b, c⟩
      intro x hx
      rcases List.mem_cons.mp hx with rfl | hx
      · exact hdig
      · exact a x hx
    · simp at h

theorem ParseUint_ok (s : Str) (v : Nat) (h : ParseUint s = (v, false)) :
    isDecimal s ∧ v = decimalValue s ∧ v < 2 ^ 64 := by
  unfold ParseUint at h
  split_ifs at h with h0
  · simp at h
  · obtain ⟨a, b, c⟩ := parseUintLoop_ok s 0 v (by norm_num) h
    exact ⟨⟨h0, a⟩, b, c⟩

theorem toUpper_cases (c : Char) :
    toUpper c = c ∨ c ∈ "abcdefghijklmnopqrstuvwxyz".toList := by
  unfold toUpper
  by_cases h : 97 ≤ c.toNat ∧ c.toNat ≤ 122
  · right
    obtain ⟨n, hn⟩ : ∃ n, c.toNat = n := ⟨_, rfl⟩
    have e : c = Char.ofNat n := by rw [← hn, Char.ofNat_toNat]
    rw [hn] at h
    obtain ⟨h1, h2⟩ := h
    rw [e]
    interval_cases n <;> decide
  · left
    rw [if_neg h]

theorem toUpper_eq_unit (c X : Char) (hX : X ∈ ['B', 'K', 'M', 'G', 'T'])
    (h : toUpper c = X) :
    (c = X ∨ c = Char.ofNat (X.toNat + 32)) ∧ isDigit c = false ∧ c ≠ '-' := by
  rcases toUpper_cases c with e | hm
  · have ec : c = X := e.symm.trans h
    rw [ec]
    simp only [List.mem_cons, List.mem_singleton, List.not_mem_nil, or_false] at hX
    rcases hX with rfl | rfl | rfl | rfl | rfl <;> decide
  · simp only [String.toList, List.mem_cons, List.mem_singleton, List.not_mem_nil,
      or_false] at hm hX
    rcases hX with rfl | rfl | rfl | rfl | rfl <;>
      rcases hm with rfl | rfl | rfl | rfl | rfl | rfl | rfl | rfl | rfl | rfl | rfl | rfl |
        rfl | rfl | rfl | rfl | rfl | rfl | rfl | rfl | rfl | rfl | rfl | rfl | rfl | rfl <;>
      first
        | exact absurd h (by decide)
        | decide

theorem takeWhile_digits (digits unit : Str) (hd : ∀ d ∈ digits, isDigit d = true)
    (hu : ∀ u, unit.head? = some u → isDigit u = false) :
    (digits ++ unit).takeWhile isDigit = digits ∧
    (digits ++ unit).dropWhile isDigit = unit := by
  induction digits with
  | nil =>
    cases unit with
    | nil => exact ⟨rfl, rfl⟩
    | cons u t =>
      have := hu u rfl
      simp [List.takeWhile, List.dropWhile, this]
  | cons d t ih =>
    have h1 := hd d (List.mem_cons_self _ _)
    obtain ⟨a, b⟩ := ih (fun x hx => hd x (List.mem_cons_of_mem _ hx))
    simp only [List.cons_append, List.takeWhile_cons, List.dropWhile_cons, h1, if_true]
    exact ⟨by rw [a], b⟩

theorem isDecimal_isDigit (digits : Str) (h : isDecimal digits) :
    ∀ d ∈ digits, isDigit d = true := by
  intro d hd
  have := h.2 d hd
  simp [isDigit, this]

theorem isDigit_isDecimal (digits : Str) (h0 : digits ≠ [])
    (h : ∀ d ∈ digits, isDigit d = true) : isDecimal digits := by
  refine ⟨h0, ?_⟩
  intro d hd
  have := h d hd
  simpa [isDigit] using this

theorem map_eq_one {f : Char → Char} (unit : Str) (x : Char) (h : unit.map f = [x]) :
    ∃ u, unit = [u] ∧ f u = x := by
  match unit, h with
  | [u], h => exact ⟨u, rfl, by simpa using h⟩

theorem map_eq_two {f : Char → Char} (unit : Str) (x y : Char) (h : unit.map f = [x, y]) :
    ∃ u b, unit = [u, b] ∧ f u = x ∧ f b = y := by
  match unit, h with
  | [u, b], h => exact ⟨u, b, rfl, by simpa using h⟩

theorem head?_digits_ne_minus (digits unit : Str) (hd : isDecimal digits) :
    (digits ++ unit).head? ≠ some '-' := by
  cases digits with
  | nil => exact absurd rfl hd.1
  | cons d t =>
    intro h
    simp only [List.cons_append, List.head?_cons, Option.some.injEq] at h
    have := hd.2 d (List.mem_cons_self _ _)
    rw [h] at this
    exact absurd this (by decide)

theorem bytesPattern_one (digits : Str) (u : Char) (hd : isDecimal digits)
    (hu : isDigit u = false) (h : isUnitLetter u = true ∨ isLetterB u = true) :
    bytesPattern (digits ++ [u]) = some (digits, [u]) := by
  obtain ⟨a, b⟩ := takeWhile_digits digits [u] (isDecimal_isDigit digits hd)
    (fun x hx => by simp only [List.head?_cons, Option.some.injEq] at hx; rw [← hx]; exact hu)
  unfold bytesPattern
  simp only [if_neg (head?_digits_ne_minus digits [u] hd), a, b, if_neg hd.1, if_pos h,
    List.nil_append]

theorem bytesPattern_two (digits : Str) (u b : Char) (hd : isDecimal digits)
    (hu : isDigit u = false) (h : isUnitLetter u = true ∧ isLetterB b = true) :
    bytesPattern (digits ++ [u, b]) = some (digits, [u, b]) := by
  obtain ⟨a, c⟩ := takeWhile_digits digits [u, b] (isDecimal_isDigit digits hd)
    (fun x hx => by simp only [List.head?_cons, Option.some.injEq] at hx; rw [← hx]; exact hu)
  unfold bytesPattern
  simp only [if_neg (head?_digits_ne_minus digits [u, b] hd), a, c, if_neg hd.1, if_pos h,
    List.nil_append]

theorem bytesPattern_inv (t num unit : Str) (h : bytesPattern t = some (num, unit))
    (hnum : isDecimal num) :
    t = num ++ unit ∧
    ((∃ u, unit = [u] ∧ (isUnitLetter u = true ∨ isLetterB u = true)) ∨
     (∃ u b, unit = [u, b] ∧ isUnitLetter u = true ∧ isLetterB b = true)) := by
  have hminus : ∀ r : Str, num ≠ ['-'] ++ r := by
    intro r e
    have := hnum.2 '-' (by rw [e]; simp)
    exact absurd this (by decide)
  unfold bytesPattern at h
  by_cases hm : t.head? = some '-'
  · simp only [if_pos hm] at h
    split_ifs at h with h0
    split at h
    · split_ifs at h
      simp only [Option.some.injEq, Prod.mk.injEq] at h
      exact absurd h.1.symm (hminus _)
    · split_ifs at h
      simp only [Option.some.injEq, Prod.mk.injEq] at h
      exact absurd h.1.symm (hminus _)
    · simp at h
  · simp only [if_neg hm, List.nil_append] at h
    have happ := List.takeWhile_append_dropWhile isDigit t
    split_ifs at h with h0
    split at h
    · rename_i u heq
      split_ifs at h with hc
      simp only [Option.some.injEq, Prod.mk.injEq] at h
      refine ⟨by rw [← h.1, ← h.2]; exact happ.symm, Or.inl ⟨u, by rw [← h.2, heq], hc⟩⟩
    · rename_i u b heq
      split_ifs at h with hc
      simp only [Option.some.injEq, Prod.mk.injEq] at h
      refine ⟨by rw [← h.1, ← h.2]; exact happ.symm, Or.inr ⟨u, b, by rw [← h.2, heq], hc⟩⟩
    · simp at h

theorem toBytes_of_pattern (s digits unit : Str)
    (hb : bytesPattern (TrimSpace s) = some (digits, unit)) (hd : isDecimal digits)
    (hv : decimalValue digits < 2 ^ 64) (h1 : 1 ≤ decimalValue digits) :
    toBytes s =
      match unit.head?.map toUpper with
      | some 'T' => some ((decimalValue digits * 1024 ^ 4) % 2 ^ 64)
      | some 'G' => some ((decimalValue digits * 1024 ^ 3) % 2 ^ 64)
      | some 'M' => some ((decimalValue digits * 1024 ^ 2) % 2 ^ 64)
      | some 'K' => some ((decimalValue digits * 1024) % 2 ^ 64)
      | some 'B' => some ((decimalValue digits * 1) % 2 ^ 64)
      | _ => some 0 := by
  unfold toBytes
  rw [hb]
  simp only [ParseUint_decimal digits hd hv]
  rw [if_neg (by simp; omega)]

theorem toBytes_one (s digits : Str) (u X : Char) (hX : X ∈ ['B', 'K', 'M', 'G', 'T'])
    (hup : toUpper u = X) (hT : TrimSpace s = digits ++ [u]) (hd : isDecimal digits)
    (hv : decimalValue digits < 2 ^ 64) (h1 : 1 ≤ decimalValue digits) :
    toBytes s =
      match some X with
      | some 'T' => some ((decimalValue digits * 1024 ^ 4) % 2 ^ 64)
      | some 'G' => some ((decimalValue digits * 1024 ^ 3) % 2 ^ 64)
      | some 'M' => some ((decimalValue digits * 1024 ^ 2) % 2 ^ 64)
      | some 'K' => some ((decimalValue digits * 1024) % 2 ^ 64)
      | some 'B' => some ((decimalValue digits * 1) % 2 ^ 64)
      | _ => some 0 := by
  obtain ⟨hcase, hnd, -⟩ := toUpper_eq_unit u X hX hup
  have hlet : isUnitLetter u = true ∨ isLetterB u = true := by
    simp only [List.mem_cons, List.mem_singleton, List.not_mem_nil, or_false] at hX
    rcases hX with rfl | rfl | rfl | rfl | rfl <;> rcases hcase with rfl | rfl <;> decide
  have hpat := bytesPattern_one digits u hd hnd hlet
  rw [← hT] at hpat
  rw [toBytes_of_pattern s digits [u] hpat hd hv h1]
  simp only [List.head?_cons, Option.map_some', hup]

theorem toBytes_two (s digits : Str) (u b X : Char) (hX : X ∈ ['K', 'M', 'G', 'T'])
    (hup : toUpper u = X) (hb : toUpper b = 'B') (hT : TrimSpace s = digits ++ [u, b])
    (hd : isDecimal digits) (hv : decimalValue digits < 2 ^ 64)
    (h1 : 1 ≤ decimalValue digits) :
    toBytes s =
      match some X with
      | some 'T' => some ((decimalValue digits * 1024 ^ 4) % 2 ^ 64)
      | some 'G' => some ((decimalValue digits * 1024 ^ 3) % 2 ^ 64)
      | some 'M' => some ((decimalValue digits * 1024 ^ 2) % 2 ^ 64)
      | some 'K' => some ((decimalValue digits * 1024) % 2 ^ 64)
      | some 'B' => some ((decimalValue digits * 1) % 2 ^ 64)
      | _ => some 0 := by
  have hX5 : X ∈ ['B', 'K', 'M', 'G', 'T'] := List.mem_cons_of_mem _ hX
  obtain ⟨hcase, hnd, -⟩ := toUpper_eq_unit u X hX5 hup
  obtain ⟨hcaseb, -, -⟩ := toUpper_eq_unit b 'B' (by decide) hb
  have hlet : isUnitLetter u = true ∧ isLetterB b = true := by
    simp only [List.mem_cons, List.mem_singleton, List.not_mem_nil, or_false] at hX
    rcases hX with rfl | rfl | rfl | rfl <;> rcases hcase with rfl | rfl <;>
      rcases hcaseb with rfl | rfl <;> decide
  have hpat := bytesPattern_two digits u b hd hnd hlet
  rw [← hT] at hpat
  rw [toBytes_of_pattern s digits [u, b] hpat hd hv h1]
  simp only [List.head?_cons, Option.map_some', hup]

theorem toBytes_value (s digits unit : Str) (k : Nat) (hT : TrimSpace s = digits ++ unit)
    (hd : isDecimal digits) (hu : unitExponent unit = some k)
    (hv : decimalValue digits < 2 ^ 64) (h1 : 1 ≤ decimalValue digits) :
    toBytes s = some ((decimalValue digits * 1024 ^ k) % 2 ^ 64) := by
  unfold unitExponent at hu
  split at hu
  case h_10 => exact absurd hu (by simp)
  all_goals
    rename_i heq
    simp only [Option.some.injEq] at hu
    subst hu
    first
      | (obtain ⟨u, rfl, hup⟩ := map_eq_one unit _ heq
         rw [toBytes_one s digits u _ (by decide) hup hT hd hv h1]
         norm_num)
      | (obtain ⟨u, b, rfl, hup, hb⟩ := map_eq_two unit _ _ heq
         rw [toBytes_two s digits u b _ (by decide) hup hb hT hd hv h1]
         norm_num)

theorem unitExponent_of_letters (unit : Str) (hk : kelvinSign ∉ unit)
    (h : (∃ u, unit = [u] ∧ (isUnitLetter u = true ∨ isLetterB u = true)) ∨
         (∃ u b, unit = [u, b] ∧ isUnitLetter u = true ∧ isLetterB b = true)) :
    ∃ k, unitExponent unit = some k := by
  rcases h with ⟨u, rfl, h⟩ | ⟨u, b, rfl, h1, h2⟩
  · have hu : u ≠ kelvinSign := fun e => hk (by rw [e]; simp)
    simp only [isUnitLetter, isLetterB, List.mem_cons, List.mem_singleton, List.not_mem_nil,
      or_false, decide_eq_true_eq] at h
    rcases h with (rfl | rfl | rfl | rfl | rfl | rfl | rfl | rfl | rfl) | rfl | rfl
    all_goals first
      | exact absurd rfl hu
      | exact ⟨_, rfl⟩
  · have hu : u ≠ kelvinSign := fun e => hk (by rw [e]; simp)
    simp only [isUnitLetter, isLetterB, List.mem_cons, List.mem_singleton, List.not_mem_nil,
      or_false, decide_eq_true_eq] at h1 h2
    rcases h1 with rfl | rfl | rfl | rfl | rfl | rfl | rfl | rfl | rfl <;>
      rcases h2 with rfl | rfl
    all_goals first
      | exact absurd rfl hu
      | exact ⟨_, rfl⟩

theorem TrimSpace_subset (s : Str) (c : Char) (h : c ∈ TrimSpace s) : c ∈ s := by
  unfold TrimSpace at h
  rw [List.mem_reverse] at h
  have h2 := (List.dropWhile_sublist _).subset h
  rw [List.mem_reverse] at h2
  exact (List.dropWhile_sublist _).subset h2

/-! ## C27 -/

/-- C27, the claim as written fails: "18446744073709551616B" is a decimal
integer of value at least 1 followed by the unit B and toBytes returns the
error; "16777216T" succeeds with the result 0, not 16777216 times 1024^4; and
"5" followed by the Kelvin sign, which is not one of the listed units,
succeeds with the result 0. -/
theorem toBytes_not_exact :
    toBytes "18446744073709551616B".toList = none ∧
    toBytes "16777216T".toList = some 0 ∧
    16777216 * 1024 ^ 4 ≠ 0 ∧
    toBytes ['5', kelvinSign] = some 0 ∧
    unitExponent [kelvinSign] = none := by
  decide

/-- C27, amended: for an input without the Kelvin sign, toBytes succeeds
exactly when the input, after trimming surrounding whitespace, is a non-empty
string of decimal digits of value between 1 and 2^64 - 1 followed by one of
the units B, K, KB, M, MB, G, GB, T, TB in any letter case; and whenever the
input has that form and the value multiplied by 1024^k (k = 0 for B, 1 for K,
2 for M, 3 for G, 4 for T) is below 2^64, toBytes returns exactly that
product. -/
theorem toBytes_contract (s : Str) (hk : kelvinSign ∉ s) :
    ((toBytes s).isSome = true ↔
      ∃ digits unit k, TrimSpace s = digits ++ unit ∧ isDecimal digits ∧
        unitExponent unit = some k ∧ 1 ≤ decimalValue digits ∧
        decimalValue digits < 2 ^ 64) ∧
    (∀ digits unit k, TrimSpace s = digits ++ unit → isDecimal digits →
      unitExponent unit = some k → 1 ≤ decimalValue digits →
      decimalValue digits * 1024 ^ k < 2 ^ 64 →
      toBytes s = some (decimalValue digits * 1024 ^ k)) := by
  constructor
  · constructor
    · intro h
      cases hb : bytesPattern (TrimSpace s) with
      | none =>
        unfold toBytes at h
        rw [hb] at h
        simp at h
      | some nu =>
        obtain ⟨num, unit⟩ := nu
        unfold toBytes at h
        rw [hb] at h
        simp only at h
        split_ifs at h with hc
        · simp at h
        · have hc2 : (ParseUint num).2 = false ∧ 1 ≤ (ParseUint num).1 := by
            constructor
            · cases hp : (ParseUint num).2
              · rfl
              · exact absurd (Or.inl hp) hc
            · by_contra hlt
              exact hc (Or.inr (by omega))
          obtain ⟨hdec, hval, hlt⟩ := ParseUint_ok num (ParseUint num).1
            (Prod.ext rfl hc2.1)
          obtain ⟨hT, hshape⟩ := bytesPattern_inv _ num unit hb hdec
          have hku : kelvinSign ∉ unit := fun hm =>
            hk (TrimSpace_subset s _ (by rw [hT]; exact List.mem_append_right _ hm))
          obtain ⟨k, hk2⟩ := unitExponent_of_letters unit hku hshape
          exact ⟨num, unit, k, hT, hdec, hk2, by rw [← hval]; exact hc2.2,
            by rw [← hval]; exact hlt⟩
    · rintro ⟨digits, unit, k, hT, hd, hu, h1, hv⟩
      rw [toBytes_value s digits unit k hT hd hu hv h1]
      rfl
  · intro digits unit k hT hd hu h1 hprod
    have hv : decimalValue digits < 2 ^ 64 :=
      lt_of_le_of_lt (Nat.le_mul_of_pos_right _ (by positivity)) hprod
    rw [toBytes_value s digits unit k hT hd hu hv h1, Nat.mod_eq_of_lt hprod]

/-- Witness for C27: the input " 10mb " gives 10 times 1024^2. -/
theorem toBytes_contract_witness :
    toBytes " 10mb ".toList = some (decimalValue "10".toList * 1024 ^ 2) :=
  (toBytes_contract " 10mb ".toList (by decide)).2 "10".toList "mb".toList 2
    (by decide) ⟨by decide, by decide⟩ (by decide) (by decide) (by decide)

/-! ## C28 -/

/-- C28, the code aborts: in the Idle phase the chunk "C0644 123\n", which
has no space after the size field, makes both Read and Write fail on a slice
out of range, whether the buffer ends with the chunk, is zero-filled after it
or holds older bytes with a space after it; so do the two-byte chunks "C\n"
and "D\n". A size field that is not a decimal number is tolerated: the header
"C0644 abc f\n" is accepted with the expected size 0. -/
theorem interceptors_abort_on_short_header :
    Read 0 newFrame "C0644 123\n".toList 10 = none ∧
    Write newFrame "C0644 123\n".toList 10 = none ∧
    Read 0 newFrame ("C0644 123\n".toList ++ List.replicate 22 (Char.ofNat 0)) 10 = none ∧
    Write newFrame ("C0644 123\n".toList ++ List.replicate 22 (Char.ofNat 0)) 10 = none ∧
    Read 0 newFrame ("C0644 123\n".toList ++ "xx yy".toList) 10 = none ∧
    Write newFrame ("C0644 123\n".toList ++ "xx yy".toList) 10 = none ∧
    Read 0 newFrame ("C\n".toList ++ List.replicate 30 (Char.ofNat 0)) 2 = none ∧
    Write newFrame ("C\n".toList ++ List.replicate 30 (Char.ofNat 0)) 2 = none ∧
    Read 0 newFrame ("D\n".toList ++ List.replicate 30 (Char.ofNat 0)) 2 = none ∧
    Write newFrame ("D\n".toList ++ List.replicate 30 (Char.ofNat 0)) 2 = none ∧
    (Read 0 newFrame "C0644 abc f\n".toList 12).map (fun r => r.frame)
      = some ⟨1, [], "f".toList, 0, 0⟩ ∧
    (Write newFrame "C0644 abc f\n".toList 12).map (fun r => r.frame)
      = some ⟨1, [], "f".toList, 0, 0⟩ := by
  decide

/-! ## C29 -/

/-- C29, the code aborts: for every password, validatePass fails on an index
out of range when the stored hash field is empty, "$", "$$x", "$0" or
"$6$salt", and validateUser, reaching the store line "bob::rw:/:0::p" or
"bob:$6$salt:rw:/:0::p" for the presented user bob, aborts instead of
rejecting the login; a hash field that does not start with '$' is rejected
without failure. -/
theorem validatePass_aborts_on_malformed_hash (Sum512 : Str → Str) (pass : Str) :
    validatePass Sum512 pass [] = none ∧
    validatePass Sum512 pass "$".toList = none ∧
    validatePass Sum512 pass "$$x".toList = none ∧
    validatePass Sum512 pass "$0".toList = none ∧
    validatePass Sum512 pass "$6$salt".toList = none ∧
    validatePass Sum512 pass ":$0$asd".toList = some false ∧
    validateUser Sum512 ["bob::rw:/:0::p".toList] "bob".toList pass = none ∧
    validateUser Sum512 ["bob:$6$salt:rw:/:0::p".toList] "bob".toList pass = none ∧
    validateUser Sum512 ["bob:nohash:rw:/:0::p".toList] "bob".toList pass
      = some ⟨none, ["bob:nohash:rw:/:0::p".toList]⟩ := by
  refine ⟨rfl, rfl, rfl, rfl, rfl, rfl, rfl, rfl, rfl⟩

end ScpDrop
